import Mathlib

/-!
# Frame pipeline of the Ethernet/TCP video firmware

Shallow embedding of `v2_LoopBack_workspace/src/echo.c` (receive ring, asynchronous
sender) and of the main loop of `v3_Video_Streaming_workspace/src/main.c`.

Conventions
* C `int` variables are `Int`, `u32` variables are `Nat` with explicit wrap-around at `2^32`,
  bytes are `Fin 256`.
* A pointer to a `pbuf` chain is the list of the payloads of its segments; `NULL` is `[]`.
* Other pointers are addresses (`Nat`), `NULL` is `0`.
* An array access outside its bounds is undefined behaviour in C; the embedded functions
  return `none` there.
* Calls into lwIP and the Xilinx drivers are recorded as events (`Ev`) in call order.
-/

namespace EthTcp

/-! ## Configuration macros -/

abbrev u8 := Fin 256

/-- The value of lwIP's `ERR_OK`. -/
def ERR_OK : Int := 0

/-- The value of lwIP's `ERR_MEM`. -/
def ERR_MEM : Int := -1

def IN_IMG_W : Nat := 320
def IN_IMG_H : Nat := 180
def IN_BPP : Nat := 3
def IN_FRAME_BYTES : Nat := IN_IMG_W * IN_IMG_H * IN_BPP
def NUM_BUFFERS : Nat := 10
def TCP_TX_CHUNK : Nat := 1460

/-- The `#define`s of echo.c that size the ring and the outbound chunks. -/
structure Config where
  IN_FRAME_BYTES : Nat
  NUM_BUFFERS : Nat
  TCP_TX_CHUNK : Nat
deriving DecidableEq, Repr

/-- The configuration compiled into echo.c. -/
def echo_config : Config :=
  { IN_FRAME_BYTES := IN_FRAME_BYTES, NUM_BUFFERS := NUM_BUFFERS, TCP_TX_CHUNK := TCP_TX_CHUNK }

/-- A configuration the C types can hold: a ring of at least one slot, a frame of at least one
byte, and sizes that fit `int` / `u32`. -/
def Config.ok (c : Config) : Prop :=
  0 < c.NUM_BUFFERS ∧ c.NUM_BUFFERS < 2147483647 ∧ 0 < c.IN_FRAME_BYTES ∧ c.IN_FRAME_BYTES < 2147483648

instance (c : Config) : Decidable c.ok := by unfold Config.ok; infer_instance

/-! ## Machine arithmetic -/

def U32 : Nat := 4294967296

/-- Subtraction of two `u32` values. -/
def u32_sub (a b : Nat) : Nat := (a % U32 + U32 - b % U32) % U32

/-- Addition of two `u32` values. -/
def u32_add (a b : Nat) : Nat := (a + b) % U32

/-! ## Globals of echo.c -/

structure EchoState where
  client_pcb : Nat
  tcp_rx_buffers : List (List u8)
  tcp_rx_ready : List u8
  tcp_rx_wr_idx : Int
  tcp_rx_rd_idx : Int
  tcp_rx_count : Int
  tcp_rx_offset : Nat
  tcp_tx_buf_ptr : Nat
  tcp_tx_buf_len : Nat
  tcp_tx_sent_len : Nat
  tcp_tx_active : u8
deriving DecidableEq, Repr

/-- The static initialisers of echo.c: every global is zero. -/
def EchoState.init (c : Config) : EchoState :=
  { client_pcb := 0
    tcp_rx_buffers := List.replicate c.NUM_BUFFERS (List.replicate c.IN_FRAME_BYTES 0)
    tcp_rx_ready := List.replicate c.NUM_BUFFERS 0
    tcp_rx_wr_idx := 0
    tcp_rx_rd_idx := 0
    tcp_rx_count := 0
    tcp_rx_offset := 0
    tcp_tx_buf_ptr := 0
    tcp_tx_buf_len := 0
    tcp_tx_sent_len := 0
    tcp_tx_active := 0 }

/-- Calls into lwIP and the platform, in the order the code makes them. The `memcpy` event
also records the value `tcp_rx_ready[slot]` had when the copy ran, the `tcp_write` event the
`err_t` the transport returned. The events `tcp_recv` and `tcp_sent` are the registrations of
`recv_callback` and `send_callback` on a connection. -/
inductive Ev where
  | memcpy (slot : Int) (off : Nat) (len : Nat) (ready : u8)
  | flush (slot : Int)
  | tcp_recved (pcb : Nat) (len : Nat)
  | pbuf_free
  | tcp_close (pcb : Nat)
  | tcp_write (pcb : Nat) (data : List u8) (res : Int)
  | tcp_output (pcb : Nat)
  | tcp_recv (pcb : Nat)
  | tcp_sent (pcb : Nat)
deriving DecidableEq, Repr

/-! ## Helpers -/

def rx_full (c : Config) (s : EchoState) : Bool := s.tcp_rx_count == (c.NUM_BUFFERS : Int)

def rx_empty (s : EchoState) : Bool := s.tcp_rx_count == 0

/-- Read `tcp_rx_ready[i]`. -/
def rx_ready_at (c : Config) (s : EchoState) (i : Int) : Option u8 :=
  if 0 ≤ i ∧ i < (c.NUM_BUFFERS : Int) then s.tcp_rx_ready[i.toNat]? else none

/-- Read the row `tcp_rx_buffers[i]`. -/
def rx_buffer_at (c : Config) (s : EchoState) (i : Int) : Option (List u8) :=
  if 0 ≤ i ∧ i < (c.NUM_BUFFERS : Int) then s.tcp_rx_buffers[i.toNat]? else none

/-! ## Public: peek / pop -/

/-- The function `tcp_rx_peek_frame`: `some none` is the `NULL` return, `some (some (i, b))` is
the return of row `b = tcp_rx_buffers[i]` with `*idx_out = i`. -/
def tcp_rx_peek_frame (c : Config) (s : EchoState) : Option (Option (Int × List u8)) :=
  if rx_empty s then some none
  else
    match rx_ready_at c s s.tcp_rx_rd_idx with
    | none => none
    | some f =>
      if f = 0 then some none
      else
        match rx_buffer_at c s s.tcp_rx_rd_idx with
        | none => none
        | some b => some (some (s.tcp_rx_rd_idx, b))

/-- The function `tcp_rx_pop_frame`, with its return value. -/
def tcp_rx_pop_frame (c : Config) (s : EchoState) : Option (EchoState × Int) :=
  if rx_empty s then some (s, -1)
  else
    match rx_ready_at c s s.tcp_rx_rd_idx with
    | none => none
    | some f =>
      if f = 0 then some (s, -1)
      else
        some ({ s with
                tcp_rx_ready := s.tcp_rx_ready.set s.tcp_rx_rd_idx.toNat 0
                tcp_rx_rd_idx := Int.tmod (s.tcp_rx_rd_idx + 1) (c.NUM_BUFFERS : Int)
                tcp_rx_count := s.tcp_rx_count - 1 }, 0)

/-! ## RX callback -/

/-- The bytes of `buf` after `memcpy(buf + off, src, src.length)`. -/
def write_at (buf : List u8) (off : Nat) (src : List u8) : List u8 :=
  buf.take off ++ src ++ buf.drop (off + src.length)

/-- Globals and locals of one activation of `recv_callback`. -/
structure Rx where
  g : EchoState
  copied : Nat
  log : List Ev
deriving DecidableEq, Repr

/-- What one call of `recv_callback` leaves behind: the globals, the returned `err_t`, the
external calls made, and the final value of the local `copied`. -/
structure RecvRet where
  g : EchoState
  err : Int
  log : List Ev
  copied : Nat
deriving DecidableEq, Repr

/-- The three statements `memcpy(&tcp_rx_buffers[tcp_rx_wr_idx][tcp_rx_offset], src, n);
tcp_rx_offset += n; copied += n;` where `n = src.length`. -/
def rx_copy (c : Config) (r : Rx) (src : List u8) : Option Rx :=
  match rx_buffer_at c r.g r.g.tcp_rx_wr_idx, rx_ready_at c r.g r.g.tcp_rx_wr_idx with
  | some buf, some f =>
    if r.g.tcp_rx_offset + src.length ≤ c.IN_FRAME_BYTES then
      some { g := { r.g with
                    tcp_rx_buffers :=
                      r.g.tcp_rx_buffers.set r.g.tcp_rx_wr_idx.toNat
                        (write_at buf r.g.tcp_rx_offset src)
                    tcp_rx_offset := u32_add r.g.tcp_rx_offset src.length }
             copied := u32_add r.copied src.length
             log := r.log ++ [Ev.memcpy r.g.tcp_rx_wr_idx r.g.tcp_rx_offset src.length f] }
    else none
  | _, _ => none

/-- The body of `if (tcp_rx_offset == IN_FRAME_BYTES) { ... }` up to `tcp_rx_offset = 0;`:
flush, mark the slot ready, count it, advance the write index. -/
def rx_close (c : Config) (r : Rx) : Option Rx :=
  if 0 ≤ r.g.tcp_rx_wr_idx ∧ r.g.tcp_rx_wr_idx < (c.NUM_BUFFERS : Int)
      ∧ r.g.tcp_rx_wr_idx.toNat < r.g.tcp_rx_ready.length then
    some { r with
           g := { r.g with
                  tcp_rx_ready := r.g.tcp_rx_ready.set r.g.tcp_rx_wr_idx.toNat 1
                  tcp_rx_count := r.g.tcp_rx_count + 1
                  tcp_rx_wr_idx := Int.tmod (r.g.tcp_rx_wr_idx + 1) (c.NUM_BUFFERS : Int)
                  tcp_rx_offset := 0 }
           log := r.log ++ [Ev.flush r.g.tcp_rx_wr_idx] }
  else none

/-- The statement `if (copied > 0) tcp_recved(tpcb, copied);` (the length parameter of
`tcp_recved` is a `u16_t`). -/
def rx_ack (tpcb : Nat) (r : Rx) : List Ev :=
  if 0 < r.copied then r.log ++ [Ev.tcp_recved tpcb (r.copied % 65536)] else r.log

/-- The two stall exits inside the loop: acknowledge what was copied, return `ERR_MEM`. -/
def rx_stall (tpcb : Nat) (r : Rx) : RecvRet :=
  { g := r.g, err := ERR_MEM, log := rx_ack tpcb r, copied := r.copied }

/-- The end of a loop iteration, from the second `if (tcp_rx_offset == IN_FRAME_BYTES)` on;
`next` is `q` after `q = q->next` and `loop` continues with it. -/
def rx_iter_end (c : Config) (tpcb : Nat) (next : List (List u8))
    (loop : Rx → Option RecvRet) (r : Rx) : Option RecvRet :=
  if r.g.tcp_rx_offset = c.IN_FRAME_BYTES then
    match rx_close c r with
    | none => none
    | some r1 =>
      if rx_full c r1.g ∧ next ≠ [] then some (rx_stall tpcb r1) else loop r1
  else loop r

/-- The loop `while (q) { ... }` of `recv_callback` followed by the success exit. -/
def recv_loop (c : Config) (tpcb : Nat) : List (List u8) → Rx → Option RecvRet
  | [], r =>
    some { g := r.g, err := ERR_OK, log := rx_ack tpcb r ++ [Ev.pbuf_free], copied := r.copied }
  | src :: next, r =>
    let remain := u32_sub c.IN_FRAME_BYTES r.g.tcp_rx_offset
    if src.length ≤ remain then
      match rx_copy c r src with
      | none => none
      | some r1 => rx_iter_end c tpcb next (recv_loop c tpcb next) r1
    else
      match (if 0 < remain then rx_copy c r (src.take remain) else some r) with
      | none => none
      | some r1 =>
        match (if r1.g.tcp_rx_offset = c.IN_FRAME_BYTES then rx_close c r1 else some r1) with
        | none => none
        | some r2 =>
          if rx_full c r2.g then some (rx_stall tpcb r2)
          else
            match rx_copy c r2 (if 0 < remain then src.drop remain else src) with
            | none => none
            | some r3 => rx_iter_end c tpcb next (recv_loop c tpcb next) r3

/-- The function `recv_callback(arg, tpcb, p, err)`. -/
def recv_callback (c : Config) (s : EchoState) (tpcb : Nat) (p : List (List u8)) :
    Option RecvRet :=
  if p = [] then
    if s.tcp_tx_active = 0 then
      some { g := { s with client_pcb := 0 }, err := ERR_OK, log := [Ev.tcp_close tpcb],
             copied := 0 }
    else some { g := s, err := ERR_OK, log := [], copied := 0 }
  else if rx_full c s ∧ s.tcp_rx_offset = 0 then
    some { g := s, err := ERR_MEM, log := [], copied := 0 }
  else recv_loop c tpcb p { g := s, copied := 0, log := [] }

/-! ## Accept callback -/

/-- What one call of `accept_callback` leaves behind: the globals, the returned `err_t` and
the external calls made. -/
structure AcceptRet where
  g : EchoState
  err : Int
  log : List Ev
deriving DecidableEq, Repr

/-- The function `accept_callback(arg, newpcb, err)`. -/
def accept_callback (s : EchoState) (newpcb : Nat) : AcceptRet :=
  { g := { s with client_pcb := newpcb }
    err := ERR_OK
    log := [Ev.tcp_recv newpcb, Ev.tcp_sent newpcb] }

/-! ## TX: asynchronous send -/

/-- What the transport answers during one pass of the send loop: the value returned by
`tcp_sndbuf` (read into a `u16_t`) and the `err_t` returned by `tcp_write` (consulted only
when the pass reaches the call). -/
structure NetResp where
  sndbuf : Nat
  write_err : Int
deriving DecidableEq, Repr

/-- The bytes `mem[addr], ..., mem[addr + len - 1]`. -/
def mem_read (mem : Nat → u8) (addr len : Nat) : List u8 :=
  (List.range len).map fun i => mem (addr + i)

/-- What one call of `send_callback` / `start_sending` leaves behind: the globals, the return
value, the external calls made, and the index of the first transport answer not yet used. -/
structure SendRet where
  g : EchoState
  ret : Int
  log : List Ev
  next : Nat
deriving DecidableEq, Repr

/-- The loop `while (tcp_tx_sent_len < tcp_tx_buf_len) { ... }` of `send_callback` with the
statements after it. Pass number `i` of the firmware's life is answered by `net i`; `none`
means the fuel ran out. -/
def send_loop (c : Config) (mem : Nat → u8) (net : Nat → NetResp) (tpcb : Nat) :
    Nat → Nat → EchoState → List Ev → Option SendRet
  | 0, _, _, _ => none
  | fuel + 1, i, s, log =>
    if s.tcp_tx_sent_len < s.tcp_tx_buf_len then
      let sndbuf := (net i).sndbuf % 65536
      if sndbuf = 0 then some { g := s, ret := ERR_OK, log := log, next := i + 1 }
      else
        let remain := u32_sub s.tcp_tx_buf_len s.tcp_tx_sent_len
        let chunk0 := if remain > c.TCP_TX_CHUNK then c.TCP_TX_CHUNK else remain
        let chunk := if chunk0 > sndbuf then sndbuf else chunk0
        let e := (net i).write_err
        let log1 :=
          log ++ [Ev.tcp_write tpcb (mem_read mem (s.tcp_tx_buf_ptr + s.tcp_tx_sent_len) chunk) e]
        if e = ERR_OK then
          send_loop c mem net tpcb fuel (i + 1)
            { s with tcp_tx_sent_len := u32_add s.tcp_tx_sent_len chunk }
            (log1 ++ [Ev.tcp_output tpcb])
        else if e = ERR_MEM then some { g := s, ret := ERR_OK, log := log1, next := i + 1 }
        else some { g := { s with tcp_tx_active := 0 }, ret := e, log := log1, next := i + 1 }
    else if s.tcp_tx_sent_len ≥ s.tcp_tx_buf_len then
      some { g := { s with tcp_tx_active := 0 }, ret := ERR_OK, log := log, next := i }
    else some { g := s, ret := ERR_OK, log := log, next := i }

/-- The function `send_callback(arg, tpcb, len)`, started at transport answer `i`. Every pass
that does not return queues at least one byte, so `tcp_tx_buf_len - tcp_tx_sent_len + 1`
passes are enough fuel. -/
def send_callback (c : Config) (mem : Nat → u8) (net : Nat → NetResp) (i : Nat)
    (s : EchoState) (tpcb : Nat) : Option SendRet :=
  if s.tcp_tx_active = 0 then some { g := s, ret := ERR_OK, log := [], next := i }
  else send_loop c mem net tpcb (s.tcp_tx_buf_len - s.tcp_tx_sent_len + 1) i s []

/-- The function `start_sending(buf, len)`. -/
def start_sending (c : Config) (mem : Nat → u8) (net : Nat → NetResp) (i : Nat)
    (s : EchoState) (buf : Nat) (len : Nat) : Option SendRet :=
  if s.client_pcb = 0 ∨ s.tcp_tx_active ≠ 0 then
    some { g := s, ret := -1, log := [], next := i }
  else
    send_callback c mem net i
      { s with tcp_tx_buf_ptr := buf, tcp_tx_buf_len := len, tcp_tx_sent_len := 0,
               tcp_tx_active := 1 }
      s.client_pcb

def tcp_tx_is_busy (s : EchoState) : Bool := s.tcp_tx_active != 0

/-- Invoke `send_callback` on the connection `n` more times after `r`, as lwIP does on
successive window-available (`tcp_sent`) signals, keeping one log of all external calls. -/
def send_resume (c : Config) (mem : Nat → u8) (net : Nat → NetResp) (tpcb : Nat) :
    Nat → SendRet → Option SendRet
  | 0, r => some r
  | n + 1, r =>
    match send_callback c mem net r.next r.g tpcb with
    | none => none
    | some r1 => send_resume c mem net tpcb n { r1 with log := r.log ++ r1.log }

/-- The data of every chunk passed to `tcp_write`, in call order. -/
def handed : List Ev → List u8
  | [] => []
  | Ev.tcp_write _ data _ :: rest => data ++ handed rest
  | _ :: rest => handed rest

/-- The data of the chunks `tcp_write` took (returned `ERR_OK`), in call order. -/
def queued : List Ev → List u8
  | [] => []
  | Ev.tcp_write _ data res :: rest => if res = ERR_OK then data ++ queued rest else queued rest
  | _ :: rest => queued rest

/-! ## main.c: the transform pipeline -/

def OUT_IMG_W : Nat := 1280
def OUT_IMG_H : Nat := 720
def OUT_BPP : Nat := 4
def OUT_FRAME_BYTES : Nat := OUT_IMG_W * OUT_IMG_H * OUT_BPP

/-- The value of `XST_SUCCESS` in the Xilinx `xstatus.h`. -/
def XST_SUCCESS : Nat := 0

/-- The DMA engine as seen by one call of `process_one_frame`: the status of the two
`XAxiDma_SimpleTransfer` submissions and the answer of the `n`-th `XAxiDma_Busy` poll of each
channel. -/
structure Dma where
  s2mm : Nat
  mm2s : Nat
  busy_s2mm : Nat → Bool
  busy_mm2s : Nat → Bool

/-- One loop `while (XAxiDma_Busy(..)) { if (++timeout > 100000000) return -2; }`, entered with
`timeout` and `polls` polls already made: `(true, n)` when the channel was seen idle at the
`n`-th poll, `(false, n)` when the loop returned -2 there. `none` means the fuel ran out. -/
def dma_wait (busy : Nat → Bool) : Nat → Int → Nat → Option (Bool × Nat)
  | 0, _, _ => none
  | fuel + 1, timeout, polls =>
    if busy polls then
      if timeout + 1 > 100000000 then some (false, polls + 1)
      else dma_wait busy fuel (timeout + 1) (polls + 1)
    else some (true, polls + 1)

/-- The return value of `process_one_frame` with the number of polls made on each channel. -/
structure ProcRet where
  ret : Int
  polls_s2mm : Nat
  polls_mm2s : Nat
deriving DecidableEq, Repr

/-- The function `process_one_frame(in_ptr, out_ptr)`; its result depends on the pointers only
through the DMA engine, so they are left out. -/
def process_one_frame (dma : Dma) : Option ProcRet :=
  if dma.s2mm ≠ XST_SUCCESS ∨ dma.mm2s ≠ XST_SUCCESS then
    some { ret := -1, polls_s2mm := 0, polls_mm2s := 0 }
  else
    match dma_wait dma.busy_s2mm 100000002 0 0 with
    | none => none
    | some (false, n1) => some { ret := -2, polls_s2mm := n1, polls_mm2s := 0 }
    | some (true, n1) =>
      match dma_wait dma.busy_mm2s 100000002 0 0 with
      | none => none
      | some (false, n2) => some { ret := -2, polls_s2mm := n1, polls_mm2s := n2 }
      | some (true, n2) => some { ret := 0, polls_s2mm := n1, polls_mm2s := n2 }

/-- The globals the main loop works on: those of echo.c and the selector `cur_out`. -/
structure MainState where
  g : EchoState
  cur_out : Nat
deriving DecidableEq, Repr

/-- One pass over the block `if (!tcp_tx_is_busy()) { ... }` of the main loop: the globals
after it and, for each of the four calls, its result if the call was made. -/
structure StepRet where
  st : MainState
  peeked : Option (Option (Int × List u8))
  proc : Option ProcRet
  tx_res : Option Int
  pop_res : Option Int
  log : List Ev
  next : Nat
deriving DecidableEq, Repr

/-- The block `if (!tcp_tx_is_busy()) { ... }` of the main loop; `out_buf0` and `out_buf1`
are the addresses of the two output buffers. -/
def main_step (c : Config) (out_buf0 out_buf1 : Nat) (mem : Nat → u8) (net : Nat → NetResp)
    (i : Nat) (dma : Dma) (ms : MainState) : Option StepRet :=
  if tcp_tx_is_busy ms.g then
    some { st := ms, peeked := none, proc := none, tx_res := none, pop_res := none,
           log := [], next := i }
  else
    match tcp_rx_peek_frame c ms.g with
    | none => none
    | some none =>
      some { st := ms, peeked := some none, proc := none, tx_res := none, pop_res := none,
             log := [], next := i }
    | some (some fr) =>
      match process_one_frame dma with
      | none => none
      | some pr =>
        if pr.ret = 0 then
          match start_sending c mem net i ms.g ms.cur_out OUT_FRAME_BYTES with
          | none => none
          | some tx =>
            let flipped := if ms.cur_out = out_buf0 then out_buf1 else out_buf0
            if tx.ret = 0 then
              match tcp_rx_pop_frame c tx.g with
              | none => none
              | some (g1, pr1) =>
                some { st := { g := g1, cur_out := flipped }, peeked := some (some fr),
                       proc := some pr, tx_res := some tx.ret, pop_res := some pr1,
                       log := tx.log, next := tx.next }
            else
              some { st := { g := tx.g, cur_out := flipped }, peeked := some (some fr),
                     proc := some pr, tx_res := some tx.ret, pop_res := none,
                     log := tx.log, next := tx.next }
        else
          some { st := ms, peeked := some (some fr), proc := some pr, tx_res := none,
                 pop_res := none, log := [], next := i }

/-! ## Runs of the receive ring -/

/-- The configuration of the end-to-end scenario of the specification: two slots of four
bytes. -/
def scenario_config : Config := { IN_FRAME_BYTES := 4, NUM_BUFFERS := 2, TCP_TX_CHUNK := 1460 }

/-- The calls the ring receives: a delivery to `recv_callback`, a lone `tcp_rx_peek_frame`,
and the consumer's `tcp_rx_peek_frame` directly followed by `tcp_rx_pop_frame`. -/
inductive Op where
  | recv (tpcb : Nat) (p : List (List u8))
  | peek
  | pop
deriving DecidableEq, Repr

/-- What a call answered. For `pop` the answer of the preceding peek is kept with the return
value of `tcp_rx_pop_frame`. -/
inductive Out where
  | recv (err : Int) (copied : Nat) (log : List Ev)
  | peek (res : Option (Int × List u8))
  | pop (peeked : Option (Int × List u8)) (ret : Int)
deriving DecidableEq, Repr

/-- One call together with the globals it started from. -/
structure Entry where
  pre : EchoState
  op : Op
  out : Out
deriving DecidableEq, Repr

def step (c : Config) (s : EchoState) : Op → Option (EchoState × Out)
  | Op.recv tpcb p =>
    match recv_callback c s tpcb p with
    | none => none
    | some r => some (r.g, Out.recv r.err r.copied r.log)
  | Op.peek =>
    match tcp_rx_peek_frame c s with
    | none => none
    | some res => some (s, Out.peek res)
  | Op.pop =>
    match tcp_rx_peek_frame c s, tcp_rx_pop_frame c s with
    | some res, some (s1, ret) => some (s1, Out.pop res ret)
    | _, _ => none

/-- Run the calls in order from `s`; the result is the final globals and the record of every
call. -/
def exec (c : Config) : EchoState → List Op → Option (EchoState × List Entry)
  | s, [] => some (s, [])
  | s, op :: ops =>
    match step c s op with
    | none => none
    | some (s1, out) =>
      match exec c s1 ops with
      | none => none
      | some (s2, tr) => some (s2, { pre := s, op := op, out := out } :: tr)

/-- The payload of a chain as one byte string. -/
def chain_bytes (p : List (List u8)) : List u8 := p.flatten

/-- The bytes a call took from the transport: for a delivery, the first `copied` bytes of
the chunk. -/
def Entry.bytes (e : Entry) : List u8 :=
  match e.op, e.out with
  | Op.recv _ p, Out.recv _ copied _ => (chain_bytes p).take copied
  | _, _ => []

/-- The frame a call handed to the consumer: the row returned by a peek that was followed by
a pop returning 0. -/
def Entry.frame (e : Entry) : Option (List u8) :=
  match e.out with
  | Out.pop (some (_, frame)) ret => if ret = 0 then some frame else none
  | _ => none

/-- The value of the local `copied` when a delivery returned (0 for the other calls). -/
def Entry.copied (e : Entry) : Nat :=
  match e.out with
  | Out.recv _ n _ => n
  | _ => 0

/-- The number of bytes the deliveries of a run copied into the ring. -/
def copied_total (tr : List Entry) : Nat := (tr.map Entry.copied).sum

/-- The accepted byte stream of a run: the copied parts of the delivered chunks, in delivery
order. -/
def accepted (tr : List Entry) : List u8 := (tr.map Entry.bytes).flatten

/-- The frames the consumer obtained in a run, in order. -/
def consumed (tr : List Entry) : List (List u8) := tr.filterMap Entry.frame

/-- Bytes `[k * F, (k + 1) * F)` of a stream. -/
def frame_of (c : Config) (stream : List u8) (k : Nat) : List u8 :=
  (stream.drop (k * c.IN_FRAME_BYTES)).take c.IN_FRAME_BYTES

/-- A chain lwIP can deliver to this build: every segment length fits the `u16` field `len`
and the chain length fits the `u16` field `tot_len`; no segment is longer than a frame (in
the compiled configuration a frame is longer than any `u16`). -/
def pbuf_ok (c : Config) (p : List (List u8)) : Prop :=
  (∀ seg ∈ p, seg.length ≤ 65535 ∧ seg.length ≤ c.IN_FRAME_BYTES) ∧ (chain_bytes p).length ≤ 65535

instance (c : Config) (p : List (List u8)) : Decidable (pbuf_ok c p) :=
  inferInstanceAs (Decidable ((∀ seg ∈ p, seg.length ≤ 65535 ∧ seg.length ≤ c.IN_FRAME_BYTES)
    ∧ (chain_bytes p).length ≤ 65535))

/-- The chain `q`, delivered at fill offset `off`, never makes a copy run past the end of a
slot: a segment longer than the room left in the current slot leaves at most one frame of
bytes for the next slot. -/
def fits (c : Config) : Nat → List (List u8) → Bool
  | _, [] => true
  | off, src :: next =>
    if src.length ≤ c.IN_FRAME_BYTES - off then
      fits c ((off + src.length) % c.IN_FRAME_BYTES) next
    else
      decide (src.length - (c.IN_FRAME_BYTES - off) ≤ c.IN_FRAME_BYTES) &&
        fits c ((src.length - (c.IN_FRAME_BYTES - off)) % c.IN_FRAME_BYTES) next

/-- A call the transport or the consumer can make: a delivery carries a well-formed chain. -/
def op_ok (c : Config) : Op → Prop
  | Op.recv _ p => pbuf_ok c p
  | _ => True

instance (c : Config) (op : Op) : Decidable (op_ok c op) := by
  cases op <;> unfold op_ok <;> infer_instance

/-- Every call of the run is one the transport or the consumer can make. -/
def ops_ok (c : Config) (ops : List Op) : Prop := ∀ op ∈ ops, op_ok c op

instance (c : Config) (ops : List Op) : Decidable (ops_ok c ops) :=
  inferInstanceAs (Decidable (∀ op ∈ ops, op_ok c op))

/-! ## The ring as a window on the accepted stream -/

/-- The globals `s` hold the stream `acc`: frames `0 .. k-1` of it were popped, frames
`k .. m-1` sit in Ready slots, and the bytes after frame `m-1` fill the slot at the write
index up to the fill offset. -/
structure Abs (c : Config) (s : EchoState) (acc : List u8) (k m : Nat) : Prop where
  hk : k ≤ m
  hm : m ≤ k + c.NUM_BUFFERS
  hlen : acc.length = m * c.IN_FRAME_BYTES + s.tcp_rx_offset
  hoff : s.tcp_rx_offset ≤ c.IN_FRAME_BYTES
  hfull : m = k + c.NUM_BUFFERS → s.tcp_rx_offset = 0
  hcount : s.tcp_rx_count = (m : Int) - (k : Int)
  hwr : s.tcp_rx_wr_idx = ((m % c.NUM_BUFFERS : Nat) : Int)
  hrd : s.tcp_rx_rd_idx = ((k % c.NUM_BUFFERS : Nat) : Int)
  hbufs : s.tcp_rx_buffers.length = c.NUM_BUFFERS
  hready : s.tcp_rx_ready.length = c.NUM_BUFFERS
  hrow : ∀ b ∈ s.tcp_rx_buffers, b.length = c.IN_FRAME_BYTES
  hin : ∀ j, k ≤ j → j < m →
    s.tcp_rx_ready[j % c.NUM_BUFFERS]? = some 1 ∧
    s.tcp_rx_buffers[j % c.NUM_BUFFERS]? = some (frame_of c acc j)
  hout : ∀ i, i < c.NUM_BUFFERS → (∀ j, k ≤ j → j < m → j % c.NUM_BUFFERS ≠ i) →
    s.tcp_rx_ready[i]? = some 0
  htail : ∀ b, s.tcp_rx_buffers[m % c.NUM_BUFFERS]? = some b →
    b.take s.tcp_rx_offset = acc.drop (m * c.IN_FRAME_BYTES)

/-- The window relation together with a fill offset strictly inside the slot: what holds
between two calls. -/
def Inv (c : Config) (s : EchoState) (acc : List u8) (k m : Nat) : Prop :=
  Abs c s acc k m ∧ s.tcp_rx_offset < c.IN_FRAME_BYTES

/-- A copy that stays inside one slot that is not Ready. -/
def copy_ok (c : Config) : Ev → Prop
  | Ev.memcpy slot off len ready =>
    ready = 0 ∧ 0 ≤ slot ∧ slot < (c.NUM_BUFFERS : Int) ∧ off + len ≤ c.IN_FRAME_BYTES
  | _ => True

/-- What the record of one call shows about slot ownership: a delivery copied only into
slots whose ready flag was 0, and a peek returned only the row at the read index with its
ready flag at 1; a pop returned 0 exactly when the peek before it returned a row. -/
def entry_ok (c : Config) (e : Entry) : Prop :=
  match e.out with
  | Out.recv _ _ log => ∀ ev ∈ log, copy_ok c ev
  | Out.peek (some (i, b)) =>
    i = e.pre.tcp_rx_rd_idx ∧ rx_ready_at c e.pre i = some 1 ∧ rx_buffer_at c e.pre i = some b
  | Out.peek none => True
  | Out.pop (some (i, b)) ret =>
    i = e.pre.tcp_rx_rd_idx ∧ rx_ready_at c e.pre i = some 1 ∧ rx_buffer_at c e.pre i = some b
      ∧ ret = 0
  | Out.pop none ret => ret = -1

/-- The total of the lengths passed to `tcp_recved`. -/
def acked : List Ev → Nat
  | [] => 0
  | Ev.tcp_recved _ n :: rest => n + acked rest
  | _ :: rest => acked rest

/-- How many of the bytes `bytes` still fit a ring that holds the stream `acc` after `k`
pops: the ring has room for `k + NUM_BUFFERS` frames of the stream. -/
def taken (c : Config) (k : Nat) (acc bytes : List u8) : Nat :=
  min bytes.length ((k + c.NUM_BUFFERS) * c.IN_FRAME_BYTES - acc.length)

/-- What a delivery of `bytes`, started with stream `acc` and `copied` bytes already counted,
has done when it returns `ret`. -/
structure Post (c : Config) (k : Nat) (acc : List u8) (copied : Nat) (bytes : List u8)
    (ret : RecvRet) (m1 : Nat) : Prop where
  habs : Abs c ret.g (acc ++ bytes.take (taken c k acc bytes)) k m1
  hoff : ret.g.tcp_rx_offset < c.IN_FRAME_BYTES
  hcopied : ret.copied = copied + taken c k acc bytes
  herr : ret.err = ERR_OK ∨ ret.err = ERR_MEM
  hok : ret.err = ERR_OK →
    bytes.length ≤ (k + c.NUM_BUFFERS) * c.IN_FRAME_BYTES - acc.length
  hroom : bytes.length < (k + c.NUM_BUFFERS) * c.IN_FRAME_BYTES - acc.length → ret.err = ERR_OK
  hlog : ∀ e ∈ ret.log, copy_ok c e
  hack : acked ret.log = ret.copied % 65536

/-- The two states agree on the receive ring: rows, ready flags, indices, count and fill
offset. -/
def ring_eq (a b : EchoState) : Prop :=
  a.tcp_rx_buffers = b.tcp_rx_buffers ∧ a.tcp_rx_ready = b.tcp_rx_ready ∧
  a.tcp_rx_wr_idx = b.tcp_rx_wr_idx ∧ a.tcp_rx_rd_idx = b.tcp_rx_rd_idx ∧
  a.tcp_rx_count = b.tcp_rx_count ∧ a.tcp_rx_offset = b.tcp_rx_offset

instance (a b : EchoState) : Decidable (ring_eq a b) :=
  inferInstanceAs (Decidable (a.tcp_rx_buffers = b.tcp_rx_buffers ∧
    a.tcp_rx_ready = b.tcp_rx_ready ∧ a.tcp_rx_wr_idx = b.tcp_rx_wr_idx ∧
    a.tcp_rx_rd_idx = b.tcp_rx_rd_idx ∧ a.tcp_rx_count = b.tcp_rx_count ∧
    a.tcp_rx_offset = b.tcp_rx_offset))

/-- The transport never answers `tcp_write` with a hard error: only `ERR_OK` or `ERR_MEM`. -/
def no_hard_error (net : Nat → NetResp) : Prop :=
  ∀ j, (net j).write_err = ERR_OK ∨ (net j).write_err = ERR_MEM

/-- What holds between two invocations of `send_callback` while the transfer of the `len`
bytes at `buf` is pending: the pending-send state still describes that buffer, the chunks
`tcp_write` took so far are the bytes before the bytes-queued counter, and the active flag is
clear only when the counter has reached the length. -/
structure SendInv (mem : Nat → u8) (buf len : Nat) (r : SendRet) : Prop where
  hptr : r.g.tcp_tx_buf_ptr = buf
  hlen : r.g.tcp_tx_buf_len = len
  hsent : r.g.tcp_tx_sent_len ≤ len
  hqueued : queued r.log = mem_read mem buf r.g.tcp_tx_sent_len
  hdone : r.g.tcp_tx_active = 0 → r.g.tcp_tx_sent_len = len

/-- The call `start_sending(buf, len)` followed by `n` window-available signals, with one
log of all external calls. -/
def send_run (c : Config) (mem : Nat → u8) (net : Nat → NetResp) (i : Nat) (s : EchoState)
    (buf len n : Nat) : Option SendRet :=
  match start_sending c mem net i s buf len with
  | none => none
  | some r => send_resume c mem net s.client_pcb n r

/-- The scenario ring after the delivery of the four bytes `1, 2, 3, 4`: slot 0 is Ready. -/
def scenario_one_frame : EchoState :=
  { EchoState.init scenario_config with
    tcp_rx_buffers := [[1, 2, 3, 4], [0, 0, 0, 0]], tcp_rx_ready := [1, 0],
    tcp_rx_wr_idx := 1, tcp_rx_count := 1 }

/-- A DMA engine that accepts both submissions and is idle at the first poll. -/
def idle_dma : Dma :=
  { s2mm := XST_SUCCESS, mm2s := XST_SUCCESS, busy_s2mm := fun _ => false,
    busy_mm2s := fun _ => false }

/-- Twenty-seven chunks of zero bytes, 1727998 bytes in all: nine frames of the compiled
size and all but two bytes of the tenth. -/
def fill_chunks : List (List (List u8)) :=
  List.replicate 26 [List.replicate 65535 0] ++ [[List.replicate 24088 0]]

/-- The number of bytes the `memcpy` calls of a log copied. -/
def copy_len : List Ev → Nat
  | [] => 0
  | Ev.memcpy _ _ len _ :: rest => len + copy_len rest
  | _ :: rest => copy_len rest

/-- The calls of `tcp_recved` in a log, in order: connection and length. -/
def acks : List Ev → List (Nat × Nat)
  | [] => []
  | Ev.tcp_recved pcb n :: rest => (pcb, n) :: acks rest
  | _ :: rest => acks rest

/-- The number of slots a log closed (one flush per closed slot). -/
def closes : List Ev → Nat
  | [] => 0
  | Ev.flush _ :: rest => 1 + closes rest
  | _ :: rest => closes rest

/-- Replay of a log against the count of Ready slots, which starts at `cnt` and goes up by
one at every closed slot: no `memcpy` happens at a moment when the count is `n`. -/
def no_copy_at_full (n : Int) : Int → List Ev → Prop
  | _, [] => True
  | cnt, Ev.memcpy _ _ _ _ :: rest => cnt ≠ n ∧ no_copy_at_full n cnt rest
  | cnt, Ev.flush _ :: rest => no_copy_at_full n (cnt + 1) rest
  | cnt, _ :: rest => no_copy_at_full n cnt rest

/-- The two ways `recv_loop` returns from the locals `r`: a stall exit, or the success exit
after the loop. -/
def rx_exit (tpcb : Nat) (r : Rx) (ret : RecvRet) : Prop :=
  ret = rx_stall tpcb r ∨
  ret = { g := r.g, err := ERR_OK, log := rx_ack tpcb r ++ [Ev.pbuf_free], copied := r.copied }

/-- The two states agree on the pending-send state: buffer reference, total length,
bytes-queued counter and active flag. -/
def tx_eq (a b : EchoState) : Prop :=
  a.tcp_tx_buf_ptr = b.tcp_tx_buf_ptr ∧ a.tcp_tx_buf_len = b.tcp_tx_buf_len ∧
  a.tcp_tx_sent_len = b.tcp_tx_sent_len ∧ a.tcp_tx_active = b.tcp_tx_active

instance (a b : EchoState) : Decidable (tx_eq a b) :=
  inferInstanceAs (Decidable (a.tcp_tx_buf_ptr = b.tcp_tx_buf_ptr ∧
    a.tcp_tx_buf_len = b.tcp_tx_buf_len ∧ a.tcp_tx_sent_len = b.tcp_tx_sent_len ∧
    a.tcp_tx_active = b.tcp_tx_active))

/-- The scenario ring after the delivery of the two bytes `1, 2`: slot 0 is half filled. -/
def scenario_half_frame : EchoState :=
  { EchoState.init scenario_config with
    tcp_rx_buffers := [[1, 2, 0, 0], [0, 0, 0, 0]], tcp_rx_offset := 2 }

/-- A DMA engine that refuses the first submission. -/
def failing_dma : Dma :=
  { s2mm := 1, mm2s := XST_SUCCESS, busy_s2mm := fun _ => false, busy_mm2s := fun _ => false }

/-- The scenario ring after the delivery of the eight bytes `1 .. 8`: both slots are Ready. -/
def scenario_full_ring : EchoState :=
  { EchoState.init scenario_config with
    tcp_rx_buffers := [[1, 2, 3, 4], [5, 6, 7, 8]], tcp_rx_ready := [1, 1], tcp_rx_count := 2 }

/-- The scenario globals with a connection and a send of two bytes pending. -/
def scenario_sending : EchoState :=
  { EchoState.init scenario_config with
    client_pcb := 5, tcp_tx_buf_ptr := 1000, tcp_tx_buf_len := 2, tcp_tx_active := 1 }

/-! ## The firmware as one event loop -/

/-- The events the firmware reacts to: a connection accepted, a chunk delivered or the peer
close notified (`p = []`), a window-available signal, and one pass of the main loop over the
block guarded by `tcp_tx_is_busy`. The last two carry the memory contents `tcp_write` reads
during the event. -/
inductive SysOp where
  | accept (newpcb : Nat)
  | recv (tpcb : Nat) (p : List (List u8))
  | sent (tpcb : Nat) (mem : Nat → u8)
  | step (dma : Dma) (mem : Nat → u8)

/-- The globals of echo.c and main.c with the index of the next unused transport answer. -/
structure SysState where
  ms : MainState
  next : Nat
deriving DecidableEq, Repr

/-- What an event produced. -/
inductive SysOut where
  | accept (r : AcceptRet)
  | recv (r : RecvRet)
  | sent (r : SendRet)
  | step (r : StepRet)
deriving DecidableEq, Repr

/-- One event together with the state it started from. -/
structure SysEntry where
  pre : SysState
  op : SysOp
  out : SysOut

/-- The state at power-up: the static initialisers, `cur_out` at the first output buffer. -/
def sys_init (c : Config) (out_buf0 : Nat) : SysState :=
  { ms := { g := EchoState.init c, cur_out := out_buf0 }, next := 0 }

def sys_step (c : Config) (out_buf0 out_buf1 : Nat) (net : Nat → NetResp) (st : SysState) :
    SysOp → Option (SysState × SysOut)
  | SysOp.accept newpcb =>
    some ({ st with ms := { st.ms with g := (accept_callback st.ms.g newpcb).g } },
      SysOut.accept (accept_callback st.ms.g newpcb))
  | SysOp.recv tpcb p =>
    match recv_callback c st.ms.g tpcb p with
    | none => none
    | some r => some ({ st with ms := { st.ms with g := r.g } }, SysOut.recv r)
  | SysOp.sent tpcb mem =>
    match send_callback c mem net st.next st.ms.g tpcb with
    | none => none
    | some r => some ({ ms := { st.ms with g := r.g }, next := r.next }, SysOut.sent r)
  | SysOp.step dma mem =>
    match main_step c out_buf0 out_buf1 mem net st.next dma st.ms with
    | none => none
    | some r => some ({ ms := r.st, next := r.next }, SysOut.step r)

/-- Run the events in order from `st`. -/
def sys_exec (c : Config) (out_buf0 out_buf1 : Nat) (net : Nat → NetResp) :
    SysState → List SysOp → Option (SysState × List SysEntry)
  | st, [] => some (st, [])
  | st, op :: ops =>
    match sys_step c out_buf0 out_buf1 net st op with
    | none => none
    | some (st1, out) =>
      match sys_exec c out_buf0 out_buf1 net st1 ops with
      | none => none
      | some (st2, tr) => some (st2, { pre := st, op := op, out := out } :: tr)

/-- An event the transport can produce: a delivery carries a well-formed chain. -/
def sys_op_ok (c : Config) : SysOp → Prop
  | SysOp.recv _ p => pbuf_ok c p
  | _ => True

/-- What holds of the globals between two events: the ring is a window on the accepted
stream, and the bytes-queued counter does not exceed the total length, a `u32`. -/
def SysInv (c : Config) (st : SysState) : Prop :=
  (∃ acc k m, Inv c st.ms.g acc k m) ∧
  st.ms.g.tcp_tx_sent_len ≤ st.ms.g.tcp_tx_buf_len ∧ st.ms.g.tcp_tx_buf_len < U32

instance (c : Config) (op : SysOp) : Decidable (sys_op_ok c op) := by
  cases op <;> unfold sys_op_ok <;> infer_instance

/-- Every event of the run is one the transport can produce. -/
def sys_ops_ok (c : Config) (ops : List SysOp) : Prop := ∀ op ∈ ops, sys_op_ok c op

instance (c : Config) (ops : List SysOp) : Decidable (sys_ops_ok c ops) :=
  inferInstanceAs (Decidable (∀ op ∈ ops, sys_op_ok c op))

/-- Replay of the log of one `send_callback` call against the transport answers. The call
uses answer `i` on its first pass and every `tcp_write` is made on a pass of its own; `t` is
the bytes-queued counter before the write. Every chunk is non-empty, at most `TCP_TX_CHUNK`
bytes, at most the window `tcp_sndbuf` reported on its pass (as read into the `u16_t`, and so
at most the window itself), and at most the `len - t` bytes not yet queued. -/
def chunks_ok (c : Config) (net : Nat → NetResp) (len : Nat) : Nat → Nat → List Ev → Prop
  | _, _, [] => True
  | i, t, Ev.tcp_write _ d res :: rest =>
    0 < d.length ∧ d.length ≤ c.TCP_TX_CHUNK ∧ d.length ≤ (net i).sndbuf % 65536 ∧
    d.length ≤ (net i).sndbuf ∧ d.length ≤ len - t ∧ res = (net i).write_err ∧
    chunks_ok c net len (i + 1) (if res = ERR_OK then t + d.length else t) rest
  | i, t, _ :: rest => chunks_ok c net len i t rest

/-- A chain whose length fields are 16-bit values: every segment (`len`) and the whole chain
(`tot_len`) is at most 65535 bytes. -/
def pbuf_u16 (p : List (List u8)) : Prop :=
  (∀ seg ∈ p, seg.length ≤ 65535) ∧ (chain_bytes p).length ≤ 65535

instance (p : List (List u8)) : Decidable (pbuf_u16 p) :=
  inferInstanceAs (Decidable ((∀ seg ∈ p, seg.length ≤ 65535) ∧ (chain_bytes p).length ≤ 65535))

/-- A call whose delivery, if it is one, carries a chain with 16-bit length fields. -/
def op_u16 : Op → Prop
  | Op.recv _ p => pbuf_u16 p
  | _ => True

instance (op : Op) : Decidable (op_u16 op) := by
  cases op <;> unfold op_u16 <;> infer_instance

/-- Every delivery of the run carries a chain with 16-bit length fields. -/
def ops_u16 (ops : List Op) : Prop := ∀ op ∈ ops, op_u16 op

instance (ops : List Op) : Decidable (ops_u16 ops) :=
  inferInstanceAs (Decidable (∀ op ∈ ops, op_u16 op))

/-! ## Arithmetic of the indices -/

theorem mod_ne_of_window {n j m : Nat} (h1 : j < m) (h2 : m < j + n) : j % n ≠ m % n := by
  intro h
  have h0 : (m - j) % n = 0 := Nat.sub_mod_eq_zero_of_mod_eq h.symm
  have hd : n ∣ m - j := Nat.dvd_of_mod_eq_zero h0
  have := Nat.le_of_dvd (by omega) hd
  omega

theorem tmod_succ_idx (n m : Nat) (hn : 0 < n) :
    Int.tmod (((m % n : Nat) : Int) + 1) (n : Int) = (((m + 1) % n : Nat) : Int) := by
  rw [Int.tmod_eq_emod (by omega) (by omega)]
  have : (((m % n : Nat) : Int) + 1) = (((m % n + 1 : Nat)) : Int) := by push_cast; rfl
  rw [this, ← Int.natCast_mod, Nat.mod_add_mod]

theorem u32_sub_of_le {a b : Nat} (h : b ≤ a) (ha : a < U32) : u32_sub a b = a - b := by
  unfold u32_sub U32 at *
  omega

theorem u32_add_of_lt {a b : Nat} (h : a + b < U32) : u32_add a b = a + b := by
  unfold u32_add
  exact Nat.mod_eq_of_lt h

theorem rx_buffer_at_nat (c : Config) (s : EchoState) (i : Nat) (hi : i < c.NUM_BUFFERS) :
    rx_buffer_at c s (i : Int) = s.tcp_rx_buffers[i]? := by
  unfold rx_buffer_at
  rw [if_pos ⟨by omega, by omega⟩, Int.toNat_ofNat]

theorem rx_ready_at_nat (c : Config) (s : EchoState) (i : Nat) (hi : i < c.NUM_BUFFERS) :
    rx_ready_at c s (i : Int) = s.tcp_rx_ready[i]? := by
  unfold rx_ready_at
  rw [if_pos ⟨by omega, by omega⟩, Int.toNat_ofNat]

theorem frame_of_append (c : Config) (acc x : List u8) (j : Nat)
    (h : (j + 1) * c.IN_FRAME_BYTES ≤ acc.length) :
    frame_of c (acc ++ x) j = frame_of c acc j := by
  unfold frame_of
  have h1 : j * c.IN_FRAME_BYTES ≤ acc.length := by
    rw [Nat.add_mul] at h; omega
  rw [List.drop_append_of_le_length h1]
  apply List.take_append_of_le_length
  rw [List.length_drop, Nat.add_mul] at *
  omega

theorem write_at_length (buf : List u8) (off : Nat) (src : List u8)
    (h : off + src.length ≤ buf.length) : (write_at buf off src).length = buf.length := by
  unfold write_at
  simp [List.length_append, List.length_take, List.length_drop]
  omega

theorem write_at_take (buf : List u8) (off : Nat) (src : List u8)
    (h : off + src.length ≤ buf.length) :
    (write_at buf off src).take (off + src.length) = buf.take off ++ src := by
  unfold write_at
  have hl : (buf.take off ++ src).length = off + src.length := by
    simp [List.length_append, List.length_take]; omega
  rw [← hl, List.take_left]

/-! ## The ring operations on the window -/

theorem abs_init (c : Config) : Abs c (EchoState.init c) [] 0 0 := by
  refine ⟨le_refl _, by omega, by simp [EchoState.init], by simp [EchoState.init],
    by simp [EchoState.init], by simp [EchoState.init], by simp [EchoState.init],
    by simp [EchoState.init], by simp [EchoState.init], by simp [EchoState.init], ?_, ?_, ?_, ?_⟩
  · intro b hb
    simp only [EchoState.init] at hb
    rw [List.eq_of_mem_replicate hb, List.length_replicate]
  · intro j _ hj
    omega
  · intro i hi _
    simp [EchoState.init, List.getElem?_replicate, hi]
  · intro b _
    simp [EchoState.init]

theorem abs_wr_ready {c : Config} {s : EchoState} {acc : List u8} {k m : Nat}
    (hc : c.ok) (h : Abs c s acc k m) (hnf : m < k + c.NUM_BUFFERS) :
    s.tcp_rx_ready[m % c.NUM_BUFFERS]? = some 0 := by
  apply h.hout _ (Nat.mod_lt _ hc.1)
  intro j hj1 hj2
  exact mod_ne_of_window hj2 (by omega)

theorem abs_wr_row {c : Config} {s : EchoState} {acc : List u8} {k m : Nat}
    (hc : c.ok) (h : Abs c s acc k m) :
    ∃ b, s.tcp_rx_buffers[m % c.NUM_BUFFERS]? = some b ∧ b.length = c.IN_FRAME_BYTES := by
  have hi : m % c.NUM_BUFFERS < s.tcp_rx_buffers.length := by
    rw [h.hbufs]; exact Nat.mod_lt _ hc.1
  refine ⟨s.tcp_rx_buffers[m % c.NUM_BUFFERS], List.getElem?_eq_getElem hi, ?_⟩
  exact h.hrow _ (List.getElem_mem _)

theorem rx_copy_abs (c : Config) (hc : c.ok) (r : Rx) (acc : List u8) (k m : Nat)
    (src : List u8) (h : Abs c r.g acc k m) (hnf : m < k + c.NUM_BUFFERS)
    (hfit : r.g.tcp_rx_offset + src.length ≤ c.IN_FRAME_BYTES)
    (hcp : r.copied + src.length < U32) :
    ∃ r1, rx_copy c r src = some r1 ∧ Abs c r1.g (acc ++ src) k m ∧
      r1.g.tcp_rx_offset = r.g.tcp_rx_offset + src.length ∧
      r1.copied = r.copied + src.length ∧
      r1.log = r.log ++ [Ev.memcpy r.g.tcp_rx_wr_idx r.g.tcp_rx_offset src.length 0] := by
  obtain ⟨b, hb, hbl⟩ := abs_wr_row hc h
  have hrdy := abs_wr_ready hc h hnf
  have hlt : m % c.NUM_BUFFERS < c.NUM_BUFFERS := Nat.mod_lt _ hc.1
  have hF : c.IN_FRAME_BYTES < U32 := by have := hc.2.2.2; unfold U32; omega
  have hoff : u32_add r.g.tcp_rx_offset src.length = r.g.tcp_rx_offset + src.length :=
    u32_add_of_lt (by omega)
  have hbuf : rx_buffer_at c r.g r.g.tcp_rx_wr_idx = some b := by
    rw [h.hwr, rx_buffer_at_nat c _ _ hlt, hb]
  have hrd : rx_ready_at c r.g r.g.tcp_rx_wr_idx = some 0 := by
    rw [h.hwr, rx_ready_at_nat c _ _ hlt, hrdy]
  have heq : rx_copy c r src = some
      { g := { r.g with
               tcp_rx_buffers :=
                 r.g.tcp_rx_buffers.set r.g.tcp_rx_wr_idx.toNat (write_at b r.g.tcp_rx_offset src)
               tcp_rx_offset := u32_add r.g.tcp_rx_offset src.length }
        copied := u32_add r.copied src.length
        log := r.log ++ [Ev.memcpy r.g.tcp_rx_wr_idx r.g.tcp_rx_offset src.length 0] } := by
    simp only [rx_copy, hbuf, hrd, if_pos hfit]
  refine ⟨_, heq, ?_, hoff, u32_add_of_lt hcp, rfl⟩
  have hmF : m * c.IN_FRAME_BYTES ≤ acc.length := by rw [h.hlen]; omega
  refine ⟨h.hk, h.hm, ?_, ?_, ?_, h.hcount, h.hwr, h.hrd, ?_, h.hready, ?_, ?_, h.hout, ?_⟩
  · simp only [List.length_append, h.hlen, hoff]; omega
  · simp only [hoff]; exact hfit
  · intro hm; omega
  · simp [h.hbufs]
  · intro b1 hb1
    simp only [h.hwr, Int.toNat_ofNat] at hb1
    rcases List.mem_or_eq_of_mem_set hb1 with h1 | h1
    · exact h.hrow _ h1
    · rw [h1, write_at_length _ _ _ (by omega), hbl]
  · intro j hj1 hj2
    obtain ⟨h1, h2⟩ := h.hin j hj1 hj2
    refine ⟨h1, ?_⟩
    have hne : m % c.NUM_BUFFERS ≠ j % c.NUM_BUFFERS :=
      fun e => mod_ne_of_window hj2 (by omega) e.symm
    simp only [h.hwr, Int.toNat_ofNat]
    rw [List.getElem?_set_ne hne, h2, frame_of_append]
    have : (j + 1) * c.IN_FRAME_BYTES ≤ m * c.IN_FRAME_BYTES :=
      Nat.mul_le_mul_right _ (by omega)
    omega
  · intro b1 hb1
    simp only [h.hwr, Int.toNat_ofNat] at hb1
    rw [List.getElem?_set_self (by rw [h.hbufs]; exact hlt)] at hb1
    simp only [Option.some.injEq] at hb1
    subst hb1
    simp only [hoff]
    rw [write_at_take _ _ _ (by omega), h.htail b hb, List.drop_append_of_le_length hmF]

theorem rx_close_abs (c : Config) (hc : c.ok) (r : Rx) (acc : List u8) (k m : Nat)
    (h : Abs c r.g acc k m) (hnf : m < k + c.NUM_BUFFERS)
    (hfill : r.g.tcp_rx_offset = c.IN_FRAME_BYTES) :
    ∃ r1, rx_close c r = some r1 ∧ Abs c r1.g acc k (m + 1) ∧
      r1.g.tcp_rx_offset = 0 ∧ r1.copied = r.copied ∧
      r1.log = r.log ++ [Ev.flush r.g.tcp_rx_wr_idx] := by
  obtain ⟨b, hb, hbl⟩ := abs_wr_row hc h
  have hlt : m % c.NUM_BUFFERS < c.NUM_BUFFERS := Nat.mod_lt _ hc.1
  have hguard : 0 ≤ r.g.tcp_rx_wr_idx ∧ r.g.tcp_rx_wr_idx < (c.NUM_BUFFERS : Int)
      ∧ r.g.tcp_rx_wr_idx.toNat < r.g.tcp_rx_ready.length := by
    rw [h.hwr, Int.toNat_ofNat, h.hready]
    omega
  have heq : rx_close c r = some
      { r with
        g := { r.g with
               tcp_rx_ready := r.g.tcp_rx_ready.set r.g.tcp_rx_wr_idx.toNat 1
               tcp_rx_count := r.g.tcp_rx_count + 1
               tcp_rx_wr_idx := Int.tmod (r.g.tcp_rx_wr_idx + 1) (c.NUM_BUFFERS : Int)
               tcp_rx_offset := 0 }
        log := r.log ++ [Ev.flush r.g.tcp_rx_wr_idx] } := by
    simp only [rx_close, if_pos hguard]
  refine ⟨_, heq, ?_, rfl, rfl, rfl⟩
  have hlen1 : acc.length = (m + 1) * c.IN_FRAME_BYTES := by
    rw [h.hlen, hfill, Nat.add_mul]; omega
  have hk := h.hk
  refine ⟨by omega, by omega, ?_, Nat.zero_le _, fun _ => rfl, ?_, ?_, h.hrd, h.hbufs, ?_,
    h.hrow, ?_, ?_, ?_⟩
  · simpa using hlen1
  · simp only [h.hcount]; push_cast; omega
  · simp only [h.hwr]; exact tmod_succ_idx _ _ hc.1
  · simp [h.hready]
  · intro j hj1 hj2
    simp only [h.hwr, Int.toNat_ofNat]
    by_cases hjm : j = m
    · subst hjm
      refine ⟨?_, ?_⟩
      · rw [List.getElem?_set_self (by rw [h.hready]; exact hlt)]
      · have hbt : b.take c.IN_FRAME_BYTES = b := List.take_of_length_le (by omega)
        unfold frame_of
        rw [hb, ← h.htail b hb, hfill, hbt, hbt]
    · have hjl : j < m := by omega
      obtain ⟨h1, h2⟩ := h.hin j hj1 hjl
      have hne : m % c.NUM_BUFFERS ≠ j % c.NUM_BUFFERS :=
        fun e => mod_ne_of_window hjl (by omega) e.symm
      exact ⟨by rw [List.getElem?_set_ne hne, h1], h2⟩
  · intro i hi hall
    simp only [h.hwr, Int.toNat_ofNat]
    have hne : m % c.NUM_BUFFERS ≠ i := hall m (by omega) (by omega)
    rw [List.getElem?_set_ne hne]
    exact h.hout i hi (fun j hj1 hj2 => hall j hj1 (by omega))
  · intro b1 _
    simp only [List.take_zero]
    rw [List.drop_eq_nil_of_le (by omega)]

theorem rx_empty_abs {c : Config} {s : EchoState} {acc : List u8} {k m : Nat}
    (h : Abs c s acc k m) : rx_empty s = decide (m = k) := by
  unfold rx_empty
  rw [h.hcount]
  have := h.hk
  by_cases e : m = k
  · subst e; simp
  · have : ((m : Int) - (k : Int)) ≠ 0 := by omega
    simp [e, this]

theorem rx_full_abs {c : Config} {s : EchoState} {acc : List u8} {k m : Nat}
    (h : Abs c s acc k m) : rx_full c s = decide (m = k + c.NUM_BUFFERS) := by
  unfold rx_full
  rw [h.hcount]
  have := h.hk
  by_cases e : m = k + c.NUM_BUFFERS
  · subst e; simp
  · have : ((m : Int) - (k : Int)) ≠ (c.NUM_BUFFERS : Int) := by omega
    simp [e, this]

theorem peek_abs_nonempty (c : Config) (hc : c.ok) (s : EchoState) (acc : List u8) (k m : Nat)
    (h : Abs c s acc k m) (hne : k < m) :
    tcp_rx_peek_frame c s = some (some (s.tcp_rx_rd_idx, frame_of c acc k)) ∧
      rx_ready_at c s s.tcp_rx_rd_idx = some 1 ∧
      rx_buffer_at c s s.tcp_rx_rd_idx = some (frame_of c acc k) := by
  have hlt : k % c.NUM_BUFFERS < c.NUM_BUFFERS := Nat.mod_lt _ hc.1
  obtain ⟨h1, h2⟩ := h.hin k (le_refl _) hne
  have hr : rx_ready_at c s s.tcp_rx_rd_idx = some 1 := by
    rw [h.hrd, rx_ready_at_nat c _ _ hlt, h1]
  have hb : rx_buffer_at c s s.tcp_rx_rd_idx = some (frame_of c acc k) := by
    rw [h.hrd, rx_buffer_at_nat c _ _ hlt, h2]
  refine ⟨?_, hr, hb⟩
  have he : rx_empty s = false := by rw [rx_empty_abs h]; simp; omega
  simp [tcp_rx_peek_frame, he, hr, hb]

theorem peek_abs_empty (c : Config) (s : EchoState) (acc : List u8) (k : Nat)
    (h : Abs c s acc k k) : tcp_rx_peek_frame c s = some none := by
  have he : rx_empty s = true := by rw [rx_empty_abs h]; simp
  simp [tcp_rx_peek_frame, he]

theorem pop_abs_empty (c : Config) (s : EchoState) (acc : List u8) (k : Nat)
    (h : Abs c s acc k k) : tcp_rx_pop_frame c s = some (s, -1) := by
  have he : rx_empty s = true := by rw [rx_empty_abs h]; simp
  simp [tcp_rx_pop_frame, he]

theorem pop_abs_nonempty (c : Config) (hc : c.ok) (s : EchoState) (acc : List u8) (k m : Nat)
    (h : Abs c s acc k m) (hne : k < m) :
    ∃ s1, tcp_rx_pop_frame c s = some (s1, 0) ∧ Abs c s1 acc (k + 1) m ∧
      s1.tcp_rx_offset = s.tcp_rx_offset := by
  have hlt : k % c.NUM_BUFFERS < c.NUM_BUFFERS := Nat.mod_lt _ hc.1
  obtain ⟨_, hr, _⟩ := peek_abs_nonempty c hc s acc k m h hne
  have he : rx_empty s = false := by rw [rx_empty_abs h]; simp; omega
  have heq : tcp_rx_pop_frame c s = some
      ({ s with
         tcp_rx_ready := s.tcp_rx_ready.set s.tcp_rx_rd_idx.toNat 0
         tcp_rx_rd_idx := Int.tmod (s.tcp_rx_rd_idx + 1) (c.NUM_BUFFERS : Int)
         tcp_rx_count := s.tcp_rx_count - 1 }, 0) := by
    simp [tcp_rx_pop_frame, he, hr]
  refine ⟨_, heq, ?_, rfl⟩
  have hm := h.hm
  refine ⟨by omega, by omega, h.hlen, h.hoff, fun e => by omega, ?_, h.hwr, ?_, h.hbufs, ?_,
    h.hrow, ?_, ?_, h.htail⟩
  · simp only [h.hcount]; push_cast; omega
  · simp only [h.hrd]; exact tmod_succ_idx _ _ hc.1
  · simp [h.hready]
  · intro j hj1 hj2
    obtain ⟨h1, h2⟩ := h.hin j (by omega) hj2
    simp only [h.hrd, Int.toNat_ofNat]
    have hne1 : k % c.NUM_BUFFERS ≠ j % c.NUM_BUFFERS := mod_ne_of_window (by omega) (by omega)
    exact ⟨by rw [List.getElem?_set_ne hne1, h1], h2⟩
  · intro i hi hall
    simp only [h.hrd, Int.toNat_ofNat]
    by_cases hik : k % c.NUM_BUFFERS = i
    · subst hik
      rw [List.getElem?_set_self (by rw [h.hready]; exact hlt)]
    · rw [List.getElem?_set_ne hik]
      apply h.hout i hi
      intro j hj1 hj2
      by_cases hjk : j = k
      · subst hjk; exact hik
      · exact hall j (by omega) hj2

/-! ## The receive loop on the window -/

theorem acked_append (a b : List Ev) : acked (a ++ b) = acked a + acked b := by
  induction a with
  | nil => simp [acked]
  | cons e rest ih =>
    cases e <;> simp [acked, ih]
    omega

theorem rx_ack_acked (tpcb : Nat) (r : Rx) (h : acked r.log = 0) :
    acked (rx_ack tpcb r) = r.copied % 65536 := by
  unfold rx_ack
  split
  · rw [acked_append, h]; simp [acked]
  · have : r.copied = 0 := by omega
    rw [h, this]

theorem rx_ack_copy_ok (c : Config) (tpcb : Nat) (r : Rx) (h : ∀ e ∈ r.log, copy_ok c e) :
    ∀ e ∈ rx_ack tpcb r, copy_ok c e := by
  unfold rx_ack
  split
  · intro e he
    rcases List.mem_append.1 he with h1 | h1
    · exact h e h1
    · rw [List.mem_singleton.1 h1]; trivial
  · exact h

theorem cap_ge {c : Config} {s : EchoState} {acc : List u8} {k m : Nat}
    (h : Abs c s acc k m) (t : Nat) (ht : m + t ≤ k + c.NUM_BUFFERS) :
    acc.length + t * c.IN_FRAME_BYTES ≤
      (k + c.NUM_BUFFERS) * c.IN_FRAME_BYTES + s.tcp_rx_offset := by
  have h1 : (m + t) * c.IN_FRAME_BYTES ≤ (k + c.NUM_BUFFERS) * c.IN_FRAME_BYTES :=
    Nat.mul_le_mul_right _ ht
  rw [Nat.add_mul] at h1
  rw [h.hlen]
  omega

theorem cap_eq {c : Config} {s : EchoState} {acc : List u8} {k m : Nat}
    (h : Abs c s acc k m) (hm : m = k + c.NUM_BUFFERS) :
    acc.length = (k + c.NUM_BUFFERS) * c.IN_FRAME_BYTES := by
  rw [h.hlen, h.hfull hm, hm]; rfl

/-- The stall exit taken right after a slot was closed and the ring became full. -/
theorem stall_post (c : Config) (hc : c.ok) (tpcb k : Nat) (r : Rx) (acc bytes : List u8)
    (m : Nat) (h : Abs c r.g acc k m) (hfull : m = k + c.NUM_BUFFERS)
    (hlog : ∀ e ∈ r.log, copy_ok c e) (hack : acked r.log = 0) :
    Post c k acc r.copied bytes (rx_stall tpcb r) m := by
  have hcap := cap_eq h hfull
  have ht : taken c k acc bytes = 0 := by unfold taken; omega
  refine ⟨?_, ?_, ?_, Or.inr rfl, ?_, ?_, rx_ack_copy_ok c tpcb r hlog, rx_ack_acked tpcb r hack⟩
  · rw [ht]; simpa [rx_stall] using h
  · simp only [rx_stall, h.hfull hfull]; exact hc.2.2.1
  · rw [ht]; rfl
  · intro e; simp [rx_stall, ERR_MEM, ERR_OK] at e
  · intro e; omega

/-- A delivery that first copied `src` whole and then handled `rest` has handled
`src ++ rest`. -/
theorem post_cons (c : Config) (k : Nat) (acc src rest : List u8) (copied : Nat)
    (ret : RecvRet) (m1 : Nat)
    (hfit : acc.length + src.length ≤ (k + c.NUM_BUFFERS) * c.IN_FRAME_BYTES)
    (h : Post c k (acc ++ src) (copied + src.length) rest ret m1) :
    Post c k acc copied (src ++ rest) ret m1 := by
  have ht : taken c k acc (src ++ rest) = src.length + taken c k (acc ++ src) rest := by
    unfold taken; simp only [List.length_append]; omega
  have hl := h.hok
  have hr := h.hroom
  simp only [List.length_append] at hl hr
  refine ⟨?_, h.hoff, ?_, h.herr, ?_, ?_, h.hlog, h.hack⟩
  · rw [ht, List.take_append, ← List.append_assoc]; exact h.habs
  · rw [h.hcopied, ht]; omega
  · intro e; have := hl e; simp only [List.length_append]; omega
  · intro e; apply hr; simp only [List.length_append] at e; omega

theorem copy_ok_snoc (c : Config) (log : List Ev) (e : Ev) (h : ∀ x ∈ log, copy_ok c x)
    (he : copy_ok c e) : ∀ x ∈ log ++ [e], copy_ok c x := by
  intro x hx
  rcases List.mem_append.1 hx with h1 | h1
  · exact h x h1
  · rw [List.mem_singleton.1 h1]; exact he

theorem rx_iter_end_post (c : Config) (hc : c.ok) (tpcb k : Nat) (next : List (List u8))
    (loop : Rx → Option RecvRet) (r1 : Rx) (acc1 : List u8) (m : Nat)
    (h : Abs c r1.g acc1 k m) (hnf : m < k + c.NUM_BUFFERS)
    (hlog : ∀ e ∈ r1.log, copy_ok c e) (hack : acked r1.log = 0)
    (hloop : ∀ (r2 : Rx) (m2 : Nat), Abs c r2.g acc1 k m2 →
      r2.g.tcp_rx_offset < c.IN_FRAME_BYTES → (next ≠ [] → m2 < k + c.NUM_BUFFERS) →
      r2.g.tcp_rx_offset = r1.g.tcp_rx_offset % c.IN_FRAME_BYTES →
      r2.copied = r1.copied → (∀ e ∈ r2.log, copy_ok c e) → acked r2.log = 0 →
      ∃ ret m1, loop r2 = some ret ∧ Post c k acc1 r1.copied (chain_bytes next) ret m1) :
    ∃ ret m1, rx_iter_end c tpcb next loop r1 = some ret ∧
      Post c k acc1 r1.copied (chain_bytes next) ret m1 := by
  unfold rx_iter_end
  by_cases hF : r1.g.tcp_rx_offset = c.IN_FRAME_BYTES
  · obtain ⟨r2, heq, habs2, hoff2, hcp2, hlog2⟩ := rx_close_abs c hc r1 acc1 k m h hnf hF
    have hl2 : ∀ e ∈ r2.log, copy_ok c e := by
      rw [hlog2]; exact copy_ok_snoc c _ _ hlog trivial
    have ha2 : acked r2.log = 0 := by
      rw [hlog2, acked_append, hack]; rfl
    rw [if_pos hF, heq]
    by_cases hfull : rx_full c r2.g = true ∧ next ≠ []
    · simp only [if_pos hfull]
      have hm : m + 1 = k + c.NUM_BUFFERS := by
        have := hfull.1
        rw [rx_full_abs habs2] at this
        simpa using this
      refine ⟨_, m + 1, rfl, ?_⟩
      rw [← hcp2]
      exact stall_post c hc tpcb k r2 acc1 _ (m + 1) habs2 hm hl2 ha2
    · simp only [if_neg hfull]
      apply hloop r2 (m + 1) habs2 (by rw [hoff2]; exact hc.2.2.1) _
        (by rw [hoff2, hF, Nat.mod_self]) hcp2 hl2 ha2
      intro hne
      have hnfull : ¬ rx_full c r2.g = true := fun e => hfull ⟨e, hne⟩
      rw [rx_full_abs habs2] at hnfull
      have : m + 1 ≠ k + c.NUM_BUFFERS := by simpa using hnfull
      omega
  · rw [if_neg hF]
    have hlt := lt_of_le_of_ne h.hoff hF
    exact hloop r1 m h hlt (fun _ => hnf) (Nat.mod_eq_of_lt hlt).symm rfl hlog hack

theorem chain_bytes_single (x : List u8) : chain_bytes [x] = x := by
  simp [chain_bytes]

theorem chain_bytes_cons (src : List u8) (next : List (List u8)) :
    chain_bytes (src :: next) = src ++ chain_bytes next := by
  simp [chain_bytes]

theorem recv_loop_post (c : Config) (hc : c.ok) (tpcb k : Nat) :
    ∀ (q : List (List u8)) (r : Rx) (acc : List u8) (m : Nat),
      Abs c r.g acc k m → r.g.tcp_rx_offset < c.IN_FRAME_BYTES →
      (q ≠ [] → m < k + c.NUM_BUFFERS) →
      fits c r.g.tcp_rx_offset q = true →
      r.copied + (chain_bytes q).length < U32 →
      (∀ e ∈ r.log, copy_ok c e) → acked r.log = 0 →
      ∃ ret m1, recv_loop c tpcb q r = some ret ∧ Post c k acc r.copied (chain_bytes q) ret m1 := by
  intro q
  induction q with
  | nil =>
    intro r acc m h hoff _ _ _ hlog hack
    refine ⟨_, m, rfl, ?_⟩
    have ht : taken c k acc (chain_bytes []) = 0 := by simp [taken, chain_bytes]
    refine ⟨?_, hoff, ?_, Or.inl rfl, ?_, fun _ => rfl, ?_, ?_⟩
    · rw [ht]; simpa using h
    · rw [ht]; rfl
    · intro _; simp [chain_bytes]
    · exact copy_ok_snoc c _ _ (rx_ack_copy_ok c tpcb r hlog) trivial
    · show acked (rx_ack tpcb r ++ [Ev.pbuf_free]) = r.copied % 65536
      rw [acked_append, rx_ack_acked tpcb r hack]; rfl
  | cons src next ih =>
    intro r acc m h hoff hnf hfit hcp hlog hack
    have hnf : m < k + c.NUM_BUFFERS := hnf (List.cons_ne_nil _ _)
    have hF : c.IN_FRAME_BYTES < U32 := by have := hc.2.2.2; unfold U32; omega
    have hrem : u32_sub c.IN_FRAME_BYTES r.g.tcp_rx_offset
        = c.IN_FRAME_BYTES - r.g.tcp_rx_offset := u32_sub_of_le (by omega) hF
    rw [fits] at hfit
    rw [chain_bytes_cons] at hcp ⊢
    rw [List.length_append] at hcp
    have hcap1 := cap_ge h 1 (by omega)
    rw [recv_loop]
    simp only [hrem]
    by_cases hle : src.length ≤ c.IN_FRAME_BYTES - r.g.tcp_rx_offset
    · rw [if_pos hle]
      rw [if_pos hle] at hfit
      obtain ⟨r1, heq, habs1, hoff1, hcp1, hlog1⟩ :=
        rx_copy_abs c hc r acc k m src h hnf (by omega) (by omega)
      have hl1 : ∀ e ∈ r1.log, copy_ok c e := by
        rw [hlog1]
        refine copy_ok_snoc c _ _ hlog ⟨rfl, ?_, ?_, by omega⟩
        · rw [h.hwr]; omega
        · rw [h.hwr]; have := Nat.mod_lt m hc.1; omega
      have ha1 : acked r1.log = 0 := by rw [hlog1, acked_append, hack]; rfl
      rw [heq]
      have key := rx_iter_end_post c hc tpcb k next (recv_loop c tpcb next) r1 (acc ++ src) m
        habs1 hnf hl1 ha1
        (fun r2 m2 h2 ho2 hn2 he2 hc2 hl2 hk2 => by
          have := ih r2 (acc ++ src) m2 h2 ho2 hn2 (by rw [he2, hoff1]; exact hfit)
            (by rw [hc2, hcp1]; omega) hl2 hk2
          rw [hc2] at this
          exact this)
      obtain ⟨ret, m1, hret, hpost⟩ := key
      refine ⟨ret, m1, hret, post_cons c k acc src _ r.copied ret m1 (by omega) ?_⟩
      rw [← hcp1]; exact hpost
    · rw [if_neg hle]
      rw [if_neg hle, Bool.and_eq_true, decide_eq_true_eq] at hfit
      obtain ⟨hsl, hfit⟩ := hfit
      have hpos : 0 < c.IN_FRAME_BYTES - r.g.tcp_rx_offset := by omega
      simp only [if_pos hpos]
      have htl : (src.take (c.IN_FRAME_BYTES - r.g.tcp_rx_offset)).length
          = c.IN_FRAME_BYTES - r.g.tcp_rx_offset := by
        rw [List.length_take]; omega
      obtain ⟨r1, heq1, habs1, hoff1, hcp1, hlog1⟩ :=
        rx_copy_abs c hc r acc k m (src.take (c.IN_FRAME_BYTES - r.g.tcp_rx_offset)) h hnf
          (by omega) (by omega)
      rw [htl] at hoff1 hcp1 hlog1
      have hfill1 : r1.g.tcp_rx_offset = c.IN_FRAME_BYTES := by omega
      have hl1 : ∀ e ∈ r1.log, copy_ok c e := by
        rw [hlog1]
        refine copy_ok_snoc c _ _ hlog ⟨rfl, ?_, ?_, by omega⟩
        · rw [h.hwr]; omega
        · rw [h.hwr]; have := Nat.mod_lt m hc.1; omega
      have ha1 : acked r1.log = 0 := by rw [hlog1, acked_append, hack]; rfl
      obtain ⟨r2, heq2, habs2, hoff2, hcp2, hlog2⟩ :=
        rx_close_abs c hc r1 _ k m habs1 hnf hfill1
      have hl2 : ∀ e ∈ r2.log, copy_ok c e := by
        rw [hlog2]; exact copy_ok_snoc c _ _ hl1 trivial
      have ha2 : acked r2.log = 0 := by rw [hlog2, acked_append, ha1]; rfl
      rw [heq1]
      simp only [if_pos hfill1, heq2]
      by_cases hfull : rx_full c r2.g = true
      · rw [if_pos hfull]
        have hm : m + 1 = k + c.NUM_BUFFERS := by
          rw [rx_full_abs habs2] at hfull
          simpa using hfull
        refine ⟨_, m + 1, rfl, ?_⟩
        have hcap2 := cap_eq habs2 hm
        rw [List.length_append, htl] at hcap2
        have ht : taken c k acc (src ++ chain_bytes next)
            = c.IN_FRAME_BYTES - r.g.tcp_rx_offset := by
          unfold taken; rw [List.length_append]; omega
        have hst := stall_post c hc tpcb k r2 _ ([] : List u8) (m + 1) habs2 hm hl2 ha2
        refine ⟨?_, hst.hoff, ?_, hst.herr, ?_, ?_, hst.hlog, hst.hack⟩
        · rw [ht, List.take_append_of_le_length (by omega)]
          exact habs2
        · rw [ht]; show r2.copied = _; omega
        · intro e; simp [rx_stall, ERR_MEM, ERR_OK] at e
        · intro e; rw [List.length_append] at e; omega
      · rw [if_neg hfull]
        have hm : m + 1 < k + c.NUM_BUFFERS := by
          rw [rx_full_abs habs2] at hfull
          have : m + 1 ≠ k + c.NUM_BUFFERS := by simpa using hfull
          omega
        have hdl : (src.drop (c.IN_FRAME_BYTES - r.g.tcp_rx_offset)).length
            = src.length - (c.IN_FRAME_BYTES - r.g.tcp_rx_offset) := List.length_drop _ _
        obtain ⟨r3, heq3, habs3, hoff3, hcp3, hlog3⟩ :=
          rx_copy_abs c hc r2 _ k (m + 1) (src.drop (c.IN_FRAME_BYTES - r.g.tcp_rx_offset))
            habs2 hm (by omega) (by omega)
        rw [List.append_assoc, List.take_append_drop] at habs3
        rw [hdl] at hoff3 hcp3 hlog3
        have hl3 : ∀ e ∈ r3.log, copy_ok c e := by
          rw [hlog3]
          refine copy_ok_snoc c _ _ hl2 ⟨rfl, ?_, ?_, by omega⟩
          · rw [habs2.hwr]; omega
          · rw [habs2.hwr]; have := Nat.mod_lt (m + 1) hc.1; omega
        have ha3 : acked r3.log = 0 := by rw [hlog3, acked_append, ha2]; rfl
        rw [heq3]
        have hcap2 := cap_ge h 2 (by omega)
        have key := rx_iter_end_post c hc tpcb k next (recv_loop c tpcb next) r3 (acc ++ src)
          (m + 1) habs3 hm hl3 ha3
          (fun r4 m4 h4 ho4 hn4 he4 hc4 hl4 hk4 => by
            have := ih r4 (acc ++ src) m4 h4 ho4 hn4
              (by rw [he4, hoff3, hoff2, Nat.zero_add]; exact hfit)
              (by rw [hc4, hcp3]; omega) hl4 hk4
            rw [hc4] at this
            exact this)
        obtain ⟨ret, m1, hret, hpost⟩ := key
        refine ⟨ret, m1, hret, post_cons c k acc src _ r.copied ret m1 (by omega) ?_⟩
        have : r3.copied = r.copied + src.length := by omega
        rw [← this]; exact hpost

theorem abs_of_ring_eq {c : Config} {s s1 : EchoState} {acc : List u8} {k m : Nat}
    (h : Abs c s acc k m) (h1 : s1.tcp_rx_buffers = s.tcp_rx_buffers)
    (h2 : s1.tcp_rx_ready = s.tcp_rx_ready) (h3 : s1.tcp_rx_wr_idx = s.tcp_rx_wr_idx)
    (h4 : s1.tcp_rx_rd_idx = s.tcp_rx_rd_idx) (h5 : s1.tcp_rx_count = s.tcp_rx_count)
    (h6 : s1.tcp_rx_offset = s.tcp_rx_offset) : Abs c s1 acc k m := by
  refine ⟨h.hk, h.hm, ?_, ?_, ?_, ?_, ?_, ?_, ?_, ?_, ?_, ?_, ?_, ?_⟩
  · rw [h6]; exact h.hlen
  · rw [h6]; exact h.hoff
  · rw [h6]; exact h.hfull
  · rw [h5]; exact h.hcount
  · rw [h3]; exact h.hwr
  · rw [h4]; exact h.hrd
  · rw [h1]; exact h.hbufs
  · rw [h2]; exact h.hready
  · rw [h1]; exact h.hrow
  · rw [h1, h2]; exact h.hin
  · rw [h2]; exact h.hout
  · rw [h1, h6]; exact h.htail

theorem fits_of_short (c : Config) :
    ∀ (q : List (List u8)) (off : Nat), (∀ seg ∈ q, seg.length ≤ c.IN_FRAME_BYTES) →
      fits c off q = true := by
  intro q
  induction q with
  | nil => intro off _; rfl
  | cons src next ih =>
    intro off hseg
    have h1 := hseg src (List.mem_cons_self _ _)
    have h2 : ∀ seg ∈ next, seg.length ≤ c.IN_FRAME_BYTES :=
      fun seg hs => hseg seg (List.mem_cons_of_mem _ hs)
    rw [fits]
    split
    · exact ih _ h2
    · rw [Bool.and_eq_true, decide_eq_true_eq]
      exact ⟨by omega, ih _ h2⟩

theorem fits_of_pbuf_ok (c : Config) (p : List (List u8)) (off : Nat)
    (h : pbuf_ok c p) : fits c off p = true :=
  fits_of_short c p off (fun seg hs => (h.1 seg hs).2)

/-- A delivery of a non-NULL chunk, seen on the window. -/
theorem recv_callback_post (c : Config) (hc : c.ok) (tpcb k : Nat) (s : EchoState)
    (acc : List u8) (m : Nat) (p : List (List u8)) (h : Inv c s acc k m) (hp : p ≠ [])
    (hfit : fits c s.tcp_rx_offset p = true) (htot : (chain_bytes p).length ≤ 65535) :
    ∃ ret m1, recv_callback c s tpcb p = some ret ∧ Post c k acc 0 (chain_bytes p) ret m1 := by
  unfold recv_callback
  rw [if_neg hp]
  by_cases hfull : rx_full c s = true ∧ s.tcp_rx_offset = 0
  · rw [if_pos hfull]
    have hm : m = k + c.NUM_BUFFERS := by
      have := hfull.1
      rw [rx_full_abs h.1] at this
      simpa using this
    have hcap := cap_eq h.1 hm
    have ht : taken c k acc (chain_bytes p) = 0 := by unfold taken; omega
    refine ⟨_, m, rfl, ?_, h.2, ?_, Or.inr rfl, ?_, ?_, ?_, rfl⟩
    · rw [ht]; simpa using h.1
    · rw [ht]
    · intro e; simp [ERR_MEM, ERR_OK] at e
    · intro e; omega
    · intro e he; simp at he
  · rw [if_neg hfull]
    have hnf : m < k + c.NUM_BUFFERS := by
      have hm := h.1.hm
      by_contra hge
      have hm1 : m = k + c.NUM_BUFFERS := by omega
      apply hfull
      refine ⟨?_, h.1.hfull hm1⟩
      rw [rx_full_abs h.1]; simpa using hm1
    have := recv_loop_post c hc tpcb k p { g := s, copied := 0, log := [] } acc m h.1 h.2
      (fun _ => hnf) hfit
      (by show 0 + (chain_bytes p).length < U32; unfold U32; omega)
      (by intro e he; simp at he) rfl
    exact this

/-- The peer-close notification does not touch the ring. -/
theorem recv_callback_null (c : Config) (tpcb : Nat) (s : EchoState) :
    ∃ ret, recv_callback c s tpcb [] = some ret ∧ ret.err = ERR_OK ∧ ret.copied = 0 ∧
      (∀ ev ∈ ret.log, copy_ok c ev) ∧
      ret.g.tcp_rx_buffers = s.tcp_rx_buffers ∧ ret.g.tcp_rx_ready = s.tcp_rx_ready ∧
      ret.g.tcp_rx_wr_idx = s.tcp_rx_wr_idx ∧ ret.g.tcp_rx_rd_idx = s.tcp_rx_rd_idx ∧
      ret.g.tcp_rx_count = s.tcp_rx_count ∧ ret.g.tcp_rx_offset = s.tcp_rx_offset := by
  unfold recv_callback
  by_cases ha : s.tcp_tx_active = 0
  · simp only [if_true, if_pos ha]
    refine ⟨_, rfl, rfl, rfl, ?_, rfl, rfl, rfl, rfl, rfl, rfl⟩
    intro ev hev
    rw [List.mem_singleton.1 hev]; trivial
  · simp only [if_true, if_neg ha]
    refine ⟨_, rfl, rfl, rfl, ?_, rfl, rfl, rfl, rfl, rfl, rfl⟩
    intro ev hev
    simp at hev

/-! ## Runs on the window -/

theorem abs_frame_le {c : Config} {s : EchoState} {acc : List u8} {k m : Nat}
    (h : Abs c s acc k m) (j : Nat) (hj : j < m) : (j + 1) * c.IN_FRAME_BYTES ≤ acc.length := by
  have h1 : (j + 1) * c.IN_FRAME_BYTES ≤ m * c.IN_FRAME_BYTES := Nat.mul_le_mul_right _ hj
  rw [h.hlen]; omega

theorem step_post (c : Config) (hc : c.ok) (s : EchoState) (acc : List u8) (k m : Nat)
    (op : Op) (h : Inv c s acc k m) (hop : op_ok c op) :
    ∃ s1 out m1, step c s op = some (s1, out) ∧
      Inv c s1 (acc ++ Entry.bytes ⟨s, op, out⟩) (k + (consumed [⟨s, op, out⟩]).length) m1 ∧
      (∀ f, Entry.frame ⟨s, op, out⟩ = some f →
        f = frame_of c acc k ∧ (k + 1) * c.IN_FRAME_BYTES ≤ acc.length) ∧
      entry_ok c ⟨s, op, out⟩ := by
  cases op with
  | recv tpcb p =>
    by_cases hp : p = []
    · subst hp
      obtain ⟨ret, heq, _, hcp, hlog, h1, h2, h3, h4, h5, h6⟩ := recv_callback_null c tpcb s
      refine ⟨ret.g, Out.recv ret.err ret.copied ret.log, m, by simp [step, heq], ?_, ?_, hlog⟩
      · have hb : Entry.bytes ⟨s, Op.recv tpcb [], Out.recv ret.err ret.copied ret.log⟩ = [] := by
          simp [Entry.bytes, chain_bytes]
        rw [hb]
        simp only [consumed, Entry.frame, List.filterMap_cons, List.filterMap_nil,
          List.length_nil, Nat.add_zero, List.append_nil]
        exact ⟨abs_of_ring_eq h.1 h1 h2 h3 h4 h5 h6, by rw [h6]; exact h.2⟩
      · intro f hf; simp [Entry.frame] at hf
    · obtain ⟨ret, m1, heq, hpost⟩ :=
        recv_callback_post c hc tpcb k s acc m p h hp (fits_of_pbuf_ok c p _ hop) hop.2
      refine ⟨ret.g, Out.recv ret.err ret.copied ret.log, m1, by simp [step, heq], ?_, ?_,
        hpost.hlog⟩
      · have hb : Entry.bytes ⟨s, Op.recv tpcb p, Out.recv ret.err ret.copied ret.log⟩
            = (chain_bytes p).take (taken c k acc (chain_bytes p)) := by
          simp [Entry.bytes, hpost.hcopied]
        rw [hb]
        simp only [consumed, Entry.frame, List.filterMap_cons, List.filterMap_nil,
          List.length_nil, Nat.add_zero]
        exact ⟨hpost.habs, hpost.hoff⟩
      · intro f hf; simp [Entry.frame] at hf
  | peek =>
    rcases Nat.lt_or_ge k m with hlt | hge
    · obtain ⟨hpk, hr, hb⟩ := peek_abs_nonempty c hc s acc k m h.1 hlt
      refine ⟨s, Out.peek (some (s.tcp_rx_rd_idx, frame_of c acc k)), m, by simp [step, hpk],
        ?_, ?_, ⟨rfl, hr, hb⟩⟩
      · simpa [Entry.bytes, consumed, Entry.frame] using h
      · intro f hf; simp [Entry.frame] at hf
    · have hkm : m = k := by have := h.1.hk; omega
      subst hkm
      have hpk := peek_abs_empty c s acc m h.1
      refine ⟨s, Out.peek none, m, by simp [step, hpk], ?_, ?_, trivial⟩
      · simpa [Entry.bytes, consumed, Entry.frame] using h
      · intro f hf; simp [Entry.frame] at hf
  | pop =>
    rcases Nat.lt_or_ge k m with hlt | hge
    · obtain ⟨hpk, hr, hb⟩ := peek_abs_nonempty c hc s acc k m h.1 hlt
      obtain ⟨s1, hpop, habs1, hoff1⟩ := pop_abs_nonempty c hc s acc k m h.1 hlt
      refine ⟨s1, Out.pop (some (s.tcp_rx_rd_idx, frame_of c acc k)) 0, m,
        by simp [step, hpk, hpop], ?_, ?_, ⟨rfl, hr, hb, rfl⟩⟩
      · simp only [Entry.bytes, consumed, Entry.frame, List.filterMap_cons, List.filterMap_nil,
          if_true, List.length_singleton, List.append_nil]
        exact ⟨habs1, by rw [hoff1]; exact h.2⟩
      · intro f hf
        simp only [Entry.frame, if_true, Option.some.injEq] at hf
        exact ⟨hf.symm, abs_frame_le h.1 k hlt⟩
    · have hkm : m = k := by have := h.1.hk; omega
      subst hkm
      have hpk := peek_abs_empty c s acc m h.1
      have hpop := pop_abs_empty c s acc m h.1
      refine ⟨s, Out.pop none (-1), m, by simp [step, hpk, hpop], ?_, ?_, rfl⟩
      · simpa [Entry.bytes, consumed, Entry.frame] using h
      · intro f hf; simp [Entry.frame] at hf

theorem accepted_cons (e : Entry) (tr : List Entry) :
    accepted (e :: tr) = e.bytes ++ accepted tr := by
  simp [accepted]

theorem consumed_cons (e : Entry) (tr : List Entry) :
    consumed (e :: tr) = consumed [e] ++ consumed tr := by
  simp only [consumed]
  cases h : e.frame <;> simp [List.filterMap_cons, h]

theorem consumed_single (e : Entry) :
    consumed [e] = match e.frame with
      | some f => [f]
      | none => [] := by
  simp only [consumed]
  cases h : e.frame <;> simp [List.filterMap_cons, h]

theorem exec_post (c : Config) (hc : c.ok) :
    ∀ (ops : List Op) (s : EchoState) (acc : List u8) (k m : Nat),
      Inv c s acc k m → ops_ok c ops →
      ∃ s1 tr m1, exec c s ops = some (s1, tr) ∧
        Inv c s1 (acc ++ accepted tr) (k + (consumed tr).length) m1 ∧
        (∀ i f, (consumed tr)[i]? = some f →
          f = frame_of c (acc ++ accepted tr) (k + i) ∧
          (k + i + 1) * c.IN_FRAME_BYTES ≤ (acc ++ accepted tr).length) ∧
        (∀ e ∈ tr, entry_ok c e) ∧ tr.map Entry.op = ops := by
  intro ops
  induction ops with
  | nil =>
    intro s acc k m h _
    refine ⟨s, [], m, rfl, by simpa [accepted, consumed] using h, ?_, ?_, rfl⟩
    · intro i f hf; simp [consumed] at hf
    · intro e he; simp at he
  | cons op ops ih =>
    intro s acc k m h hops
    obtain ⟨s1, out, m1, hstep, hinv1, hfr, hent⟩ :=
      step_post c hc s acc k m op h (hops op (List.mem_cons_self _ _))
    obtain ⟨s2, tr, m2, hexec, hinv2, hfr2, hent2, hmap⟩ :=
      ih s1 _ _ m1 hinv1 (fun o ho => hops o (List.mem_cons_of_mem _ ho))
    refine ⟨s2, ⟨s, op, out⟩ :: tr, m2, by simp [exec, hstep, hexec], ?_, ?_, ?_, ?_⟩
    · rw [accepted_cons, consumed_cons, List.length_append, ← List.append_assoc, ← Nat.add_assoc]
      exact hinv2
    · intro i f hf
      rw [accepted_cons, ← List.append_assoc]
      rw [consumed_cons, consumed_single] at hf
      cases hframe : Entry.frame ⟨s, op, out⟩ with
      | none =>
        rw [consumed_single, hframe] at hfr2
        rw [hframe] at hf
        simp only [List.nil_append] at hf
        simpa using hfr2 i f hf
      | some f0 =>
        rw [consumed_single, hframe] at hfr2
        rw [hframe] at hf
        obtain ⟨hf0, hle⟩ := hfr f0 hframe
        cases i with
        | zero =>
          simp only [List.singleton_append, List.getElem?_cons_zero, Option.some.injEq] at hf
          subst hf
          rw [Nat.add_zero, List.append_assoc]
          refine ⟨?_, ?_⟩
          · rw [hf0, frame_of_append c acc _ k hle]
          · rw [List.length_append]; omega
        | succ j =>
          simp only [List.singleton_append, List.getElem?_cons_succ] at hf
          have := hfr2 j f hf
          simp only [List.length_singleton] at this
          have e1 : k + 1 + j = k + (j + 1) := by omega
          rw [e1] at this
          exact this
    · intro e he
      rcases List.mem_cons.1 he with h1 | h1
      · rw [h1]; exact hent
      · exact hent2 e h1
    · simp [hmap]

theorem inv_init (c : Config) (hc : c.ok) : Inv c (EchoState.init c) [] 0 0 :=
  ⟨abs_init c, hc.2.2.1⟩

/-! ## The receive ring: invariant, slot ownership, frame order -/

/-- C1 (ring invariant). From the initial state (count 0, both indices 0, all ready flags 0,
fill offset 0), every finite run of `recv_callback` deliveries of well-formed chains (at most
65535 bytes each), peeks and pops runs to its end inside the arrays, and in the state it
reaches `0 ≤ tcp_rx_count ≤ NUM_BUFFERS` and both `tcp_rx_wr_idx` and `tcp_rx_rd_idx` lie in
`0 .. NUM_BUFFERS - 1`. -/
theorem ring_invariant (c : Config) (hc : c.ok) (ops : List Op) (hops : ops_ok c ops) :
    ∃ s tr, exec c (EchoState.init c) ops = some (s, tr) ∧
      0 ≤ s.tcp_rx_count ∧ s.tcp_rx_count ≤ (c.NUM_BUFFERS : Int) ∧
      0 ≤ s.tcp_rx_wr_idx ∧ s.tcp_rx_wr_idx < (c.NUM_BUFFERS : Int) ∧
      0 ≤ s.tcp_rx_rd_idx ∧ s.tcp_rx_rd_idx < (c.NUM_BUFFERS : Int) := by
  obtain ⟨s, tr, m, hexec, hinv, _, _, _⟩ := exec_post c hc ops _ [] 0 0 (inv_init c hc) hops
  have h := hinv.1
  have hk := h.hk
  have hm := h.hm
  have hw := Nat.mod_lt m hc.1
  have hr := Nat.mod_lt (0 + (consumed tr).length) hc.1
  refine ⟨s, tr, hexec, ?_, ?_, ?_, ?_, ?_, ?_⟩
  · rw [h.hcount]; omega
  · rw [h.hcount]; omega
  · rw [h.hwr]; omega
  · rw [h.hwr]; omega
  · rw [h.hrd]; omega
  · rw [h.hrd]; omega

/-- Witness for C1: the compiled configuration, one delivery of three bytes, one pop. -/
theorem ring_invariant_witness :
    echo_config.ok ∧ ops_ok echo_config [Op.recv 1 [[1, 2, 3]], Op.pop] ∧
    ∃ s tr, exec echo_config (EchoState.init echo_config) [Op.recv 1 [[1, 2, 3]], Op.pop]
        = some (s, tr) ∧
      0 ≤ s.tcp_rx_count ∧ s.tcp_rx_count ≤ (echo_config.NUM_BUFFERS : Int) ∧
      0 ≤ s.tcp_rx_wr_idx ∧ s.tcp_rx_wr_idx < (echo_config.NUM_BUFFERS : Int) ∧
      0 ≤ s.tcp_rx_rd_idx ∧ s.tcp_rx_rd_idx < (echo_config.NUM_BUFFERS : Int) :=
  ⟨by decide, by decide, ring_invariant echo_config (by decide) _ (by decide)⟩

/-- C2 (slot exclusivity). In every run from the initial state, each copy made by
`recv_callback` went to the slot at the write index of that moment (`rx_copy` records that
index and the flag it read there) and found the ready flag of that slot at 0, and each peek
that returned a row returned the row at `tcp_rx_rd_idx` while the ready flag of that slot
was 1. -/
theorem slot_exclusivity (c : Config) (hc : c.ok) (ops : List Op) (hops : ops_ok c ops) :
    (∀ (r r1 : Rx) (src : List u8), rx_copy c r src = some r1 →
      ∃ f, rx_ready_at c r.g r.g.tcp_rx_wr_idx = some f ∧
        r1.log = r.log ++ [Ev.memcpy r.g.tcp_rx_wr_idx r.g.tcp_rx_offset src.length f]) ∧
    ∃ s tr, exec c (EchoState.init c) ops = some (s, tr) ∧ tr.map Entry.op = ops ∧
      ∀ e ∈ tr,
        (∀ err copied log, e.out = Out.recv err copied log →
          ∀ slot off len ready, Ev.memcpy slot off len ready ∈ log → ready = 0) ∧
        (∀ i b, e.out = Out.peek (some (i, b)) →
          i = e.pre.tcp_rx_rd_idx ∧ rx_ready_at c e.pre i = some 1 ∧
            rx_buffer_at c e.pre i = some b) ∧
        (∀ i b ret, e.out = Out.pop (some (i, b)) ret →
          i = e.pre.tcp_rx_rd_idx ∧ rx_ready_at c e.pre i = some 1 ∧
            rx_buffer_at c e.pre i = some b) := by
  refine ⟨?_, ?_⟩
  · intro r r1 src h
    unfold rx_copy at h
    split at h
    · rename_i buf f hb hf
      split at h
      · simp only [Option.some.injEq] at h
        subst h
        exact ⟨f, hf, rfl⟩
      · simp at h
    · simp at h
  · obtain ⟨s, tr, m, hexec, _, _, hent, hmap⟩ :=
      exec_post c hc ops _ [] 0 0 (inv_init c hc) hops
    refine ⟨s, tr, hexec, hmap, ?_⟩
    intro e he
    have h := hent e he
    unfold entry_ok at h
    refine ⟨?_, ?_, ?_⟩
    · intro err copied log ho slot off len ready hmem
      rw [ho] at h
      exact (h _ hmem).1
    · intro i b ho
      rw [ho] at h
      exact h
    · intro i b ret ho
      rw [ho] at h
      exact ⟨h.1, h.2.1, h.2.2.1⟩

/-- Witness for C2: the compiled configuration, a delivery, a peek and a pop. -/
theorem slot_exclusivity_witness :
    echo_config.ok ∧ ops_ok echo_config [Op.recv 1 [[7, 8]], Op.peek, Op.pop] ∧
    ∃ s tr, exec echo_config (EchoState.init echo_config) [Op.recv 1 [[7, 8]], Op.peek, Op.pop]
        = some (s, tr) ∧ tr.map Entry.op = [Op.recv 1 [[7, 8]], Op.peek, Op.pop] :=
  ⟨by decide, by decide,
    let ⟨s, tr, h1, h2, _⟩ :=
      (slot_exclusivity echo_config (by decide) [Op.recv 1 [[7, 8]], Op.peek, Op.pop]
        (by decide)).2
    ⟨s, tr, h1, h2⟩⟩

/-- C3 (frames in arrival order, no byte lost or duplicated). For every interleaving, from
the initial state, of deliveries to `recv_callback` (each chunk delivered once) with peeks and
peek-then-pop calls, the `k`-th frame obtained by a peek followed by a successful pop is
bytes `[k * IN_FRAME_BYTES, (k + 1) * IN_FRAME_BYTES)` of the accepted stream, the
concatenation in delivery order of the copied part of each chunk; that range lies inside the
stream. -/
theorem frames_in_arrival_order (c : Config) (hc : c.ok) (ops : List Op)
    (hops : ops_ok c ops) :
    ∃ s tr, exec c (EchoState.init c) ops = some (s, tr) ∧ tr.map Entry.op = ops ∧
      ∀ k f, (consumed tr)[k]? = some f →
        f = frame_of c (accepted tr) k ∧
        (k + 1) * c.IN_FRAME_BYTES ≤ (accepted tr).length ∧
        f.length = c.IN_FRAME_BYTES := by
  obtain ⟨s, tr, m, hexec, _, hfr, _, hmap⟩ :=
    exec_post c hc ops _ [] 0 0 (inv_init c hc) hops
  refine ⟨s, tr, hexec, hmap, ?_⟩
  intro k f hf
  have h := hfr k f hf
  simp only [List.nil_append, Nat.zero_add] at h
  refine ⟨h.1, h.2, ?_⟩
  rw [h.1]
  unfold frame_of
  rw [List.length_take, List.length_drop]
  have := h.2
  rw [Nat.add_mul] at this
  omega

/-- Witness for C3: the end-to-end scenario (two slots of four bytes), chunks of 2, 1 and 3
bytes, then a pop. -/
theorem frames_in_arrival_order_witness :
    scenario_config.ok ∧
    ops_ok scenario_config [Op.recv 1 [[65, 66]], Op.recv 1 [[67]], Op.recv 1 [[68, 69, 70]],
      Op.pop] ∧
    ∃ s tr, exec scenario_config (EchoState.init scenario_config)
        [Op.recv 1 [[65, 66]], Op.recv 1 [[67]], Op.recv 1 [[68, 69, 70]], Op.pop]
          = some (s, tr) ∧
      tr.map Entry.op
        = [Op.recv 1 [[65, 66]], Op.recv 1 [[67]], Op.recv 1 [[68, 69, 70]], Op.pop] ∧
      ∀ k f, (consumed tr)[k]? = some f →
        f = frame_of scenario_config (accepted tr) k ∧
        (k + 1) * scenario_config.IN_FRAME_BYTES ≤ (accepted tr).length ∧
        f.length = scenario_config.IN_FRAME_BYTES :=
  ⟨by decide, by decide, frames_in_arrival_order scenario_config (by decide) _ (by decide)⟩

/-! ## Backpressure -/

theorem frame_of_take (c : Config) (l : List u8) (n j : Nat)
    (h : (j + 1) * c.IN_FRAME_BYTES ≤ n) : frame_of c (l.take n) j = frame_of c l j := by
  unfold frame_of
  rw [Nat.add_mul] at h
  rw [List.drop_take, List.take_take]
  congr 1
  omega

theorem taken_append (c : Config) (k : Nat) (acc x rest : List u8) :
    taken c k (acc ++ x) rest
      = min rest.length ((k + c.NUM_BUFFERS) * c.IN_FRAME_BYTES - acc.length - x.length) := by
  unfold taken
  rw [List.length_append, Nat.sub_add_eq]

/-- Deliveries with no pop in between: the ring takes the input up to its capacity, and a
delivery stalls as soon as the input is longer than that. -/
theorem recv_run (c : Config) (hc : c.ok) (tpcb k : Nat) :
    ∀ (chunks : List (List (List u8))) (s : EchoState) (acc : List u8) (m : Nat),
      Inv c s acc k m → (∀ p ∈ chunks, p ≠ [] ∧ pbuf_ok c p) →
      ∃ s1 tr m1, exec c s (chunks.map (Op.recv tpcb)) = some (s1, tr) ∧
        Inv c s1 (acc ++ accepted tr) k m1 ∧
        accepted tr = ((chunks.map chain_bytes).flatten).take
          (taken c k acc (chunks.map chain_bytes).flatten) ∧
        copied_total tr = taken c k acc (chunks.map chain_bytes).flatten ∧
        ((k + c.NUM_BUFFERS) * c.IN_FRAME_BYTES - acc.length
            < ((chunks.map chain_bytes).flatten).length →
          ∃ e ∈ tr, ∃ n log, e.out = Out.recv ERR_MEM n log) := by
  intro chunks
  induction chunks with
  | nil =>
    intro s acc m h _
    refine ⟨s, [], m, rfl, by simpa [accepted] using h, ?_, ?_, ?_⟩
    · simp [accepted]
    · simp [copied_total, taken]
    · intro e; simp at e
  | cons p rest ih =>
    intro s acc m h hch
    obtain ⟨hp, hok⟩ := hch p (List.mem_cons_self _ _)
    obtain ⟨ret, m1, heq, hpost⟩ :=
      recv_callback_post c hc tpcb k s acc m p h hp (fits_of_pbuf_ok c p _ hok) hok.2
    obtain ⟨s2, tr, m2, hexec, hinv2, hacc, hcop, hmem⟩ :=
      ih ret.g _ m1 ⟨hpost.habs, hpost.hoff⟩ (fun q hq => hch q (List.mem_cons_of_mem _ hq))
    have hcap := cap_ge h.1 0 (by have := h.1.hm; omega)
    have hlen1 : ((chain_bytes p).take (taken c k acc (chain_bytes p))).length
        = taken c k acc (chain_bytes p) := by
      rw [List.length_take]; unfold taken; omega
    have hb : Entry.bytes ⟨s, Op.recv tpcb p, Out.recv ret.err ret.copied ret.log⟩
        = (chain_bytes p).take (taken c k acc (chain_bytes p)) := by
      simp [Entry.bytes, hpost.hcopied]
    have hin : ((p :: rest).map chain_bytes).flatten
        = chain_bytes p ++ (rest.map chain_bytes).flatten := by simp
    rw [hin]
    refine ⟨s2, ⟨s, Op.recv tpcb p, Out.recv ret.err ret.copied ret.log⟩ :: tr, m2,
      by simp [exec, step, heq, hexec], ?_, ?_, ?_, ?_⟩
    · rw [accepted_cons, hb, ← List.append_assoc]; exact hinv2
    · rw [accepted_cons, hb, hacc]
      by_cases hle : (chain_bytes p).length
          ≤ (k + c.NUM_BUFFERS) * c.IN_FRAME_BYTES - acc.length
      · have ht1 : taken c k acc (chain_bytes p) = (chain_bytes p).length := by
          unfold taken; omega
        have ht : taken c k acc (chain_bytes p ++ (rest.map chain_bytes).flatten)
            = (chain_bytes p).length
              + taken c k (acc ++ chain_bytes p) (rest.map chain_bytes).flatten := by
          unfold taken; simp only [List.length_append]; omega
        rw [ht1, List.take_length, ht, List.take_append]
      · have ht1 : taken c k acc (chain_bytes p)
            = (k + c.NUM_BUFFERS) * c.IN_FRAME_BYTES - acc.length := by
          unfold taken; omega
        have ht2 : taken c k (acc ++ (chain_bytes p).take (taken c k acc (chain_bytes p)))
            (rest.map chain_bytes).flatten = 0 := by
          rw [taken_append, hlen1, ht1]; omega
        have ht : taken c k acc (chain_bytes p ++ (rest.map chain_bytes).flatten)
            = (k + c.NUM_BUFFERS) * c.IN_FRAME_BYTES - acc.length := by
          unfold taken; simp only [List.length_append]; omega
        rw [ht2, ht, ht1, List.take_zero, List.append_nil,
          List.take_append_of_le_length (by omega)]
    · have hct : copied_total
          (⟨s, Op.recv tpcb p, Out.recv ret.err ret.copied ret.log⟩ :: tr)
          = ret.copied + copied_total tr := by
        simp [copied_total, Entry.copied]
      rw [hct, hcop, hpost.hcopied, taken_append, hlen1]
      unfold taken
      simp only [List.length_append]
      omega
    · intro hbig
      rw [List.length_append] at hbig
      rcases hpost.herr with he | he
      · have hle := hpost.hok he
        have ht1 : taken c k acc (chain_bytes p) = (chain_bytes p).length := by
          unfold taken; omega
        obtain ⟨e, he1, he2⟩ := hmem (by rw [List.length_append, hlen1, ht1]; omega)
        exact ⟨e, List.mem_cons_of_mem _ he1, he2⟩
      · exact ⟨_, List.mem_cons_self _ _, ret.copied, ret.log, by rw [he]⟩

/-- C4 (no data loss under backpressure). From the initial empty ring, for every sequence of
non-NULL well-formed chunks delivered to `recv_callback` with no pop in between whose total
length exceeds `NUM_BUFFERS * IN_FRAME_BYTES`: the run ends with count `NUM_BUFFERS` and every
ready flag set, at least one delivery returned `ERR_MEM`, the deliveries copied exactly
`NUM_BUFFERS * IN_FRAME_BYTES` bytes, namely the first that many bytes of the concatenated
input, and slot `i` holds bytes `[i * IN_FRAME_BYTES, (i + 1) * IN_FRAME_BYTES)` of the
concatenated input for every `i < NUM_BUFFERS`. -/
theorem no_loss_under_backpressure (c : Config) (hc : c.ok) (tpcb : Nat)
    (chunks : List (List (List u8))) (hch : ∀ p ∈ chunks, p ≠ [] ∧ pbuf_ok c p)
    (hbig : c.NUM_BUFFERS * c.IN_FRAME_BYTES < ((chunks.map chain_bytes).flatten).length) :
    ∃ s tr, exec c (EchoState.init c) (chunks.map (Op.recv tpcb)) = some (s, tr) ∧
      s.tcp_rx_count = (c.NUM_BUFFERS : Int) ∧
      (∀ i, i < c.NUM_BUFFERS → s.tcp_rx_ready[i]? = some 1) ∧
      (∃ e ∈ tr, ∃ n log, e.out = Out.recv ERR_MEM n log) ∧
      copied_total tr = c.NUM_BUFFERS * c.IN_FRAME_BYTES ∧
      accepted tr = ((chunks.map chain_bytes).flatten).take
        (c.NUM_BUFFERS * c.IN_FRAME_BYTES) ∧
      ∀ i, i < c.NUM_BUFFERS →
        s.tcp_rx_buffers[i]? = some (frame_of c (chunks.map chain_bytes).flatten i) := by
  obtain ⟨s, tr, m, hexec, hinv, hacc, hcop, hmem⟩ :=
    recv_run c hc tpcb 0 chunks _ [] 0 (inv_init c hc) hch
  have ht : taken c 0 [] (chunks.map chain_bytes).flatten
      = c.NUM_BUFFERS * c.IN_FRAME_BYTES := by
    unfold taken; simp only [List.length_nil, Nat.zero_add]; omega
  rw [ht] at hacc hcop
  simp only [List.nil_append] at hinv
  have h := hinv.1
  have hlen : (accepted tr).length = c.NUM_BUFFERS * c.IN_FRAME_BYTES := by
    rw [hacc, List.length_take]; omega
  have hm : m = c.NUM_BUFFERS := by
    have h1 := h.hm
    have h2 := h.hlen
    have h3 := hinv.2
    by_contra hne
    have h4 : (m + 1) * c.IN_FRAME_BYTES ≤ c.NUM_BUFFERS * c.IN_FRAME_BYTES :=
      Nat.mul_le_mul_right _ (by omega)
    rw [Nat.add_mul] at h4
    omega
  subst hm
  refine ⟨s, tr, hexec, ?_, ?_, ?_, hcop, hacc, ?_⟩
  · rw [h.hcount]; omega
  · intro i hi
    have := (h.hin i (Nat.zero_le _) hi).1
    rwa [Nat.mod_eq_of_lt hi] at this
  · apply hmem
    simp only [List.length_nil, Nat.zero_add]
    omega
  · intro i hi
    have := (h.hin i (Nat.zero_le _) hi).2
    rw [Nat.mod_eq_of_lt hi, hacc] at this
    rw [this, frame_of_take]
    exact Nat.mul_le_mul_right _ hi

/-- Witness for C4: two slots of four bytes, nine bytes in chunks of 3, 3 and 3. -/
theorem no_loss_under_backpressure_witness :
    scenario_config.ok ∧
    (∀ p ∈ [[[1, 2, 3]], [[4, 5, 6]], [[7, 8, 9]]], p ≠ [] ∧ pbuf_ok scenario_config p) ∧
    scenario_config.NUM_BUFFERS * scenario_config.IN_FRAME_BYTES
      < (([[[1, 2, 3]], [[4, 5, 6]], [[7, 8, 9]]].map chain_bytes).flatten).length ∧
    ∃ s tr, exec scenario_config (EchoState.init scenario_config)
        ([[[1, 2, 3]], [[4, 5, 6]], [[7, 8, 9]]].map (Op.recv 1)) = some (s, tr) ∧
      s.tcp_rx_count = (scenario_config.NUM_BUFFERS : Int) ∧
      (∀ i, i < scenario_config.NUM_BUFFERS → s.tcp_rx_ready[i]? = some 1) ∧
      (∃ e ∈ tr, ∃ n log, e.out = Out.recv ERR_MEM n log) ∧
      copied_total tr = scenario_config.NUM_BUFFERS * scenario_config.IN_FRAME_BYTES ∧
      accepted tr = (([[[1, 2, 3]], [[4, 5, 6]], [[7, 8, 9]]].map chain_bytes).flatten).take
        (scenario_config.NUM_BUFFERS * scenario_config.IN_FRAME_BYTES) ∧
      ∀ i, i < scenario_config.NUM_BUFFERS →
        s.tcp_rx_buffers[i]? = some (frame_of scenario_config
          ([[[1, 2, 3]], [[4, 5, 6]], [[7, 8, 9]]].map chain_bytes).flatten i) :=
  ⟨by decide, by decide, by decide,
    no_loss_under_backpressure scenario_config (by decide) 1 _ (by decide) (by decide)⟩

/-! ## A chunk that straddles two frames -/

theorem split_unique {F m1 o1 m2 o2 : Nat} (h : m1 * F + o1 = m2 * F + o2) (h1 : o1 < F)
    (h2 : o2 < F) : m1 = m2 ∧ o1 = o2 := by
  rcases Nat.lt_trichotomy m1 m2 with hlt | heq | hgt
  · have : (m1 + 1) * F ≤ m2 * F := Nat.mul_le_mul_right _ hlt
    rw [Nat.add_mul] at this
    omega
  · subst heq
    exact ⟨rfl, by omega⟩
  · have : (m2 + 1) * F ≤ m1 * F := Nat.mul_le_mul_right _ hgt
    rw [Nat.add_mul] at this
    omega

theorem fits_of_total (c : Config) (hc : c.ok) :
    ∀ (q : List (List u8)) (off : Nat), off ≤ c.IN_FRAME_BYTES →
      (chain_bytes q).length < (c.IN_FRAME_BYTES - off) + c.IN_FRAME_BYTES →
      fits c off q = true := by
  intro q
  induction q with
  | nil => intro off _ _; rfl
  | cons src next ih =>
    intro off hoff htot
    rw [chain_bytes_cons, List.length_append] at htot
    have hF := hc.2.2.1
    rw [fits]
    by_cases hle : src.length ≤ c.IN_FRAME_BYTES - off
    · rw [if_pos hle]
      apply ih _ (Nat.le_of_lt (Nat.mod_lt _ hF))
      by_cases hfull : off + src.length = c.IN_FRAME_BYTES
      · rw [hfull, Nat.mod_self]; omega
      · rw [Nat.mod_eq_of_lt (by omega)]; omega
    · rw [if_neg hle, Bool.and_eq_true, decide_eq_true_eq]
      refine ⟨by omega, ?_⟩
      apply ih _ (Nat.le_of_lt (Nat.mod_lt _ hF))
      rw [Nat.mod_eq_of_lt (by omega)]; omega

/-- C6 (straddling chunk). For every configuration (every frame size), every state `s`
reachable from the initial state with at least two slots that are not Ready and fill offset
`F - a`, and every non-NULL chunk `p` (one segment or a chain) whose bytes are `x ++ y` with
`1 ≤ a = |x| ≤ F`, `b = |y| < F` and `a + b` within the `u16` length field: `recv_callback`
returns `ERR_OK` and acknowledges `a + b` bytes; the slot at the old write index is Ready,
keeps its first `F - a` bytes and ends with `x`; the write index advances by one modulo
`NUM_BUFFERS`, the new slot starts with `y`, the fill offset is `b` and the count is one
higher. -/
theorem straddling_chunk (c : Config) (hc : c.ok) (ops : List Op) (hops : ops_ok c ops)
    (s : EchoState) (hreach : (exec c (EchoState.init c) ops).map Prod.fst = some s)
    (tpcb : Nat) (p : List (List u8)) (x y : List u8) (hp : chain_bytes p = x ++ y)
    (ha : 1 ≤ x.length) (haF : x.length ≤ c.IN_FRAME_BYTES)
    (hb : y.length < c.IN_FRAME_BYTES) (hlen : x.length + y.length ≤ 65535)
    (hcount : s.tcp_rx_count + 2 ≤ (c.NUM_BUFFERS : Int))
    (hoff : s.tcp_rx_offset = c.IN_FRAME_BYTES - x.length) :
    ∃ ret old, recv_callback c s tpcb p = some ret ∧
      rx_buffer_at c s s.tcp_rx_wr_idx = some old ∧
      ret.err = ERR_OK ∧ acked ret.log = x.length + y.length ∧
      rx_ready_at c ret.g s.tcp_rx_wr_idx = some 1 ∧
      rx_buffer_at c ret.g s.tcp_rx_wr_idx
        = some (old.take (c.IN_FRAME_BYTES - x.length) ++ x) ∧
      ret.g.tcp_rx_wr_idx = Int.tmod (s.tcp_rx_wr_idx + 1) (c.NUM_BUFFERS : Int) ∧
      (∃ nb, rx_buffer_at c ret.g ret.g.tcp_rx_wr_idx = some nb ∧ nb.take y.length = y) ∧
      ret.g.tcp_rx_offset = y.length ∧
      ret.g.tcp_rx_count = s.tcp_rx_count + 1 := by
  obtain ⟨s0, tr, m, hexec, hinv, _, _, _⟩ :=
    exec_post c hc ops _ [] 0 0 (inv_init c hc) hops
  rw [hexec] at hreach
  simp only [Option.map_some', Option.some.injEq] at hreach
  have hs0 : s = s0 := hreach.symm
  subst hs0
  simp only [List.nil_append, Nat.zero_add] at hinv
  generalize hk : (consumed tr).length = k at hinv
  generalize hacc : accepted tr = acc at hinv
  have h := hinv.1
  have hm2 : m + 2 ≤ k + c.NUM_BUFFERS := by
    have := h.hcount
    have := h.hk
    omega
  have hfit : fits c s.tcp_rx_offset p = true := by
    apply fits_of_total c hc p _ h.hoff
    rw [hp, List.length_append, hoff]; omega
  have hcb : chain_bytes p = x ++ y := hp
  have hpne : p ≠ [] := by
    intro e
    rw [e] at hp
    have : (x ++ y).length = 0 := by rw [← hp]; simp [chain_bytes]
    rw [List.length_append] at this
    omega
  obtain ⟨ret, m1, heq, hpost⟩ :=
    recv_callback_post c hc tpcb k s acc m p hinv hpne hfit
      (by rw [hcb, List.length_append]; exact hlen)
  rw [hcb] at hpost
  have hcap := cap_ge h 2 hm2
  have hlenacc := h.hlen
  have ht : taken c k acc (x ++ y) = x.length + y.length := by
    unfold taken; rw [List.length_append]; omega
  have habs := hpost.habs
  rw [ht, ← List.length_append, List.take_length] at habs
  have hsplit : m1 = m + 1 ∧ ret.g.tcp_rx_offset = y.length := by
    have h1 := habs.hlen
    rw [List.length_append, List.length_append, hlenacc] at h1
    have h2 : (m + 1) * c.IN_FRAME_BYTES + y.length
        = m1 * c.IN_FRAME_BYTES + ret.g.tcp_rx_offset := by
      rw [Nat.add_mul]; omega
    have := split_unique h2 hb hpost.hoff
    exact ⟨this.1.symm, this.2.symm⟩
  obtain ⟨hm1, hoff1⟩ := hsplit
  subst hm1
  obtain ⟨old, hold, holdlen⟩ := abs_wr_row hc h
  have hlt : m % c.NUM_BUFFERS < c.NUM_BUFFERS := Nat.mod_lt _ hc.1
  have hlt1 : (m + 1) % c.NUM_BUFFERS < c.NUM_BUFFERS := Nat.mod_lt _ hc.1
  have hmF : m * c.IN_FRAME_BYTES ≤ acc.length := by omega
  have htail := h.htail old hold
  have hdl : (acc.drop (m * c.IN_FRAME_BYTES)).length = c.IN_FRAME_BYTES - x.length := by
    rw [List.length_drop]; omega
  obtain ⟨hr1, hb1⟩ := habs.hin m h.hk (by omega)
  obtain ⟨nb, hnb, _⟩ := abs_wr_row hc habs
  refine ⟨ret, old, heq, ?_, ?_, ?_, ?_, ?_, ?_, ⟨nb, ?_, ?_⟩, hoff1, ?_⟩
  · rw [h.hwr, rx_buffer_at_nat c _ _ hlt, hold]
  · apply hpost.hroom
    rw [List.length_append]; omega
  · rw [hpost.hack, hpost.hcopied, ht]; omega
  · rw [h.hwr, rx_ready_at_nat c _ _ hlt, hr1]
  · rw [h.hwr, rx_buffer_at_nat c _ _ hlt, hb1]
    unfold frame_of
    rw [List.drop_append_of_le_length hmF, ← htail, hoff, ← List.append_assoc]
    have e : (old.take (c.IN_FRAME_BYTES - x.length) ++ x).length = c.IN_FRAME_BYTES := by
      rw [List.length_append, List.length_take]; omega
    rw [List.take_append_of_le_length (by omega), List.take_of_length_le (by omega)]
  · rw [habs.hwr, h.hwr]; exact (tmod_succ_idx _ _ hc.1).symm
  · rw [habs.hwr, rx_buffer_at_nat c _ _ hlt1, hnb]
  · have := habs.htail nb hnb
    rw [hoff1] at this
    rw [this, ← List.append_assoc]
    have e : (m + 1) * c.IN_FRAME_BYTES = (acc ++ x).length := by
      rw [List.length_append, Nat.add_mul]; omega
    rw [e, List.drop_left]
  · rw [habs.hcount, h.hcount]; push_cast; omega

/-- Witness for C6: frames of four bytes, three bytes already in the slot, a chunk of
`a + b = 1 + 2` bytes. -/
theorem straddling_chunk_witness :
    ∃ ret old, recv_callback scenario_config
        { EchoState.init scenario_config with
          tcp_rx_buffers := [[1, 2, 3, 0], [0, 0, 0, 0]], tcp_rx_offset := 3 } 1 [[4, 5, 6]]
          = some ret ∧
      rx_buffer_at scenario_config
        { EchoState.init scenario_config with
          tcp_rx_buffers := [[1, 2, 3, 0], [0, 0, 0, 0]], tcp_rx_offset := 3 }
        (0 : Int) = some old ∧
      ret.err = ERR_OK ∧ acked ret.log = 1 + 2 ∧
      rx_ready_at scenario_config ret.g (0 : Int) = some 1 ∧
      rx_buffer_at scenario_config ret.g (0 : Int) = some (old.take (4 - 1) ++ [4]) ∧
      ret.g.tcp_rx_wr_idx = Int.tmod ((0 : Int) + 1) (2 : Int) ∧
      (∃ nb, rx_buffer_at scenario_config ret.g ret.g.tcp_rx_wr_idx = some nb ∧
        nb.take 2 = [5, 6]) ∧
      ret.g.tcp_rx_offset = 2 ∧ ret.g.tcp_rx_count = 0 + 1 :=
  straddling_chunk scenario_config (by decide) [Op.recv 1 [[1, 2, 3]]] (by decide) _
    (by decide) 1 [[4, 5, 6]] [4] [5, 6] (by decide) (by decide) (by decide) (by decide)
    (by decide) (by decide) (by decide)

/-! ## Redelivery of a stalled chunk -/

/-- A chunk of one segment that arrives when one slot is left and does not fit it, a pop, and
the same chunk again: the first call stalls after `F - offset` bytes, the second call copies
the chunk from its first byte. The slot closed by the first call ends with the first
`F - offset` bytes of the chunk and the next slot starts with the whole chunk. -/
theorem retry_copies_again (c : Config) (hc : c.ok) (hN : 2 ≤ c.NUM_BUFFERS) (tpcb : Nat)
    (s : EchoState) (acc : List u8) (k m : Nat) (src : List u8) (hinv : Inv c s acc k m)
    (hone : m + 1 = k + c.NUM_BUFFERS)
    (hover : c.IN_FRAME_BYTES - s.tcp_rx_offset < src.length)
    (hshort : src.length < c.IN_FRAME_BYTES) (h16 : src.length ≤ 65535) :
    ∃ r1 s2 r3 last first,
      recv_callback c s tpcb [src] = some r1 ∧ r1.err = ERR_MEM ∧
      r1.copied = c.IN_FRAME_BYTES - s.tcp_rx_offset ∧
      tcp_rx_pop_frame c r1.g = some (s2, 0) ∧
      recv_callback c s2 tpcb [src] = some r3 ∧ r3.err = ERR_OK ∧ r3.copied = src.length ∧
      rx_buffer_at c r3.g s.tcp_rx_wr_idx = some last ∧
      last.drop s.tcp_rx_offset = src.take (c.IN_FRAME_BYTES - s.tcp_rx_offset) ∧
      rx_buffer_at c r3.g r1.g.tcp_rx_wr_idx = some first ∧
      first.take src.length = src ∧
      r1.g.tcp_rx_wr_idx = Int.tmod (s.tcp_rx_wr_idx + 1) (c.NUM_BUFFERS : Int) := by
  have h := hinv.1
  have hoffs := hinv.2
  have hcb : chain_bytes [src] = src := by simp [chain_bytes]
  have hlenacc := h.hlen
  have hcapm : (k + c.NUM_BUFFERS) * c.IN_FRAME_BYTES
      = m * c.IN_FRAME_BYTES + c.IN_FRAME_BYTES := by
    rw [← hone, Nat.add_mul]; omega
  -- first delivery
  have hfit1 : fits c s.tcp_rx_offset [src] = true := by
    simp only [fits]
    rw [if_neg (by omega)]
    simp only [Bool.and_true, decide_eq_true_eq]; omega
  obtain ⟨r1, m1, heq1, hpost1⟩ :=
    recv_callback_post c hc tpcb k s acc m [src] hinv (by simp) hfit1 (by rw [hcb]; exact h16)
  rw [hcb] at hpost1
  have ht1 : taken c k acc src = c.IN_FRAME_BYTES - s.tcp_rx_offset := by
    unfold taken; omega
  have herr1 : r1.err = ERR_MEM := by
    rcases hpost1.herr with e | e
    · have := hpost1.hok e; omega
    · exact e
  have habs1 := hpost1.habs
  rw [ht1] at habs1
  have htl : (src.take (c.IN_FRAME_BYTES - s.tcp_rx_offset)).length
      = c.IN_FRAME_BYTES - s.tcp_rx_offset := by
    rw [List.length_take]; omega
  have hsplit1 : m1 = m + 1 ∧ r1.g.tcp_rx_offset = 0 := by
    have h1 := habs1.hlen
    rw [List.length_append, htl, hlenacc] at h1
    have h2 : (m + 1) * c.IN_FRAME_BYTES + 0
        = m1 * c.IN_FRAME_BYTES + r1.g.tcp_rx_offset := by
      rw [Nat.add_mul]; omega
    have := split_unique h2 hc.2.2.1 hpost1.hoff
    exact ⟨this.1.symm, this.2.symm⟩
  obtain ⟨hm1, hoff1⟩ := hsplit1
  subst hm1
  -- pop
  obtain ⟨s2, hpop, habs2, hoff2⟩ := pop_abs_nonempty c hc r1.g _ k (m + 1) habs1 (by omega)
  have hinv2 : Inv c s2 (acc ++ src.take (c.IN_FRAME_BYTES - s.tcp_rx_offset)) (k + 1) (m + 1) :=
    ⟨habs2, by rw [hoff2, hoff1]; exact hc.2.2.1⟩
  -- second delivery of the same chunk
  have hfit2 : fits c s2.tcp_rx_offset [src] = true := by
    rw [hoff2, hoff1]
    simp only [fits]
    rw [if_pos (by omega)]
  obtain ⟨r3, m3, heq3, hpost3⟩ :=
    recv_callback_post c hc tpcb (k + 1) s2 _ (m + 1) [src] hinv2 (by simp) hfit2
      (by rw [hcb]; exact h16)
  rw [hcb] at hpost3
  have hcap3 : (k + 1 + c.NUM_BUFFERS) * c.IN_FRAME_BYTES
      = m * c.IN_FRAME_BYTES + c.IN_FRAME_BYTES + c.IN_FRAME_BYTES := by
    have e : k + 1 + c.NUM_BUFFERS = m + 1 + 1 := by omega
    rw [e, Nat.add_mul, Nat.add_mul]; omega
  have hl1 : (acc ++ src.take (c.IN_FRAME_BYTES - s.tcp_rx_offset)).length
      = m * c.IN_FRAME_BYTES + c.IN_FRAME_BYTES := by
    rw [List.length_append, htl, hlenacc]; omega
  have ht3 : taken c (k + 1) (acc ++ src.take (c.IN_FRAME_BYTES - s.tcp_rx_offset)) src
      = src.length := by
    unfold taken; rw [hl1, hcap3]; omega
  have herr3 : r3.err = ERR_OK := hpost3.hroom (by rw [hl1, hcap3]; omega)
  have habs3 := hpost3.habs
  rw [ht3, List.take_length] at habs3
  have hsplit3 : m3 = m + 1 ∧ r3.g.tcp_rx_offset = src.length := by
    have h1 := habs3.hlen
    rw [List.length_append, hl1] at h1
    have h2 : (m + 1) * c.IN_FRAME_BYTES + src.length
        = m3 * c.IN_FRAME_BYTES + r3.g.tcp_rx_offset := by
      rw [Nat.add_mul]; omega
    have := split_unique h2 hshort hpost3.hoff
    exact ⟨this.1.symm, this.2.symm⟩
  obtain ⟨hm3, hoff3⟩ := hsplit3
  subst hm3
  have hlt : m % c.NUM_BUFFERS < c.NUM_BUFFERS := Nat.mod_lt _ hc.1
  have hlt1 : (m + 1) % c.NUM_BUFFERS < c.NUM_BUFFERS := Nat.mod_lt _ hc.1
  obtain ⟨_, hrow⟩ := habs3.hin m (by omega) (by omega)
  obtain ⟨first, hfirst, _⟩ := abs_wr_row hc habs3
  have hmF : m * c.IN_FRAME_BYTES ≤ acc.length := by omega
  have hdl : (acc.drop (m * c.IN_FRAME_BYTES)).length = s.tcp_rx_offset := by
    rw [List.length_drop]; omega
  refine ⟨r1, s2, r3,
    frame_of c (acc ++ src.take (c.IN_FRAME_BYTES - s.tcp_rx_offset) ++ src) m, first, heq1,
    herr1, by rw [hpost1.hcopied, ht1]; omega, hpop, heq3,
    herr3, by rw [hpost3.hcopied, ht3]; omega, ?_, ?_, ?_, ?_, ?_⟩
  rotate_left 4
  · rw [habs1.hwr, h.hwr]; exact (tmod_succ_idx _ _ hc.1).symm
  · rw [h.hwr, rx_buffer_at_nat c _ _ hlt, hrow]
  · rw [frame_of_append c _ src m (by rw [hl1, Nat.add_mul]; omega)]
    unfold frame_of
    rw [List.drop_append_of_le_length hmF, List.take_of_length_le
      (by rw [List.length_append, hdl, htl]; omega)]
    rw [← hdl, List.drop_left]
  · rw [habs1.hwr, rx_buffer_at_nat c _ _ hlt1, hfirst]
  · have := habs3.htail first hfirst
    rw [hoff3] at this
    rw [this]
    have e : (m + 1) * c.IN_FRAME_BYTES
        = (acc ++ src.take (c.IN_FRAME_BYTES - s.tcp_rx_offset)).length := by
      rw [hl1, Nat.add_mul]; omega
    rw [e, List.drop_left]

theorem fill_length (n : Nat) (x y : List u8) :
    (((List.replicate n [x] ++ [[y]]).map chain_bytes).flatten).length
      = n * x.length + y.length := by
  induction n with
  | zero => simp [chain_bytes]
  | succ n ih =>
    rw [List.replicate_succ, List.cons_append, List.map_cons, List.flatten_cons,
      List.length_append, ih, chain_bytes_single, Nat.succ_mul]
    omega

theorem fill_chunks_ok : ∀ p ∈ fill_chunks, p ≠ [] ∧ pbuf_ok echo_config p := by
  intro p hp
  unfold fill_chunks at hp
  rw [List.mem_append, List.mem_replicate, List.mem_singleton] at hp
  rcases hp with ⟨_, rfl⟩ | rfl
  · refine ⟨List.cons_ne_nil _ _, ?_, ?_⟩
    · intro seg hs
      rw [List.mem_singleton.1 hs, List.length_replicate]
      exact ⟨by omega, by decide⟩
    · rw [chain_bytes_single, List.length_replicate]
  · refine ⟨List.cons_ne_nil _ _, ?_, ?_⟩
    · intro seg hs
      rw [List.mem_singleton.1 hs, List.length_replicate]
      exact ⟨by omega, by decide⟩
    · rw [chain_bytes_single, List.length_replicate]; omega

theorem fill_chunks_length : ((fill_chunks.map chain_bytes).flatten).length = 1727998 := by
  unfold fill_chunks
  rw [fill_length, List.length_replicate, List.length_replicate]

/-- C5 (a stalled chunk on retry), on the compiled configuration (ten slots of 172800
bytes). Twenty-seven deliveries fill nine frames and leave two bytes of room in slot 9. The
chunk `[7, 8, 9]` then stalls: `recv_callback` copies 7 and 8, the ring is full, the call
returns `ERR_MEM` with `copied = 2`. After one `tcp_rx_pop_frame` the same chunk is delivered
again: the call returns `ERR_OK` with `copied = 3`, having copied the chunk from its first
byte. Slot 9 ends with `7, 8` and slot 0, the next frame, starts with `7, 8, 9`: the two
bytes copied by the stalled call are in the ring twice. -/
theorem stalled_chunk_stored_twice :
    ∃ s r1 s2 r3 last first,
      (exec echo_config (EchoState.init echo_config) (fill_chunks.map (Op.recv 1))).map
        Prod.fst = some s ∧
      s.tcp_rx_count = 9 ∧ s.tcp_rx_wr_idx = 9 ∧ s.tcp_rx_offset = 172798 ∧
      recv_callback echo_config s 1 [[7, 8, 9]] = some r1 ∧ r1.err = ERR_MEM ∧
      r1.copied = 2 ∧ r1.g.tcp_rx_wr_idx = 0 ∧
      tcp_rx_pop_frame echo_config r1.g = some (s2, 0) ∧
      recv_callback echo_config s2 1 [[7, 8, 9]] = some r3 ∧ r3.err = ERR_OK ∧
      r3.copied = 3 ∧
      rx_buffer_at echo_config r3.g 9 = some last ∧ last.drop 172798 = [7, 8] ∧
      rx_buffer_at echo_config r3.g 0 = some first ∧ first.take 3 = [7, 8, 9] := by
  have hc : echo_config.ok := by decide
  have hF : echo_config.IN_FRAME_BYTES = 172800 := rfl
  have hNb : echo_config.NUM_BUFFERS = 10 := rfl
  obtain ⟨s, tr, m, hexec, hinv, hacc, _, _⟩ :=
    recv_run echo_config hc 1 0 fill_chunks _ [] 0 (inv_init echo_config hc) fill_chunks_ok
  have ht : taken echo_config 0 [] (fill_chunks.map chain_bytes).flatten = 1727998 := by
    unfold taken
    rw [fill_chunks_length, hF, hNb]
    rfl
  rw [ht] at hacc
  simp only [List.nil_append] at hinv
  have hlen : (accepted tr).length = 1727998 := by
    rw [hacc, List.length_take, fill_chunks_length]; rfl
  have h1 := hinv.1.hlen
  have h2 := hinv.2
  rw [hlen, hF] at h1
  rw [hF] at h2
  have hm : m = 9 := by omega
  have hoff : s.tcp_rx_offset = 172798 := by omega
  subst hm
  obtain ⟨r1, s2, r3, last, first, e1, e2, e3, e4, e5, e6, e7, e8, e9, e10, e11, e12⟩ :=
    retry_copies_again echo_config hc (by decide) 1 s (accepted tr) 0 9 [7, 8, 9] hinv
      (by decide) (by rw [hoff]; decide) (by decide) (by decide)
  have hwr : s.tcp_rx_wr_idx = 9 := by rw [hinv.1.hwr]; rfl
  have hcount : s.tcp_rx_count = 9 := by rw [hinv.1.hcount]; rfl
  rw [hoff, hF] at e3 e9
  rw [hwr] at e8 e12
  have hwr1 : r1.g.tcp_rx_wr_idx = 0 := by rw [e12]; rfl
  rw [hwr1] at e10
  refine ⟨s, r1, s2, r3, last, first, by rw [hexec]; rfl, hcount, hwr, hoff, e1, e2, e3, hwr1,
    e4, e5, e6, e7, e8, e9, e10, e11⟩

/-- The same path on two slots of four bytes, evaluated call by call. The stream is the bytes
1 .. 10. The chunk `[7, 8, 9]` arrives when two bytes of room are left: the call copies 7 and
8, fills the ring and returns `ERR_MEM` with `copied = 2`. After a pop the same chunk is
delivered again and is copied from its first byte, so the consumer obtains the frames
`[1, 2, 3, 4]`, `[5, 6, 7, 8]`, `[7, 8, 9, 10]`. -/
theorem stalled_chunk_scenario :
    (exec scenario_config (EchoState.init scenario_config)
      [Op.recv 1 [[1, 2, 3, 4]], Op.recv 1 [[5, 6]], Op.recv 1 [[7, 8, 9]], Op.pop,
       Op.recv 1 [[7, 8, 9]], Op.pop, Op.recv 1 [[10]], Op.pop]).map
      (fun r => (r.2.map fun e => (Entry.copied e, Entry.frame e)))
    = some [(4, none), (2, none), (2, none), (0, some [1, 2, 3, 4]), (3, none),
        (0, some [5, 6, 7, 8]), (1, none), (0, some [7, 8, 9, 10])] ∧
    (recv_callback scenario_config
      { EchoState.init scenario_config with
        tcp_rx_buffers := [[1, 2, 3, 4], [5, 6, 0, 0]], tcp_rx_ready := [1, 0],
        tcp_rx_wr_idx := 1, tcp_rx_count := 1, tcp_rx_offset := 2 } 1 [[7, 8, 9]]).map
      (fun r => (r.err, r.copied, r.log))
    = some (ERR_MEM, 2, [Ev.memcpy 1 2 2 0, Ev.flush 1, Ev.tcp_recved 1 2]) := by
  decide

/-! ## The asynchronous sender -/

theorem mem_read_append (mem : Nat → u8) (a n k : Nat) :
    mem_read mem a (n + k) = mem_read mem a n ++ mem_read mem (a + n) k := by
  unfold mem_read
  rw [List.range_add, List.map_append, List.map_map]
  congr 1
  apply List.map_congr_left
  intro x _
  simp [Nat.add_assoc]

theorem queued_append (a b : List Ev) : queued (a ++ b) = queued a ++ queued b := by
  induction a with
  | nil => simp [queued]
  | cons e rest ih =>
    cases e <;> simp [queued, ih]
    all_goals (split <;> simp)

/-- The send loop: it returns, leaves the ring and the connection alone, keeps the buffer
reference and length, only moves the bytes-queued counter forward and never past the length,
and the chunks `tcp_write` took during the call are exactly the bytes between the old and the
new counter. -/
theorem send_loop_post (c : Config) (hchunk : 0 < c.TCP_TX_CHUNK) (mem : Nat → u8)
    (net : Nat → NetResp) (tpcb : Nat) :
    ∀ (fuel i : Nat) (s : EchoState) (log : List Ev),
      s.tcp_tx_sent_len ≤ s.tcp_tx_buf_len → s.tcp_tx_buf_len < U32 →
      s.tcp_tx_buf_len - s.tcp_tx_sent_len < fuel →
      ∃ r, send_loop c mem net tpcb fuel i s log = some r ∧
        r.g.tcp_tx_buf_ptr = s.tcp_tx_buf_ptr ∧ r.g.tcp_tx_buf_len = s.tcp_tx_buf_len ∧
        s.tcp_tx_sent_len ≤ r.g.tcp_tx_sent_len ∧ r.g.tcp_tx_sent_len ≤ s.tcp_tx_buf_len ∧
        queued r.log = queued log ++
          mem_read mem (s.tcp_tx_buf_ptr + s.tcp_tx_sent_len)
            (r.g.tcp_tx_sent_len - s.tcp_tx_sent_len) ∧
        ring_eq r.g s ∧ r.g.client_pcb = s.client_pcb ∧
        (r.g.tcp_tx_active = s.tcp_tx_active ∨ r.g.tcp_tx_active = 0) ∧
        (no_hard_error net → r.ret = ERR_OK ∧
          (r.g.tcp_tx_active = s.tcp_tx_active ∨ r.g.tcp_tx_sent_len = s.tcp_tx_buf_len)) := by
  intro fuel
  induction fuel with
  | zero => intro i s log _ _ h; omega
  | succ fuel ih =>
    intro i s log hle hlen hfuel
    rw [send_loop]
    by_cases hlt : s.tcp_tx_sent_len < s.tcp_tx_buf_len
    · simp only [if_pos hlt]
      by_cases hz : (net i).sndbuf % 65536 = 0
      · simp only [if_pos hz]
        refine ⟨_, rfl, rfl, rfl, le_refl _, hle, ?_, ⟨rfl, rfl, rfl, rfl, rfl, rfl⟩, rfl,
          Or.inl rfl, fun _ => ⟨rfl, Or.inl rfl⟩⟩
        simp [mem_read]
      · simp only [if_neg hz]
        have hrem : u32_sub s.tcp_tx_buf_len s.tcp_tx_sent_len
            = s.tcp_tx_buf_len - s.tcp_tx_sent_len := u32_sub_of_le hle hlen
        rw [hrem]
        generalize hch : (if (if s.tcp_tx_buf_len - s.tcp_tx_sent_len > c.TCP_TX_CHUNK
            then c.TCP_TX_CHUNK else s.tcp_tx_buf_len - s.tcp_tx_sent_len)
              > (net i).sndbuf % 65536
            then (net i).sndbuf % 65536
            else (if s.tcp_tx_buf_len - s.tcp_tx_sent_len > c.TCP_TX_CHUNK
              then c.TCP_TX_CHUNK else s.tcp_tx_buf_len - s.tcp_tx_sent_len)) = chunk
        have hc1 : 1 ≤ chunk ∧ chunk ≤ s.tcp_tx_buf_len - s.tcp_tx_sent_len := by
          rw [← hch]
          split <;> split <;> omega
        by_cases he : (net i).write_err = ERR_OK
        · simp only [if_pos he]
          have hadd : u32_add s.tcp_tx_sent_len chunk = s.tcp_tx_sent_len + chunk :=
            u32_add_of_lt (by omega)
          rw [hadd]
          obtain ⟨r, hr, h1, h2, h3, h4, h5, h6, h7, h8, h9⟩ :=
            ih (i + 1) { s with tcp_tx_sent_len := s.tcp_tx_sent_len + chunk }
              (log ++ [Ev.tcp_write tpcb
                (mem_read mem (s.tcp_tx_buf_ptr + s.tcp_tx_sent_len) chunk)
                (net i).write_err] ++ [Ev.tcp_output tpcb])
              (by show s.tcp_tx_sent_len + chunk ≤ s.tcp_tx_buf_len; omega) hlen
              (by show s.tcp_tx_buf_len - (s.tcp_tx_sent_len + chunk) < fuel; omega)
          simp only at h1 h2 h3 h4 h5 h7 h8 h9
          refine ⟨r, hr, h1, h2, by omega, h4, ?_, h6, h7, h8, h9⟩
          rw [h5, queued_append, queued_append]
          simp only [queued, if_pos he, List.append_nil, List.append_assoc]
          congr 1
          have e : r.g.tcp_tx_sent_len - s.tcp_tx_sent_len
              = chunk + (r.g.tcp_tx_sent_len - (s.tcp_tx_sent_len + chunk)) := by omega
          rw [e, mem_read_append, Nat.add_assoc]
        · simp only [if_neg he]
          have hq : queued (log ++ [Ev.tcp_write tpcb
              (mem_read mem (s.tcp_tx_buf_ptr + s.tcp_tx_sent_len) chunk) (net i).write_err])
              = queued log ++ mem_read mem (s.tcp_tx_buf_ptr + s.tcp_tx_sent_len)
                (s.tcp_tx_sent_len - s.tcp_tx_sent_len) := by
            rw [queued_append]
            simp [queued, he, mem_read]
          by_cases hm : (net i).write_err = ERR_MEM
          · simp only [if_pos hm]
            exact ⟨_, rfl, rfl, rfl, le_refl _, hle, hq, ⟨rfl, rfl, rfl, rfl, rfl, rfl⟩, rfl,
              Or.inl rfl, fun _ => ⟨rfl, Or.inl rfl⟩⟩
          · simp only [if_neg hm]
            refine ⟨_, rfl, rfl, rfl, le_refl _, hle, hq, ⟨rfl, rfl, rfl, rfl, rfl, rfl⟩, rfl,
              Or.inr rfl, fun hn => ?_⟩
            rcases hn i with h1 | h1
            · exact absurd h1 he
            · exact absurd h1 hm
    · simp only [if_neg hlt]
      have hge : s.tcp_tx_sent_len ≥ s.tcp_tx_buf_len := by omega
      simp only [if_pos hge]
      refine ⟨_, rfl, rfl, rfl, le_refl _, hle, ?_, ⟨rfl, rfl, rfl, rfl, rfl, rfl⟩, rfl,
        Or.inr rfl, fun _ => ⟨rfl, Or.inr ?_⟩⟩
      · simp [mem_read]
      · show s.tcp_tx_sent_len = s.tcp_tx_buf_len
        omega

theorem send_callback_post (c : Config) (hchunk : 0 < c.TCP_TX_CHUNK) (mem : Nat → u8)
    (net : Nat → NetResp) (tpcb i : Nat) (s : EchoState)
    (hle : s.tcp_tx_sent_len ≤ s.tcp_tx_buf_len) (hlen : s.tcp_tx_buf_len < U32) :
    ∃ r, send_callback c mem net i s tpcb = some r ∧
      r.g.tcp_tx_buf_ptr = s.tcp_tx_buf_ptr ∧ r.g.tcp_tx_buf_len = s.tcp_tx_buf_len ∧
      s.tcp_tx_sent_len ≤ r.g.tcp_tx_sent_len ∧ r.g.tcp_tx_sent_len ≤ s.tcp_tx_buf_len ∧
      queued r.log = mem_read mem (s.tcp_tx_buf_ptr + s.tcp_tx_sent_len)
        (r.g.tcp_tx_sent_len - s.tcp_tx_sent_len) ∧
      ring_eq r.g s ∧ r.g.client_pcb = s.client_pcb ∧
      (r.g.tcp_tx_active = s.tcp_tx_active ∨ r.g.tcp_tx_active = 0) ∧
      (no_hard_error net → r.ret = ERR_OK ∧
        (r.g.tcp_tx_active = s.tcp_tx_active ∨ r.g.tcp_tx_sent_len = s.tcp_tx_buf_len)) := by
  unfold send_callback
  by_cases ha : s.tcp_tx_active = 0
  · rw [if_pos ha]
    refine ⟨_, rfl, rfl, rfl, le_refl _, hle, ?_, ⟨rfl, rfl, rfl, rfl, rfl, rfl⟩, rfl,
      Or.inl rfl, fun _ => ⟨rfl, Or.inl rfl⟩⟩
    simp [queued, mem_read]
  · rw [if_neg ha]
    obtain ⟨r, hr, h1, h2, h3, h4, h5, h6⟩ :=
      send_loop_post c hchunk mem net tpcb (s.tcp_tx_buf_len - s.tcp_tx_sent_len + 1) i s []
        hle hlen (by omega)
    refine ⟨r, hr, h1, h2, h3, h4, ?_, h6⟩
    rw [h5]; simp [queued]

theorem send_resume_post (c : Config) (hchunk : 0 < c.TCP_TX_CHUNK) (mem : Nat → u8)
    (net : Nat → NetResp) (hnet : no_hard_error net) (tpcb buf len : Nat) (hlen : len < U32) :
    ∀ (n : Nat) (r : SendRet), SendInv mem buf len r →
      ∃ r1, send_resume c mem net tpcb n r = some r1 ∧ SendInv mem buf len r1 ∧
        r.g.tcp_tx_sent_len ≤ r1.g.tcp_tx_sent_len ∧ ring_eq r1.g r.g := by
  intro n
  induction n with
  | zero =>
    intro r h
    exact ⟨r, rfl, h, le_refl _, ⟨rfl, rfl, rfl, rfl, rfl, rfl⟩⟩
  | succ n ih =>
    intro r h
    obtain ⟨r1, hr1, h1, h2, h3, h4, h5, h6, _, _, h9⟩ :=
      send_callback_post c hchunk mem net tpcb r.next r.g
        (by rw [h.hlen]; exact h.hsent) (by rw [h.hlen]; exact hlen)
    have hinv : SendInv mem buf len { r1 with log := r.log ++ r1.log } := by
      refine ⟨by rw [← h.hptr]; exact h1, by rw [← h.hlen]; exact h2,
        by rw [← h.hlen]; exact h4, ?_, ?_⟩
      · show queued (r.log ++ r1.log) = mem_read mem buf r1.g.tcp_tx_sent_len
        rw [queued_append, h.hqueued, h5, h.hptr, ← mem_read_append]
        congr 1
        omega
      · intro ha
        show r1.g.tcp_tx_sent_len = len
        rcases (h9 hnet).2 with e | e
        · have := h.hdone (by rw [← e]; exact ha)
          have := h.hlen
          omega
        · rw [e, h.hlen]
    obtain ⟨r2, hr2, hinv2, hmono, hring⟩ := ih _ hinv
    refine ⟨r2, by simp only [send_resume, hr1]; exact hr2, hinv2, ?_, ?_⟩
    · have : r1.g.tcp_tx_sent_len ≤ r2.g.tcp_tx_sent_len := hmono
      omega
    · obtain ⟨a1, a2, a3, a4, a5, a6⟩ := hring
      obtain ⟨b1, b2, b3, b4, b5, b6⟩ := h6
      exact ⟨a1.trans b1, a2.trans b2, a3.trans b3, a4.trans b4, a5.trans b5, a6.trans b6⟩

theorem send_resume_add (c : Config) (mem : Nat → u8) (net : Nat → NetResp) (tpcb : Nat) :
    ∀ (a b : Nat) (r : SendRet),
      send_resume c mem net tpcb (a + b) r
        = (send_resume c mem net tpcb a r).bind (send_resume c mem net tpcb b) := by
  intro a
  induction a with
  | zero => intro b r; simp [send_resume]
  | succ a ih =>
    intro b r
    rw [Nat.succ_add]
    simp only [send_resume]
    cases send_callback c mem net r.next r.g tpcb with
    | none => rfl
    | some r1 => exact ih b _

/-- The state `start_sending` leaves behind when it accepts the request. -/
theorem start_sending_post (c : Config) (hchunk : 0 < c.TCP_TX_CHUNK) (mem : Nat → u8)
    (net : Nat → NetResp) (i : Nat) (s : EchoState) (buf len : Nat)
    (hpcb : s.client_pcb ≠ 0) (hidle : s.tcp_tx_active = 0) (hlen : len < U32) :
    ∃ r, start_sending c mem net i s buf len = some r ∧ ring_eq r.g s ∧
      r.g.client_pcb = s.client_pcb ∧
      (no_hard_error net → r.ret = ERR_OK ∧ SendInv mem buf len r) := by
  unfold start_sending
  have hg : ¬ (s.client_pcb = 0 ∨ s.tcp_tx_active ≠ 0) := by
    intro h
    rcases h with h | h
    · exact hpcb h
    · exact h hidle
  rw [if_neg hg]
  obtain ⟨r, hr, h1, h2, h3, h4, h5, h6, h7, _, h9⟩ :=
    send_callback_post c hchunk mem net s.client_pcb i
      { s with tcp_tx_buf_ptr := buf, tcp_tx_buf_len := len, tcp_tx_sent_len := 0,
               tcp_tx_active := 1 }
      (Nat.zero_le _) hlen
  simp only [Nat.add_zero, Nat.sub_zero] at h1 h2 h3 h4 h5 h7 h9
  refine ⟨r, hr, h6, h7, fun hnet => ⟨(h9 hnet).1, h1, h2, h4, h5, ?_⟩⟩
  intro ha
  rcases (h9 hnet).2 with e | e
  · rw [e] at ha
    exact absurd ha (by decide)
  · exact e

/-- C7 (asynchronous send resumption), for the chunks the transport took. For every buffer
`buf`, length `len` (a `u32`) and every sequence of transport answers without a hard error
(any window sizes, 0 included, and any `ERR_MEM` results), after `start_sending` and any
number `n` of later `send_callback` invocations: the concatenation of the chunks that
`tcp_write` accepted is exactly the first `tcp_tx_sent_len` bytes of the buffer;
`tcp_tx_sent_len` does not exceed `len` and is not lower after `k` further invocations; and
when the active flag is clear the concatenation is the whole buffer. -/
theorem async_send_resumption (c : Config) (hchunk : 0 < c.TCP_TX_CHUNK) (mem : Nat → u8)
    (net : Nat → NetResp) (hnet : no_hard_error net) (i : Nat) (s : EchoState)
    (hpcb : s.client_pcb ≠ 0) (hidle : s.tcp_tx_active = 0) (buf len : Nat) (hlen : len < U32)
    (n k : Nat) :
    ∃ r r1, send_run c mem net i s buf len n = some r ∧
      send_run c mem net i s buf len (n + k) = some r1 ∧
      queued r.log = mem_read mem buf r.g.tcp_tx_sent_len ∧
      r.g.tcp_tx_sent_len ≤ len ∧ r.g.tcp_tx_sent_len ≤ r1.g.tcp_tx_sent_len ∧
      (r.g.tcp_tx_active = 0 → queued r.log = mem_read mem buf len) := by
  obtain ⟨r0, hr0, _, _, h0⟩ := start_sending_post c hchunk mem net i s buf len hpcb hidle hlen
  obtain ⟨_, hinv0⟩ := h0 hnet
  obtain ⟨r, hr, hinv, _, _⟩ :=
    send_resume_post c hchunk mem net hnet s.client_pcb buf len hlen n r0 hinv0
  obtain ⟨r1, hr1, _, hmono, _⟩ :=
    send_resume_post c hchunk mem net hnet s.client_pcb buf len hlen k r hinv
  refine ⟨r, r1, by simp only [send_run, hr0]; exact hr, ?_, hinv.hqueued, hinv.hsent, hmono, ?_⟩
  · simp only [send_run, hr0]
    rw [send_resume_add, hr]
    exact hr1
  · intro ha
    rw [hinv.hqueued, hinv.hdone ha]

/-- Witness for C7: the window sequence `0, 0, 50, 0, rest` of the specification, a buffer of
120 bytes at address 1000, three window-available signals and two more. -/
theorem async_send_resumption_witness :
    0 < echo_config.TCP_TX_CHUNK ∧
    no_hard_error (fun j => { sndbuf := [0, 0, 50, 0].getD j 1460, write_err := ERR_OK }) ∧
    ({ EchoState.init echo_config with client_pcb := 5 } : EchoState).client_pcb ≠ 0 ∧
    ({ EchoState.init echo_config with client_pcb := 5 } : EchoState).tcp_tx_active = 0 ∧
    120 < U32 ∧
    ∃ r r1,
      send_run echo_config (fun a => Fin.ofNat a)
          (fun j => { sndbuf := [0, 0, 50, 0].getD j 1460, write_err := ERR_OK }) 0
          { EchoState.init echo_config with client_pcb := 5 } 1000 120 3 = some r ∧
      send_run echo_config (fun a => Fin.ofNat a)
          (fun j => { sndbuf := [0, 0, 50, 0].getD j 1460, write_err := ERR_OK }) 0
          { EchoState.init echo_config with client_pcb := 5 } 1000 120 (3 + 2) = some r1 ∧
      queued r.log = mem_read (fun a => Fin.ofNat a) 1000 r.g.tcp_tx_sent_len ∧
      r.g.tcp_tx_sent_len ≤ 120 ∧ r.g.tcp_tx_sent_len ≤ r1.g.tcp_tx_sent_len ∧
      (r.g.tcp_tx_active = 0 → queued r.log = mem_read (fun a => Fin.ofNat a) 1000 120) :=
  ⟨by decide, fun _ => Or.inl rfl, by decide, by decide, by decide,
    async_send_resumption echo_config (by decide) _ _ (fun _ => Or.inl rfl) 0 _ (by decide)
      (by decide) 1000 120 (by decide) 3 2⟩

/-- Counterexample to C7 as worded (all chunks handed to `tcp_write`): a buffer of two bytes
`7, 7`, a window of 5 and a transport that answers `ERR_MEM` (no hard error). `start_sending`
hands the chunk `7, 7` to `tcp_write`, and so does the next `send_callback`; the chunks handed
over are `7, 7, 7, 7` while `tcp_tx_sent_len` is still 0, so their concatenation is not the
first `tcp_tx_sent_len` bytes of the buffer. -/
theorem handed_chunks_not_sent_bytes :
    no_hard_error (fun _ => { sndbuf := 5, write_err := ERR_MEM }) ∧
    (send_run echo_config (fun _ => 7) (fun _ => { sndbuf := 5, write_err := ERR_MEM }) 0
        { EchoState.init echo_config with client_pcb := 5 } 1000 2 1).map
      (fun r => (handed r.log, queued r.log, r.g.tcp_tx_sent_len, r.g.tcp_tx_active))
      = some ([7, 7, 7, 7], [], 0, 1) ∧
    ([7, 7, 7, 7] : List u8) ≠ mem_read (fun _ => 7) 1000 0 :=
  ⟨fun _ => Or.inr rfl, by decide, by decide⟩

/-- C8 (`start_sending` refuses). If `client_pcb` is `NULL` or a send is active,
`start_sending` returns the failure code -1 (not zero), makes no external call, so hands no
byte to the transport, and leaves every global, the pending-send state included,
unchanged. -/
theorem start_sending_refuses (c : Config) (mem : Nat → u8) (net : Nat → NetResp) (i : Nat)
    (s : EchoState) (buf len : Nat) (h : s.client_pcb = 0 ∨ s.tcp_tx_active ≠ 0) :
    start_sending c mem net i s buf len = some { g := s, ret := -1, log := [], next := i } ∧
      (-1 : Int) ≠ 0 ∧ handed ([] : List Ev) = [] := by
  unfold start_sending
  rw [if_pos h]
  exact ⟨rfl, by decide, rfl⟩

/-- Witness for C8: a connection with a send already active. -/
theorem start_sending_refuses_witness :
    (({ EchoState.init echo_config with client_pcb := 5, tcp_tx_active := 1 } :
        EchoState).client_pcb = 0 ∨
      ({ EchoState.init echo_config with client_pcb := 5, tcp_tx_active := 1 } :
        EchoState).tcp_tx_active ≠ 0) ∧
    (start_sending echo_config (fun _ => 7) (fun _ => { sndbuf := 5, write_err := ERR_OK }) 0
        { EchoState.init echo_config with client_pcb := 5, tcp_tx_active := 1 } 1000 2
      = some { g := { EchoState.init echo_config with client_pcb := 5, tcp_tx_active := 1 },
               ret := -1, log := [], next := 0 } ∧
      (-1 : Int) ≠ 0 ∧ handed ([] : List Ev) = []) :=
  ⟨by decide, start_sending_refuses echo_config _ _ 0 _ 1000 2 (by decide)⟩

/-! ## The pipeline step of the main loop -/

theorem dma_wait_total (busy : Nat → Bool) :
    ∀ (fuel : Nat) (timeout : Int) (polls : Nat), 0 ≤ timeout → timeout ≤ 100000000 →
      100000001 - timeout ≤ (fuel : Int) → ∃ r, dma_wait busy fuel timeout polls = some r := by
  intro fuel
  induction fuel with
  | zero => intro timeout polls h0 h1 h2; simp at h2; omega
  | succ fuel ih =>
    intro timeout polls h0 h1 h2
    rw [dma_wait]
    by_cases hb : busy polls = true
    · rw [if_pos hb]
      by_cases ht : timeout + 1 > 100000000
      · rw [if_pos ht]; exact ⟨_, rfl⟩
      · rw [if_neg ht]
        exact ih (timeout + 1) (polls + 1) (by omega) (by omega) (by push_cast at h2; omega)
    · rw [if_neg hb]; exact ⟨_, rfl⟩

theorem process_one_frame_total (dma : Dma) : ∃ pr, process_one_frame dma = some pr := by
  unfold process_one_frame
  split
  · exact ⟨_, rfl⟩
  · obtain ⟨r1, h1⟩ := dma_wait_total dma.busy_s2mm 100000002 0 0 (by omega) (by omega)
      (by norm_num)
    obtain ⟨r2, h2⟩ := dma_wait_total dma.busy_mm2s 100000002 0 0 (by omega) (by omega)
      (by norm_num)
    rw [h1]
    obtain ⟨b1, n1⟩ := r1
    cases b1
    · exact ⟨_, rfl⟩
    · simp only [h2]
      obtain ⟨b2, n2⟩ := r2
      cases b2 <;> exact ⟨_, rfl⟩

/-- The call `start_sending(buf, len)` always returns and never touches the ring. -/
theorem start_sending_total (c : Config) (hchunk : 0 < c.TCP_TX_CHUNK) (mem : Nat → u8)
    (net : Nat → NetResp) (i : Nat) (s : EchoState) (buf len : Nat) (hlen : len < U32) :
    ∃ r, start_sending c mem net i s buf len = some r ∧ ring_eq r.g s := by
  by_cases h : s.client_pcb = 0 ∨ s.tcp_tx_active ≠ 0
  · have hr : start_sending c mem net i s buf len
        = some { g := s, ret := -1, log := [], next := i } := by
      unfold start_sending
      rw [if_pos h]
    exact ⟨_, hr, ⟨rfl, rfl, rfl, rfl, rfl, rfl⟩⟩
  · have h1 : s.client_pcb ≠ 0 := fun e => h (Or.inl e)
    have h2 : s.tcp_tx_active = 0 := by
      by_contra e
      exact h (Or.inr e)
    obtain ⟨r, hr, hring, _⟩ := start_sending_post c hchunk mem net i s buf len h1 h2 hlen
    exact ⟨r, hr, hring⟩

theorem inv_of_ring_eq {c : Config} {s s1 : EchoState} {acc : List u8} {k m : Nat}
    (h : Inv c s acc k m) (hr : ring_eq s1 s) : Inv c s1 acc k m :=
  ⟨abs_of_ring_eq h.1 hr.1 hr.2.1 hr.2.2.1 hr.2.2.2.1 hr.2.2.2.2.1 hr.2.2.2.2.2,
    by rw [hr.2.2.2.2.2]; exact h.2⟩

theorem pop_ring_congr (c : Config) (a b a1 b1 : EchoState) (v w : Int) (h : ring_eq a b)
    (ha : tcp_rx_pop_frame c a = some (a1, v)) (hb : tcp_rx_pop_frame c b = some (b1, w)) :
    ring_eq a1 b1 ∧ v = w := by
  obtain ⟨h1, h2, h3, h4, h5, h6⟩ := h
  unfold tcp_rx_pop_frame rx_empty rx_ready_at at ha hb
  rw [h2, h4, h5] at ha
  split at ha
  · rename_i he
    rw [if_pos he] at hb
    simp only [Option.some.injEq, Prod.mk.injEq] at ha hb
    obtain ⟨rfl, rfl⟩ := ha
    obtain ⟨rfl, rfl⟩ := hb
    exact ⟨⟨h1, h2, h3, h4, h5, h6⟩, rfl⟩
  · rename_i he
    rw [if_neg he] at hb
    split at ha
    · simp at ha
    · rename_i f hf
      rw [hf] at hb
      simp only at hb
      split at ha
      · rename_i hz
        rw [if_pos hz] at hb
        simp only [Option.some.injEq, Prod.mk.injEq] at ha hb
        obtain ⟨rfl, rfl⟩ := ha
        obtain ⟨rfl, rfl⟩ := hb
        exact ⟨⟨h1, h2, h3, h4, h5, h6⟩, rfl⟩
      · rename_i hz
        rw [if_neg hz] at hb
        simp only [Option.some.injEq, Prod.mk.injEq] at ha hb
        obtain ⟨rfl, rfl⟩ := ha
        obtain ⟨rfl, rfl⟩ := hb
        exact ⟨⟨h1, by simp only [h2, h4], h3, by simp only [h4], by simp only [h5], h6⟩, rfl⟩

theorem out_frame_bytes_u32 : OUT_FRAME_BYTES < U32 := by decide

/-- The five ways through the block `if (!tcp_tx_is_busy()) { ... }`. -/
theorem main_step_post (c : Config) (hc : c.ok) (hchunk : 0 < c.TCP_TX_CHUNK)
    (out_buf0 out_buf1 : Nat) (mem : Nat → u8) (net : Nat → NetResp) (i : Nat) (dma : Dma)
    (ms : MainState) (acc : List u8) (k m : Nat) (h : Inv c ms.g acc k m) :
    ∃ r, main_step c out_buf0 out_buf1 mem net i dma ms = some r ∧
      ((tcp_tx_is_busy ms.g = true ∧ r.st = ms ∧ r.pop_res = none) ∨
       (tcp_tx_is_busy ms.g = false ∧ tcp_rx_peek_frame c ms.g = some none ∧ r.st = ms ∧
          r.pop_res = none) ∨
       (tcp_tx_is_busy ms.g = false ∧ ∃ fr pr,
          tcp_rx_peek_frame c ms.g = some (some fr) ∧ process_one_frame dma = some pr ∧
          ((pr.ret ≠ 0 ∧ r.st = ms ∧ r.pop_res = none) ∨
           (pr.ret = 0 ∧ ∃ tx,
              start_sending c mem net i ms.g ms.cur_out OUT_FRAME_BYTES = some tx ∧
              ring_eq tx.g ms.g ∧
              r.st.cur_out = (if ms.cur_out = out_buf0 then out_buf1 else out_buf0) ∧
              ((tx.ret ≠ 0 ∧ r.st.g = tx.g ∧ r.pop_res = none) ∨
               (tx.ret = 0 ∧ r.pop_res = some 0 ∧
                  ∃ g2, tcp_rx_pop_frame c ms.g = some (g2, 0) ∧ ring_eq r.st.g g2)))))) := by
  by_cases hbusy : tcp_tx_is_busy ms.g = true
  · have hms : main_step c out_buf0 out_buf1 mem net i dma ms
        = some { st := ms, peeked := none, proc := none, tx_res := none, pop_res := none,
                 log := [], next := i } := by
      unfold main_step; rw [if_pos hbusy]
    exact ⟨_, hms, Or.inl ⟨hbusy, rfl, rfl⟩⟩
  · have hb : tcp_tx_is_busy ms.g = false := by simpa using hbusy
    rcases Nat.lt_or_ge k m with hlt | hge
    · obtain ⟨hpk, _, _⟩ := peek_abs_nonempty c hc ms.g acc k m h.1 hlt
      obtain ⟨pr, hpr⟩ := process_one_frame_total dma
      by_cases hret : pr.ret = 0
      · obtain ⟨tx, htx, hring⟩ :=
          start_sending_total c hchunk mem net i ms.g ms.cur_out OUT_FRAME_BYTES
            out_frame_bytes_u32
        by_cases htret : tx.ret = 0
        · have hinv1 := inv_of_ring_eq h hring
          obtain ⟨g1, hpop1, _, _⟩ := pop_abs_nonempty c hc tx.g acc k m hinv1.1 hlt
          obtain ⟨g2, hpop2, _, _⟩ := pop_abs_nonempty c hc ms.g acc k m h.1 hlt
          have hms : main_step c out_buf0 out_buf1 mem net i dma ms
              = some { st := { g := g1,
                               cur_out := if ms.cur_out = out_buf0 then out_buf1
                                 else out_buf0 },
                       peeked := some (some (ms.g.tcp_rx_rd_idx, frame_of c acc k)),
                       proc := some pr, tx_res := some tx.ret, pop_res := some 0,
                       log := tx.log, next := tx.next } := by
            unfold main_step
            rw [if_neg hbusy]
            simp only [hpk, hpr, if_pos hret, htx, if_pos htret, hpop1]
          refine ⟨_, hms, Or.inr (Or.inr ⟨hb, _, pr, hpk, hpr, Or.inr ⟨hret, tx, htx, hring,
            rfl, Or.inr ⟨htret, rfl, g2, hpop2, ?_⟩⟩⟩)⟩
          exact (pop_ring_congr c tx.g ms.g g1 g2 0 0 hring hpop1 hpop2).1
        · have hms : main_step c out_buf0 out_buf1 mem net i dma ms
              = some { st := { g := tx.g,
                               cur_out := if ms.cur_out = out_buf0 then out_buf1
                                 else out_buf0 },
                       peeked := some (some (ms.g.tcp_rx_rd_idx, frame_of c acc k)),
                       proc := some pr, tx_res := some tx.ret, pop_res := none,
                       log := tx.log, next := tx.next } := by
            unfold main_step
            rw [if_neg hbusy]
            simp only [hpk, hpr, if_pos hret, htx, if_neg htret]
          exact ⟨_, hms, Or.inr (Or.inr ⟨hb, _, pr, hpk, hpr, Or.inr ⟨hret, tx, htx, hring,
            rfl, Or.inl ⟨htret, rfl, rfl⟩⟩⟩)⟩
      · have hms : main_step c out_buf0 out_buf1 mem net i dma ms
            = some { st := ms,
                     peeked := some (some (ms.g.tcp_rx_rd_idx, frame_of c acc k)),
                     proc := some pr, tx_res := none, pop_res := none, log := [],
                     next := i } := by
          unfold main_step
          rw [if_neg hbusy]
          simp only [hpk, hpr, if_neg hret]
        exact ⟨_, hms, Or.inr (Or.inr ⟨hb, _, pr, hpk, hpr, Or.inl ⟨hret, rfl, rfl⟩⟩)⟩
    · have hkm : m = k := by have := h.1.hk; omega
      subst hkm
      have hpk := peek_abs_empty c ms.g acc m h.1
      have hms : main_step c out_buf0 out_buf1 mem net i dma ms
          = some { st := ms, peeked := some none, proc := none, tx_res := none,
                   pop_res := none, log := [], next := i } := by
        unfold main_step
        rw [if_neg hbusy]
        simp only [hpk]
      exact ⟨_, hms, Or.inr (Or.inl ⟨hb, hpk, rfl, rfl⟩)⟩

/-- The ring part of a state equal to that of a state reached from the initial state
satisfies the window relation. -/
theorem inv_of_reachable (c : Config) (hc : c.ok) (ops : List Op) (hops : ops_ok c ops)
    (s0 g : EchoState) (hreach : (exec c (EchoState.init c) ops).map Prod.fst = some s0)
    (hring : ring_eq g s0) : ∃ acc k m, Inv c g acc k m := by
  obtain ⟨s1, tr, m, hexec, hinv, _, _, _⟩ :=
    exec_post c hc ops _ [] 0 0 (inv_init c hc) hops
  rw [hexec] at hreach
  simp only [Option.map_some', Option.some.injEq] at hreach
  rw [hreach] at hinv
  exact ⟨_, _, m, inv_of_ring_eq hinv hring⟩

/-- C9 (pop only after the send was started). In one pass over the block guarded by
`tcp_tx_is_busy`, started with a ring that deliveries and pops can produce, the frame at the
read index is popped (and `tcp_rx_pop_frame` returns 0) exactly when the sender was idle,
`tcp_rx_peek_frame` returned a frame, `process_one_frame` returned 0 and `start_sending`
returned 0; the ring is then the one `tcp_rx_pop_frame` produces from the ring before the
step. In every other case no pop is made and the whole ring (count, read index, write index,
ready flags, and also rows and fill offset) is unchanged. -/
theorem pop_after_send_started (c : Config) (hc : c.ok) (hchunk : 0 < c.TCP_TX_CHUNK)
    (out_buf0 out_buf1 : Nat) (mem : Nat → u8) (net : Nat → NetResp) (i : Nat) (dma : Dma)
    (ms : MainState) (ops : List Op) (hops : ops_ok c ops) (s0 : EchoState)
    (hreach : (exec c (EchoState.init c) ops).map Prod.fst = some s0)
    (hring : ring_eq ms.g s0) :
    ∃ r, main_step c out_buf0 out_buf1 mem net i dma ms = some r ∧
      (r.pop_res = some 0 ↔
        (tcp_tx_is_busy ms.g = false ∧
         (∃ fr, tcp_rx_peek_frame c ms.g = some (some fr)) ∧
         (∃ pr, process_one_frame dma = some pr ∧ pr.ret = 0) ∧
         (∃ tx, start_sending c mem net i ms.g ms.cur_out OUT_FRAME_BYTES = some tx ∧
            tx.ret = 0))) ∧
      (r.pop_res = some 0 →
        ∃ g1, tcp_rx_pop_frame c ms.g = some (g1, 0) ∧ ring_eq r.st.g g1) ∧
      (r.pop_res ≠ some 0 → r.pop_res = none ∧ ring_eq r.st.g ms.g) := by
  obtain ⟨acc, k, m, hinv⟩ := inv_of_reachable c hc ops hops s0 ms.g hreach hring
  obtain ⟨r, hr, hcase⟩ :=
    main_step_post c hc hchunk out_buf0 out_buf1 mem net i dma ms acc k m hinv
  have hrefl : ring_eq ms.g ms.g := ⟨rfl, rfl, rfl, rfl, rfl, rfl⟩
  refine ⟨r, hr, ?_⟩
  rcases hcase with ⟨hb, hst, hp⟩ | ⟨hb, hpk, hst, hp⟩ | ⟨hb, fr, pr, hpk, hpr, hrest⟩
  · refine ⟨⟨fun e => ?_, fun e => ?_⟩, fun e => ?_, fun _ => ⟨hp, by rw [hst]; exact hrefl⟩⟩
    · rw [hp] at e; simp at e
    · rw [hb] at e; simp at e
    · rw [hp] at e; simp at e
  · refine ⟨⟨fun e => ?_, fun e => ?_⟩, fun e => ?_, fun _ => ⟨hp, by rw [hst]; exact hrefl⟩⟩
    · rw [hp] at e; simp at e
    · obtain ⟨_, ⟨fr, hfr⟩, _⟩ := e
      rw [hpk] at hfr; simp at hfr
    · rw [hp] at e; simp at e
  · rcases hrest with ⟨hret, hst, hp⟩ | ⟨hret, tx, htx, hring1, _, hrest⟩
    · refine ⟨⟨fun e => ?_, fun e => ?_⟩, fun e => ?_,
        fun _ => ⟨hp, by rw [hst]; exact hrefl⟩⟩
      · rw [hp] at e; simp at e
      · obtain ⟨_, _, ⟨pr1, hpr1, hz⟩, _⟩ := e
        rw [hpr] at hpr1
        simp only [Option.some.injEq] at hpr1
        rw [hpr1] at hret
        exact absurd hz hret
      · rw [hp] at e; simp at e
    · rcases hrest with ⟨htret, hst, hp⟩ | ⟨htret, hp, g2, hpop, hring2⟩
      · refine ⟨⟨fun e => ?_, fun e => ?_⟩, fun e => ?_,
          fun _ => ⟨hp, by rw [hst]; exact hring1⟩⟩
        · rw [hp] at e; simp at e
        · obtain ⟨_, _, _, ⟨tx1, htx1, hz⟩⟩ := e
          rw [htx] at htx1
          simp only [Option.some.injEq] at htx1
          rw [htx1] at htret
          exact absurd hz htret
        · rw [hp] at e; simp at e
      · exact ⟨⟨fun _ => ⟨hb, ⟨fr, hpk⟩, ⟨pr, hpr, hret⟩, ⟨tx, htx, htret⟩⟩, fun _ => hp⟩,
          fun _ => ⟨g2, hpop, hring2⟩, fun e => absurd hp e⟩

/-- C10 as the code has it (the selector follows the transform, not the send). In one pass
over the block guarded by `tcp_tx_is_busy`, `cur_out` is switched to the other output buffer
exactly when the sender was idle, `tcp_rx_peek_frame` returned a frame and
`process_one_frame` returned 0, whatever `start_sending` returned afterwards; in every other
pass `cur_out` is unchanged. -/
theorem selector_follows_transform (c : Config) (hc : c.ok) (hchunk : 0 < c.TCP_TX_CHUNK)
    (out_buf0 out_buf1 : Nat) (mem : Nat → u8) (net : Nat → NetResp) (i : Nat) (dma : Dma)
    (ms : MainState) (ops : List Op) (hops : ops_ok c ops) (s0 : EchoState)
    (hreach : (exec c (EchoState.init c) ops).map Prod.fst = some s0)
    (hring : ring_eq ms.g s0) :
    ∃ r, main_step c out_buf0 out_buf1 mem net i dma ms = some r ∧
      ((tcp_tx_is_busy ms.g = false ∧
         (∃ fr, tcp_rx_peek_frame c ms.g = some (some fr)) ∧
         (∃ pr, process_one_frame dma = some pr ∧ pr.ret = 0)) →
        r.st.cur_out = (if ms.cur_out = out_buf0 then out_buf1 else out_buf0)) ∧
      (¬ (tcp_tx_is_busy ms.g = false ∧
         (∃ fr, tcp_rx_peek_frame c ms.g = some (some fr)) ∧
         (∃ pr, process_one_frame dma = some pr ∧ pr.ret = 0)) →
        r.st.cur_out = ms.cur_out) := by
  obtain ⟨acc, k, m, hinv⟩ := inv_of_reachable c hc ops hops s0 ms.g hreach hring
  obtain ⟨r, hr, hcase⟩ :=
    main_step_post c hc hchunk out_buf0 out_buf1 mem net i dma ms acc k m hinv
  refine ⟨r, hr, ?_⟩
  rcases hcase with ⟨hb, hst, _⟩ | ⟨hb, hpk, hst, _⟩ | ⟨hb, fr, pr, hpk, hpr, hrest⟩
  · refine ⟨fun e => ?_, fun _ => by rw [hst]⟩
    rw [hb] at e; simp at e
  · refine ⟨fun e => ?_, fun _ => by rw [hst]⟩
    obtain ⟨_, ⟨fr, hfr⟩, _⟩ := e
    rw [hpk] at hfr; simp at hfr
  · rcases hrest with ⟨hret, hst, _⟩ | ⟨hret, tx, _, _, hflip, _⟩
    · refine ⟨fun e => ?_, fun _ => by rw [hst]⟩
      obtain ⟨_, _, ⟨pr1, hpr1, hz⟩⟩ := e
      rw [hpr] at hpr1
      simp only [Option.some.injEq] at hpr1
      rw [hpr1] at hret
      exact absurd hz hret
    · exact ⟨fun _ => hflip, fun e => absurd ⟨hb, ⟨fr, hpk⟩, ⟨pr, hpr, hret⟩⟩ e⟩

/-- Witness for C9: one Ready frame, a connection, an idle sender and an idle DMA engine. -/
theorem pop_after_send_started_witness :
    scenario_config.ok ∧ 0 < scenario_config.TCP_TX_CHUNK ∧
    ops_ok scenario_config [Op.recv 1 [[1, 2, 3, 4]]] ∧
    (exec scenario_config (EchoState.init scenario_config) [Op.recv 1 [[1, 2, 3, 4]]]).map
      Prod.fst = some scenario_one_frame ∧
    ring_eq ({ scenario_one_frame with client_pcb := 5 } : EchoState) scenario_one_frame ∧
    ∃ r, main_step scenario_config 1000 2000 (fun _ => 0)
          (fun _ => { sndbuf := 5, write_err := ERR_OK }) 0 idle_dma
          { g := { scenario_one_frame with client_pcb := 5 }, cur_out := 1000 } = some r ∧
      (r.pop_res = some 0 ↔
        (tcp_tx_is_busy ({ scenario_one_frame with client_pcb := 5 } : EchoState) = false ∧
         (∃ fr, tcp_rx_peek_frame scenario_config
            ({ scenario_one_frame with client_pcb := 5 } : EchoState) = some (some fr)) ∧
         (∃ pr, process_one_frame idle_dma = some pr ∧ pr.ret = 0) ∧
         (∃ tx, start_sending scenario_config (fun _ => 0)
            (fun _ => { sndbuf := 5, write_err := ERR_OK }) 0
            { scenario_one_frame with client_pcb := 5 } 1000 OUT_FRAME_BYTES = some tx ∧
            tx.ret = 0))) ∧
      (r.pop_res = some 0 →
        ∃ g1, tcp_rx_pop_frame scenario_config
            ({ scenario_one_frame with client_pcb := 5 } : EchoState) = some (g1, 0) ∧
          ring_eq r.st.g g1) ∧
      (r.pop_res ≠ some 0 → r.pop_res = none ∧
        ring_eq r.st.g ({ scenario_one_frame with client_pcb := 5 } : EchoState)) :=
  ⟨by decide, by decide, by decide, by decide, by decide,
    pop_after_send_started scenario_config (by decide) (by decide) 1000 2000 _ _ 0 idle_dma
      { g := { scenario_one_frame with client_pcb := 5 }, cur_out := 1000 }
      [Op.recv 1 [[1, 2, 3, 4]]] (by decide) scenario_one_frame (by decide) (by decide)⟩

/-- Counterexample to C10 as worded: one Ready frame and no connection (`client_pcb` is
`NULL`, as after a peer close). `process_one_frame` returns 0, `start_sending` returns -1, no
pop is made, and `cur_out` has moved from the first output buffer (address 1000) to the second
(address 2000). -/
theorem selector_flips_on_failed_send :
    (main_step scenario_config 1000 2000 (fun _ => 0)
        (fun _ => { sndbuf := 5, write_err := ERR_OK }) 0 idle_dma
        { g := scenario_one_frame, cur_out := 1000 }).map
      (fun r => (r.proc.map ProcRet.ret, r.tx_res, r.pop_res, r.st.cur_out))
      = some (some 0, some (-1), none, 2000) := by
  decide

/-- Witness for C10 as the code has it: the same step as in the counterexample. -/
theorem selector_follows_transform_witness :
    scenario_config.ok ∧ 0 < scenario_config.TCP_TX_CHUNK ∧
    ops_ok scenario_config [Op.recv 1 [[1, 2, 3, 4]]] ∧
    (exec scenario_config (EchoState.init scenario_config) [Op.recv 1 [[1, 2, 3, 4]]]).map
      Prod.fst = some scenario_one_frame ∧
    ring_eq scenario_one_frame scenario_one_frame ∧
    ∃ r, main_step scenario_config 1000 2000 (fun _ => 0)
          (fun _ => { sndbuf := 5, write_err := ERR_OK }) 0 idle_dma
          { g := scenario_one_frame, cur_out := 1000 } = some r ∧
      ((tcp_tx_is_busy scenario_one_frame = false ∧
         (∃ fr, tcp_rx_peek_frame scenario_config scenario_one_frame = some (some fr)) ∧
         (∃ pr, process_one_frame idle_dma = some pr ∧ pr.ret = 0)) →
        r.st.cur_out = (if (1000 : Nat) = 1000 then 2000 else 1000)) ∧
      (¬ (tcp_tx_is_busy scenario_one_frame = false ∧
         (∃ fr, tcp_rx_peek_frame scenario_config scenario_one_frame = some (some fr)) ∧
         (∃ pr, process_one_frame idle_dma = some pr ∧ pr.ret = 0)) →
        r.st.cur_out = 1000) :=
  ⟨by decide, by decide, by decide, by decide, by decide,
    selector_follows_transform scenario_config (by decide) (by decide) 1000 2000 _ _ 0
      idle_dma { g := scenario_one_frame, cur_out := 1000 } [Op.recv 1 [[1, 2, 3, 4]]]
      (by decide) scenario_one_frame (by decide) (by decide)⟩

/-! ## The receive loop with an invariant on its locals -/

theorem abs_count_lt {c : Config} {s : EchoState} {acc : List u8} {k m : Nat}
    (h : Abs c s acc k m) (hnf : m < k + c.NUM_BUFFERS) :
    s.tcp_rx_count < (c.NUM_BUFFERS : Int) := by
  have := h.hk
  rw [h.hcount]; omega

/-- The end of a loop iteration keeps every property `I` of the locals that closing a slot
keeps. -/
theorem rx_iter_end_inv (c : Config) (hc : c.ok) (tpcb k : Nat) (next : List (List u8))
    (loop : Rx → Option RecvRet) (r1 : Rx) (acc1 : List u8) (m : Nat) (I : Rx → Prop)
    (hIclose : ∀ r r2 : Rx, I r → rx_close c r = some r2 →
      r.g.tcp_rx_count < (c.NUM_BUFFERS : Int) → I r2)
    (h : Abs c r1.g acc1 k m) (hnf : m < k + c.NUM_BUFFERS)
    (hlog : ∀ e ∈ r1.log, copy_ok c e) (hack : acked r1.log = 0) (hI : I r1)
    (hloop : ∀ (r2 : Rx) (m2 : Nat), Abs c r2.g acc1 k m2 →
      r2.g.tcp_rx_offset < c.IN_FRAME_BYTES → (next ≠ [] → m2 < k + c.NUM_BUFFERS) →
      r2.g.tcp_rx_offset = r1.g.tcp_rx_offset % c.IN_FRAME_BYTES →
      r2.copied = r1.copied → (∀ e ∈ r2.log, copy_ok c e) → acked r2.log = 0 → I r2 →
      ∃ ret m1, loop r2 = some ret ∧ Post c k acc1 r1.copied (chain_bytes next) ret m1 ∧
        ∃ rfin, I rfin ∧ rx_exit tpcb rfin ret) :
    ∃ ret m1, rx_iter_end c tpcb next loop r1 = some ret ∧
      Post c k acc1 r1.copied (chain_bytes next) ret m1 ∧
      ∃ rfin, I rfin ∧ rx_exit tpcb rfin ret := by
  unfold rx_iter_end
  by_cases hF : r1.g.tcp_rx_offset = c.IN_FRAME_BYTES
  · obtain ⟨r2, heq, habs2, hoff2, hcp2, hlog2⟩ := rx_close_abs c hc r1 acc1 k m h hnf hF
    have hl2 : ∀ e ∈ r2.log, copy_ok c e := by
      rw [hlog2]; exact copy_ok_snoc c _ _ hlog trivial
    have ha2 : acked r2.log = 0 := by
      rw [hlog2, acked_append, hack]; rfl
    have hI2 : I r2 := hIclose r1 r2 hI heq (abs_count_lt h hnf)
    rw [if_pos hF, heq]
    by_cases hfull : rx_full c r2.g = true ∧ next ≠ []
    · simp only [if_pos hfull]
      have hm : m + 1 = k + c.NUM_BUFFERS := by
        have := hfull.1
        rw [rx_full_abs habs2] at this
        simpa using this
      refine ⟨_, m + 1, rfl, ?_, r2, hI2, Or.inl rfl⟩
      rw [← hcp2]
      exact stall_post c hc tpcb k r2 acc1 _ (m + 1) habs2 hm hl2 ha2
    · simp only [if_neg hfull]
      apply hloop r2 (m + 1) habs2 (by rw [hoff2]; exact hc.2.2.1) _
        (by rw [hoff2, hF, Nat.mod_self]) hcp2 hl2 ha2 hI2
      intro hne
      have hnfull : ¬ rx_full c r2.g = true := fun e => hfull ⟨e, hne⟩
      rw [rx_full_abs habs2] at hnfull
      have : m + 1 ≠ k + c.NUM_BUFFERS := by simpa using hnfull
      omega
  · rw [if_neg hF]
    have hlt := lt_of_le_of_ne h.hoff hF
    exact hloop r1 m h hlt (fun _ => hnf) (Nat.mod_eq_of_lt hlt).symm rfl hlog hack hI

/-- The receive loop keeps every property `I` of its locals that a copy into a ring that is
not full and the closing of a slot keep; it returns through one of its two kinds of exit with
locals that satisfy `I`. -/
theorem recv_loop_inv (c : Config) (hc : c.ok) (tpcb k : Nat) (I : Rx → Prop)
    (hIcopy : ∀ (r r2 : Rx) (src : List u8), I r → rx_copy c r src = some r2 →
      r.g.tcp_rx_count < (c.NUM_BUFFERS : Int) → r.copied + src.length < U32 → I r2)
    (hIclose : ∀ r r2 : Rx, I r → rx_close c r = some r2 →
      r.g.tcp_rx_count < (c.NUM_BUFFERS : Int) → I r2) :
    ∀ (q : List (List u8)) (r : Rx) (acc : List u8) (m : Nat),
      Abs c r.g acc k m → r.g.tcp_rx_offset < c.IN_FRAME_BYTES →
      (q ≠ [] → m < k + c.NUM_BUFFERS) →
      fits c r.g.tcp_rx_offset q = true →
      r.copied + (chain_bytes q).length < U32 →
      (∀ e ∈ r.log, copy_ok c e) → acked r.log = 0 → I r →
      ∃ ret m1, recv_loop c tpcb q r = some ret ∧
        Post c k acc r.copied (chain_bytes q) ret m1 ∧
        ∃ rfin, I rfin ∧ rx_exit tpcb rfin ret := by
  intro q
  induction q with
  | nil =>
    intro r acc m h hoff _ _ _ hlog hack hI
    refine ⟨_, m, rfl, ?_, r, hI, Or.inr rfl⟩
    have ht : taken c k acc (chain_bytes []) = 0 := by simp [taken, chain_bytes]
    refine ⟨?_, hoff, ?_, Or.inl rfl, ?_, fun _ => rfl, ?_, ?_⟩
    · rw [ht]; simpa using h
    · rw [ht]; rfl
    · intro _; simp [chain_bytes]
    · exact copy_ok_snoc c _ _ (rx_ack_copy_ok c tpcb r hlog) trivial
    · show acked (rx_ack tpcb r ++ [Ev.pbuf_free]) = r.copied % 65536
      rw [acked_append, rx_ack_acked tpcb r hack]; rfl
  | cons src next ih =>
    intro r acc m h hoff hnf hfit hcp hlog hack hI
    have hnf : m < k + c.NUM_BUFFERS := hnf (List.cons_ne_nil _ _)
    have hF : c.IN_FRAME_BYTES < U32 := by have := hc.2.2.2; unfold U32; omega
    have hrem : u32_sub c.IN_FRAME_BYTES r.g.tcp_rx_offset
        = c.IN_FRAME_BYTES - r.g.tcp_rx_offset := u32_sub_of_le (by omega) hF
    rw [fits] at hfit
    rw [chain_bytes_cons] at hcp ⊢
    rw [List.length_append] at hcp
    have hcap1 := cap_ge h 1 (by omega)
    rw [recv_loop]
    simp only [hrem]
    by_cases hle : src.length ≤ c.IN_FRAME_BYTES - r.g.tcp_rx_offset
    · rw [if_pos hle]
      rw [if_pos hle] at hfit
      obtain ⟨r1, heq, habs1, hoff1, hcp1, hlog1⟩ :=
        rx_copy_abs c hc r acc k m src h hnf (by omega) (by omega)
      have hl1 : ∀ e ∈ r1.log, copy_ok c e := by
        rw [hlog1]
        refine copy_ok_snoc c _ _ hlog ⟨rfl, ?_, ?_, by omega⟩
        · rw [h.hwr]; omega
        · rw [h.hwr]; have := Nat.mod_lt m hc.1; omega
      have ha1 : acked r1.log = 0 := by rw [hlog1, acked_append, hack]; rfl
      have hI1 : I r1 := hIcopy r r1 src hI heq (abs_count_lt h hnf) (by omega)
      rw [heq]
      have key := rx_iter_end_inv c hc tpcb k next (recv_loop c tpcb next) r1 (acc ++ src) m I
        hIclose habs1 hnf hl1 ha1 hI1
        (fun r2 m2 h2 ho2 hn2 he2 hc2 hl2 hk2 hI2 => by
          have := ih r2 (acc ++ src) m2 h2 ho2 hn2 (by rw [he2, hoff1]; exact hfit)
            (by rw [hc2, hcp1]; omega) hl2 hk2 hI2
          rw [hc2] at this
          exact this)
      obtain ⟨ret, m1, hret, hpost, hfin⟩ := key
      refine ⟨ret, m1, hret, post_cons c k acc src _ r.copied ret m1 (by omega) ?_, hfin⟩
      rw [← hcp1]; exact hpost
    · rw [if_neg hle]
      rw [if_neg hle, Bool.and_eq_true, decide_eq_true_eq] at hfit
      obtain ⟨hsl, hfit⟩ := hfit
      have hpos : 0 < c.IN_FRAME_BYTES - r.g.tcp_rx_offset := by omega
      simp only [if_pos hpos]
      have htl : (src.take (c.IN_FRAME_BYTES - r.g.tcp_rx_offset)).length
          = c.IN_FRAME_BYTES - r.g.tcp_rx_offset := by
        rw [List.length_take]; omega
      obtain ⟨r1, heq1, habs1, hoff1, hcp1, hlog1⟩ :=
        rx_copy_abs c hc r acc k m (src.take (c.IN_FRAME_BYTES - r.g.tcp_rx_offset)) h hnf
          (by omega) (by omega)
      have hI1 : I r1 := hIcopy r r1 _ hI heq1 (abs_count_lt h hnf) (by omega)
      rw [htl] at hoff1 hcp1 hlog1
      have hfill1 : r1.g.tcp_rx_offset = c.IN_FRAME_BYTES := by omega
      have hl1 : ∀ e ∈ r1.log, copy_ok c e := by
        rw [hlog1]
        refine copy_ok_snoc c _ _ hlog ⟨rfl, ?_, ?_, by omega⟩
        · rw [h.hwr]; omega
        · rw [h.hwr]; have := Nat.mod_lt m hc.1; omega
      have ha1 : acked r1.log = 0 := by rw [hlog1, acked_append, hack]; rfl
      obtain ⟨r2, heq2, habs2, hoff2, hcp2, hlog2⟩ :=
        rx_close_abs c hc r1 _ k m habs1 hnf hfill1
      have hI2 : I r2 := hIclose r1 r2 hI1 heq2 (abs_count_lt habs1 hnf)
      have hl2 : ∀ e ∈ r2.log, copy_ok c e := by
        rw [hlog2]; exact copy_ok_snoc c _ _ hl1 trivial
      have ha2 : acked r2.log = 0 := by rw [hlog2, acked_append, ha1]; rfl
      rw [heq1]
      simp only [if_pos hfill1, heq2]
      by_cases hfull : rx_full c r2.g = true
      · rw [if_pos hfull]
        have hm : m + 1 = k + c.NUM_BUFFERS := by
          rw [rx_full_abs habs2] at hfull
          simpa using hfull
        refine ⟨_, m + 1, rfl, ?_, r2, hI2, Or.inl rfl⟩
        have hcap2 := cap_eq habs2 hm
        rw [List.length_append, htl] at hcap2
        have ht : taken c k acc (src ++ chain_bytes next)
            = c.IN_FRAME_BYTES - r.g.tcp_rx_offset := by
          unfold taken; rw [List.length_append]; omega
        have hst := stall_post c hc tpcb k r2 _ ([] : List u8) (m + 1) habs2 hm hl2 ha2
        refine ⟨?_, hst.hoff, ?_, hst.herr, ?_, ?_, hst.hlog, hst.hack⟩
        · rw [ht, List.take_append_of_le_length (by omega)]
          exact habs2
        · rw [ht]; show r2.copied = _; omega
        · intro e; simp [rx_stall, ERR_MEM, ERR_OK] at e
        · intro e; rw [List.length_append] at e; omega
      · rw [if_neg hfull]
        have hm : m + 1 < k + c.NUM_BUFFERS := by
          rw [rx_full_abs habs2] at hfull
          have : m + 1 ≠ k + c.NUM_BUFFERS := by simpa using hfull
          omega
        have hdl : (src.drop (c.IN_FRAME_BYTES - r.g.tcp_rx_offset)).length
            = src.length - (c.IN_FRAME_BYTES - r.g.tcp_rx_offset) := List.length_drop _ _
        obtain ⟨r3, heq3, habs3, hoff3, hcp3, hlog3⟩ :=
          rx_copy_abs c hc r2 _ k (m + 1) (src.drop (c.IN_FRAME_BYTES - r.g.tcp_rx_offset))
            habs2 hm (by omega) (by omega)
        have hI3 : I r3 := hIcopy r2 r3 _ hI2 heq3 (abs_count_lt habs2 hm) (by omega)
        rw [List.append_assoc, List.take_append_drop] at habs3
        rw [hdl] at hoff3 hcp3 hlog3
        have hl3 : ∀ e ∈ r3.log, copy_ok c e := by
          rw [hlog3]
          refine copy_ok_snoc c _ _ hl2 ⟨rfl, ?_, ?_, by omega⟩
          · rw [habs2.hwr]; omega
          · rw [habs2.hwr]; have := Nat.mod_lt (m + 1) hc.1; omega
        have ha3 : acked r3.log = 0 := by rw [hlog3, acked_append, ha2]; rfl
        rw [heq3]
        have hcap2 := cap_ge h 2 (by omega)
        have key := rx_iter_end_inv c hc tpcb k next (recv_loop c tpcb next) r3 (acc ++ src)
          (m + 1) I hIclose habs3 hm hl3 ha3 hI3
          (fun r4 m4 h4 ho4 hn4 he4 hc4 hl4 hk4 hI4 => by
            have := ih r4 (acc ++ src) m4 h4 ho4 hn4
              (by rw [he4, hoff3, hoff2, Nat.zero_add]; exact hfit)
              (by rw [hc4, hcp3]; omega) hl4 hk4 hI4
            rw [hc4] at this
            exact this)
        obtain ⟨ret, m1, hret, hpost, hfin⟩ := key
        refine ⟨ret, m1, hret, post_cons c k acc src _ r.copied ret m1 (by omega) ?_, hfin⟩
        have : r3.copied = r.copied + src.length := by omega
        rw [← this]; exact hpost

/-- A delivery of a non-NULL chunk keeps every property `I` of the locals of the loop: it
either returns at once because the ring is full, or leaves through an exit of the loop with
locals that satisfy `I`. -/
theorem recv_callback_inv (c : Config) (hc : c.ok) (tpcb k : Nat) (I : Rx → Prop)
    (hIcopy : ∀ (r r2 : Rx) (src : List u8), I r → rx_copy c r src = some r2 →
      r.g.tcp_rx_count < (c.NUM_BUFFERS : Int) → r.copied + src.length < U32 → I r2)
    (hIclose : ∀ r r2 : Rx, I r → rx_close c r = some r2 →
      r.g.tcp_rx_count < (c.NUM_BUFFERS : Int) → I r2)
    (s : EchoState) (acc : List u8) (m : Nat) (p : List (List u8)) (h : Inv c s acc k m)
    (hp : p ≠ []) (hfit : fits c s.tcp_rx_offset p = true)
    (htot : (chain_bytes p).length ≤ 65535) (hI : I { g := s, copied := 0, log := [] }) :
    ∃ ret m1, recv_callback c s tpcb p = some ret ∧ Post c k acc 0 (chain_bytes p) ret m1 ∧
      ((s.tcp_rx_count = (c.NUM_BUFFERS : Int) ∧
          ret = { g := s, err := ERR_MEM, log := [], copied := 0 }) ∨
       (s.tcp_rx_count < (c.NUM_BUFFERS : Int) ∧ ∃ rfin, I rfin ∧ rx_exit tpcb rfin ret)) := by
  obtain ⟨ret0, m0, heq0, hpost0⟩ := recv_callback_post c hc tpcb k s acc m p h hp hfit htot
  unfold recv_callback at heq0 ⊢
  rw [if_neg hp] at heq0 ⊢
  by_cases hfull : rx_full c s = true ∧ s.tcp_rx_offset = 0
  · rw [if_pos hfull] at heq0 ⊢
    simp only [Option.some.injEq] at heq0
    refine ⟨_, m0, rfl, by rw [heq0]; exact hpost0, Or.inl ⟨?_, rfl⟩⟩
    have := hfull.1
    unfold rx_full at this
    simpa using this
  · rw [if_neg hfull]
    have hnf : m < k + c.NUM_BUFFERS := by
      have hm := h.1.hm
      by_contra hge
      have hm1 : m = k + c.NUM_BUFFERS := by omega
      apply hfull
      refine ⟨?_, h.1.hfull hm1⟩
      rw [rx_full_abs h.1]; simpa using hm1
    obtain ⟨ret, m1, hret, hpost, hfin⟩ :=
      recv_loop_inv c hc tpcb k I hIcopy hIclose p { g := s, copied := 0, log := [] } acc m
        h.1 h.2 (fun _ => hnf) hfit
        (by show 0 + (chain_bytes p).length < U32; unfold U32; omega)
        (by intro e he; simp at he) rfl hI
    exact ⟨ret, m1, hret, hpost, Or.inr ⟨abs_count_lt h.1 hnf, hfin⟩⟩

/-! ## Connection set-up and teardown -/

theorem ring_eq_refl (s : EchoState) : ring_eq s s := ⟨rfl, rfl, rfl, rfl, rfl, rfl⟩

theorem tx_eq_refl (s : EchoState) : tx_eq s s := ⟨rfl, rfl, rfl, rfl⟩

theorem recv_callback_null_eq (c : Config) (s : EchoState) (tpcb : Nat) :
    recv_callback c s tpcb [] = some
      (if s.tcp_tx_active = 0 then
        { g := { s with client_pcb := 0 }, err := ERR_OK, log := [Ev.tcp_close tpcb],
          copied := 0 }
       else { g := s, err := ERR_OK, log := [], copied := 0 }) := by
  unfold recv_callback
  by_cases ha : s.tcp_tx_active = 0
  · simp only [if_true, if_pos ha]
  · simp only [if_true, if_neg ha]

theorem ring_eq_trans {a b d : EchoState} (h1 : ring_eq a b) (h2 : ring_eq b d) :
    ring_eq a d :=
  ⟨h1.1.trans h2.1, h1.2.1.trans h2.2.1, h1.2.2.1.trans h2.2.2.1,
    h1.2.2.2.1.trans h2.2.2.2.1, h1.2.2.2.2.1.trans h2.2.2.2.2.1,
    h1.2.2.2.2.2.trans h2.2.2.2.2.2⟩

theorem tx_eq_trans {a b d : EchoState} (h1 : tx_eq a b) (h2 : tx_eq b d) : tx_eq a d :=
  ⟨h1.1.trans h2.1, h1.2.1.trans h2.2.1, h1.2.2.1.trans h2.2.2.1, h1.2.2.2.trans h2.2.2.2⟩

theorem recv_null_facts (c : Config) (s : EchoState) (tpcb : Nat) :
    ∃ r, recv_callback c s tpcb [] = some r ∧ r.err = ERR_OK ∧ ring_eq r.g s ∧ tx_eq r.g s ∧
      (s.tcp_tx_active = 0 → r.g.client_pcb = 0 ∧ r.log = [Ev.tcp_close tpcb]) ∧
      (s.tcp_tx_active ≠ 0 → r.g = s ∧ r.log = []) := by
  refine ⟨_, recv_callback_null_eq c s tpcb, ?_⟩
  by_cases ha : s.tcp_tx_active = 0
  · rw [if_pos ha]
    exact ⟨rfl, ring_eq_refl _, tx_eq_refl _, fun _ => ⟨rfl, rfl⟩, fun e => absurd ha e⟩
  · rw [if_neg ha]
    exact ⟨rfl, ring_eq_refl _, tx_eq_refl _, fun e => absurd e ha, fun _ => ⟨rfl, rfl⟩⟩

/-- C20 (teardown is immediate, idempotent and keeps the ring). The peer-close notification
(`recv_callback` with a `NULL` chunk) returns `ERR_OK`; with no send active it calls
`tcp_close` on the connection and sets `client_pcb` to `NULL`, with a send active it changes
no global at all. In both cases, and when the notification is delivered a second time, the
ring (count, indices, ready flags, rows, fill offset) and the pending-send state are what
they were, and an `accept_callback` after one or after two notifications records the new
connection and leaves the ring, the count with it, unchanged. -/
theorem teardown_keeps_ring (c : Config) (s : EchoState) (tpcb newpcb : Nat) :
    ∃ r1 r2, recv_callback c s tpcb [] = some r1 ∧ recv_callback c r1.g tpcb [] = some r2 ∧
      r1 = (if s.tcp_tx_active = 0 then
              { g := { s with client_pcb := 0 }, err := ERR_OK, log := [Ev.tcp_close tpcb],
                copied := 0 }
            else { g := s, err := ERR_OK, log := [], copied := 0 }) ∧
      r1.err = ERR_OK ∧ r2.err = ERR_OK ∧
      ring_eq r1.g s ∧ tx_eq r1.g s ∧ ring_eq r2.g s ∧ tx_eq r2.g s ∧
      r2.g.client_pcb = r1.g.client_pcb ∧
      (accept_callback r1.g newpcb).g.client_pcb = newpcb ∧
      ring_eq (accept_callback r1.g newpcb).g s ∧
      (accept_callback r2.g newpcb).g.client_pcb = newpcb ∧
      ring_eq (accept_callback r2.g newpcb).g s ∧
      (accept_callback r2.g newpcb).g.tcp_rx_count = s.tcp_rx_count := by
  obtain ⟨r1, h1, e1, g1, t1, p1, q1⟩ := recv_null_facts c s tpcb
  obtain ⟨r2, h2, e2, g2, t2, p2, q2⟩ := recv_null_facts c r1.g tpcb
  have hr1 := recv_callback_null_eq c s tpcb
  rw [h1] at hr1
  simp only [Option.some.injEq] at hr1
  have hpcb : r2.g.client_pcb = r1.g.client_pcb := by
    by_cases ha : s.tcp_tx_active = 0
    · have ha1 : r1.g.tcp_tx_active = 0 := by rw [t1.2.2.2]; exact ha
      rw [(p2 ha1).1, (p1 ha).1]
    · have ha1 : r1.g.tcp_tx_active ≠ 0 := by rw [t1.2.2.2]; exact ha
      rw [(q2 ha1).1]
  have g12 : ring_eq r2.g s := ring_eq_trans g2 g1
  refine ⟨r1, r2, h1, h2, hr1, e1, e2, g1, t1, g12, tx_eq_trans t2 t1, hpcb, rfl, g1, rfl, g12,
    g12.2.2.2.2.1⟩

/-- C11 as the code has it (a second accept replaces the recorded connection).
`accept_callback` does the same whether or not `client_pcb` is `NULL`: it sets `client_pcb`
to the new connection, registers `recv_callback` and `send_callback` on it and returns
`ERR_OK`; the ring and the pending-send state are unchanged. The one variable `client_pcb`
records one connection, the one accepted last. -/
theorem accept_always_installs (s : EchoState) (newpcb : Nat) :
    (accept_callback s newpcb).err = ERR_OK ∧
    (accept_callback s newpcb).g.client_pcb = newpcb ∧
    (accept_callback s newpcb).log = [Ev.tcp_recv newpcb, Ev.tcp_sent newpcb] ∧
    ring_eq (accept_callback s newpcb).g s ∧ tx_eq (accept_callback s newpcb).g s :=
  ⟨rfl, rfl, rfl, ring_eq_refl _, tx_eq_refl _⟩

/-- Counterexample to C11 as worded: connection 5 is active when connection 6 is accepted;
`accept_callback` returns `ERR_OK` (0), and `client_pcb` is 6, no longer 5. -/
theorem second_accept_not_rejected :
    (accept_callback { EchoState.init echo_config with client_pcb := 5 } 6).err = ERR_OK ∧
    (accept_callback { EchoState.init echo_config with client_pcb := 5 } 6).g.client_pcb = 6 ∧
    ({ EchoState.init echo_config with client_pcb := 5 } : EchoState).client_pcb ≠ 0 ∧
    (accept_callback { EchoState.init echo_config with client_pcb := 5 } 6).g.client_pcb
      ≠ ({ EchoState.init echo_config with client_pcb := 5 } : EchoState).client_pcb := by
  decide

/-! ## The consumer interface: peek and pop -/

/-- C14 (pop contract). In every ring state that deliveries, peeks and pops can produce from
the initial state, `tcp_rx_pop_frame` returns; it returns -1 exactly when `tcp_rx_count` is 0
and then leaves every global as it was; otherwise it returns 0, the ready flag of the slot at
the read index becomes 0, the read index becomes `(tcp_rx_rd_idx + 1) % NUM_BUFFERS`, the
count goes down by one, and the write index, the fill offset, every other ready flag, all
rows, the pending-send state and `client_pcb` are unchanged. -/
theorem pop_contract (c : Config) (hc : c.ok) (ops : List Op) (hops : ops_ok c ops)
    (s0 s : EchoState) (hreach : (exec c (EchoState.init c) ops).map Prod.fst = some s0)
    (hring : ring_eq s s0) :
    ∃ s1 ret, tcp_rx_pop_frame c s = some (s1, ret) ∧
      (ret = -1 ↔ s.tcp_rx_count = 0) ∧
      (s.tcp_rx_count = 0 → s1 = s) ∧
      (s.tcp_rx_count ≠ 0 →
        ret = 0 ∧ 0 ≤ s.tcp_rx_rd_idx ∧ s.tcp_rx_rd_idx < (c.NUM_BUFFERS : Int) ∧
        s1.tcp_rx_ready[s.tcp_rx_rd_idx.toNat]? = some 0 ∧
        (∀ i, i ≠ s.tcp_rx_rd_idx.toNat → s1.tcp_rx_ready[i]? = s.tcp_rx_ready[i]?) ∧
        s1.tcp_rx_rd_idx = (s.tcp_rx_rd_idx + 1) % (c.NUM_BUFFERS : Int) ∧
        s1.tcp_rx_count = s.tcp_rx_count - 1 ∧
        s1.tcp_rx_wr_idx = s.tcp_rx_wr_idx ∧ s1.tcp_rx_offset = s.tcp_rx_offset ∧
        s1.tcp_rx_buffers = s.tcp_rx_buffers ∧ tx_eq s1 s ∧ s1.client_pcb = s.client_pcb) := by
  obtain ⟨acc, k, m, hinv⟩ := inv_of_reachable c hc ops hops s0 s hreach hring
  have h := hinv.1
  have hk := h.hk
  have hlt : k % c.NUM_BUFFERS < c.NUM_BUFFERS := Nat.mod_lt _ hc.1
  by_cases hkm : m = k
  · subst hkm
    have hcnt : s.tcp_rx_count = 0 := by rw [h.hcount]; omega
    refine ⟨s, -1, pop_abs_empty c s acc m h, ?_, fun _ => rfl, fun hne => absurd hcnt hne⟩
    exact ⟨fun _ => hcnt, fun _ => rfl⟩
  · have hne : k < m := by omega
    have hcnt : s.tcp_rx_count ≠ 0 := by rw [h.hcount]; omega
    obtain ⟨_, hr, _⟩ := peek_abs_nonempty c hc s acc k m h hne
    have he : rx_empty s = false := by rw [rx_empty_abs h]; simp; omega
    have heq : tcp_rx_pop_frame c s = some
        ({ s with
           tcp_rx_ready := s.tcp_rx_ready.set s.tcp_rx_rd_idx.toNat 0
           tcp_rx_rd_idx := Int.tmod (s.tcp_rx_rd_idx + 1) (c.NUM_BUFFERS : Int)
           tcp_rx_count := s.tcp_rx_count - 1 }, 0) := by
      simp [tcp_rx_pop_frame, he, hr]
    refine ⟨_, 0, heq, ?_, fun e => absurd e hcnt, fun _ => ?_⟩
    · exact ⟨fun e => absurd e (by decide), fun e => absurd e hcnt⟩
    · have hrd := h.hrd
      refine ⟨rfl, by rw [hrd]; omega, by rw [hrd]; omega, ?_, ?_, ?_, rfl, rfl, rfl, rfl,
        ⟨rfl, rfl, rfl, rfl⟩, rfl⟩
      · show (s.tcp_rx_ready.set s.tcp_rx_rd_idx.toNat 0)[s.tcp_rx_rd_idx.toNat]? = some 0
        rw [List.getElem?_set_self]
        rw [hrd, Int.toNat_ofNat, h.hready]; exact hlt
      · intro i hi
        show (s.tcp_rx_ready.set s.tcp_rx_rd_idx.toNat 0)[i]? = s.tcp_rx_ready[i]?
        rw [List.getElem?_set_ne (Ne.symm hi)]
      · show Int.tmod (s.tcp_rx_rd_idx + 1) (c.NUM_BUFFERS : Int)
          = (s.tcp_rx_rd_idx + 1) % (c.NUM_BUFFERS : Int)
        rw [Int.tmod_eq_emod (by rw [hrd]; omega) (by omega)]

/-- Witness for C14: the scenario ring with one Ready frame. -/
theorem pop_contract_witness :
    scenario_config.ok ∧ ops_ok scenario_config [Op.recv 1 [[1, 2, 3, 4]]] ∧
    (exec scenario_config (EchoState.init scenario_config) [Op.recv 1 [[1, 2, 3, 4]]]).map
      Prod.fst = some scenario_one_frame ∧
    ring_eq scenario_one_frame scenario_one_frame ∧
    ∃ s1 ret, tcp_rx_pop_frame scenario_config scenario_one_frame = some (s1, ret) ∧
      (ret = -1 ↔ scenario_one_frame.tcp_rx_count = 0) ∧
      (scenario_one_frame.tcp_rx_count = 0 → s1 = scenario_one_frame) ∧
      (scenario_one_frame.tcp_rx_count ≠ 0 →
        ret = 0 ∧ 0 ≤ scenario_one_frame.tcp_rx_rd_idx ∧
        scenario_one_frame.tcp_rx_rd_idx < (scenario_config.NUM_BUFFERS : Int) ∧
        s1.tcp_rx_ready[scenario_one_frame.tcp_rx_rd_idx.toNat]? = some 0 ∧
        (∀ i, i ≠ scenario_one_frame.tcp_rx_rd_idx.toNat →
          s1.tcp_rx_ready[i]? = scenario_one_frame.tcp_rx_ready[i]?) ∧
        s1.tcp_rx_rd_idx
          = (scenario_one_frame.tcp_rx_rd_idx + 1) % (scenario_config.NUM_BUFFERS : Int) ∧
        s1.tcp_rx_count = scenario_one_frame.tcp_rx_count - 1 ∧
        s1.tcp_rx_wr_idx = scenario_one_frame.tcp_rx_wr_idx ∧
        s1.tcp_rx_offset = scenario_one_frame.tcp_rx_offset ∧
        s1.tcp_rx_buffers = scenario_one_frame.tcp_rx_buffers ∧ tx_eq s1 scenario_one_frame ∧
        s1.client_pcb = scenario_one_frame.client_pcb) :=
  ⟨by decide, by decide, by decide, by decide,
    pop_contract scenario_config (by decide) [Op.recv 1 [[1, 2, 3, 4]]] (by decide)
      scenario_one_frame scenario_one_frame (by decide) (by decide)⟩

/-- C15 (peek contract). In a state whose read index is inside the two arrays,
`tcp_rx_peek_frame` returns and writes no global (a peek step ends in the state it started
from, and two peeks in a row give the same answer); it returns `NULL` exactly when
`tcp_rx_count` is 0 or the ready flag of the slot at the read index is 0, and otherwise it
returns the row at the read index and reports the read index. -/
theorem peek_contract (c : Config) (s : EchoState)
    (hrd : 0 ≤ s.tcp_rx_rd_idx ∧ s.tcp_rx_rd_idx < (c.NUM_BUFFERS : Int))
    (hready : s.tcp_rx_rd_idx.toNat < s.tcp_rx_ready.length)
    (hbufs : s.tcp_rx_rd_idx.toNat < s.tcp_rx_buffers.length) :
    ∃ res, tcp_rx_peek_frame c s = some res ∧
      step c s Op.peek = some (s, Out.peek res) ∧
      exec c s [Op.peek, Op.peek] = some (s,
        [{ pre := s, op := Op.peek, out := Out.peek res },
         { pre := s, op := Op.peek, out := Out.peek res }]) ∧
      (res = none ↔ (s.tcp_rx_count = 0 ∨ rx_ready_at c s s.tcp_rx_rd_idx = some 0)) ∧
      (res ≠ none → ∃ b, rx_buffer_at c s s.tcp_rx_rd_idx = some b ∧
        res = some (s.tcp_rx_rd_idx, b)) := by
  have hstep : ∀ res, tcp_rx_peek_frame c s = some res →
      step c s Op.peek = some (s, Out.peek res) ∧
      exec c s [Op.peek, Op.peek] = some (s,
        [{ pre := s, op := Op.peek, out := Out.peek res },
         { pre := s, op := Op.peek, out := Out.peek res }]) := by
    intro res hres
    have h1 : step c s Op.peek = some (s, Out.peek res) := by
      unfold step; rw [hres]
    refine ⟨h1, ?_⟩
    unfold exec exec exec
    rw [h1]
    simp only [h1]
  obtain ⟨f, hf⟩ : ∃ f, s.tcp_rx_ready[s.tcp_rx_rd_idx.toNat]? = some f :=
    ⟨_, List.getElem?_eq_getElem hready⟩
  obtain ⟨b, hb⟩ : ∃ b, s.tcp_rx_buffers[s.tcp_rx_rd_idx.toNat]? = some b :=
    ⟨_, List.getElem?_eq_getElem hbufs⟩
  have hrf : rx_ready_at c s s.tcp_rx_rd_idx = some f := by
    unfold rx_ready_at; rw [if_pos hrd, hf]
  have hrb : rx_buffer_at c s s.tcp_rx_rd_idx = some b := by
    unfold rx_buffer_at; rw [if_pos hrd, hb]
  by_cases he : s.tcp_rx_count = 0
  · have hpk : tcp_rx_peek_frame c s = some none := by
      simp [tcp_rx_peek_frame, rx_empty, he]
    exact ⟨none, hpk, (hstep _ hpk).1, (hstep _ hpk).2, ⟨fun _ => Or.inl he, fun _ => rfl⟩,
      fun e => absurd rfl e⟩
  · by_cases hf0 : f = 0
    · have hpk : tcp_rx_peek_frame c s = some none := by
        simp [tcp_rx_peek_frame, rx_empty, he, hrf, hf0]
      refine ⟨none, hpk, (hstep _ hpk).1, (hstep _ hpk).2, ⟨fun _ => Or.inr ?_, fun _ => rfl⟩,
        fun e => absurd rfl e⟩
      rw [hrf, hf0]
    · have hpk : tcp_rx_peek_frame c s = some (some (s.tcp_rx_rd_idx, b)) := by
        simp [tcp_rx_peek_frame, rx_empty, he, hrf, hf0, hrb]
      refine ⟨_, hpk, (hstep _ hpk).1, (hstep _ hpk).2, ⟨fun e => by simp at e, ?_⟩,
        fun _ => ⟨b, hrb, rfl⟩⟩
      rintro (e | e)
      · exact absurd e he
      · rw [hrf] at e
        exact absurd (Option.some.inj e) hf0

/-- Witness for C15: the scenario ring with one Ready frame. -/
theorem peek_contract_witness :
    (0 ≤ scenario_one_frame.tcp_rx_rd_idx ∧
      scenario_one_frame.tcp_rx_rd_idx < (scenario_config.NUM_BUFFERS : Int)) ∧
    scenario_one_frame.tcp_rx_rd_idx.toNat < scenario_one_frame.tcp_rx_ready.length ∧
    scenario_one_frame.tcp_rx_rd_idx.toNat < scenario_one_frame.tcp_rx_buffers.length ∧
    ∃ res, tcp_rx_peek_frame scenario_config scenario_one_frame = some res ∧
      step scenario_config scenario_one_frame Op.peek = some (scenario_one_frame, Out.peek res) ∧
      exec scenario_config scenario_one_frame [Op.peek, Op.peek] = some (scenario_one_frame,
        [{ pre := scenario_one_frame, op := Op.peek, out := Out.peek res },
         { pre := scenario_one_frame, op := Op.peek, out := Out.peek res }]) ∧
      (res = none ↔ (scenario_one_frame.tcp_rx_count = 0 ∨
        rx_ready_at scenario_config scenario_one_frame scenario_one_frame.tcp_rx_rd_idx
          = some 0)) ∧
      (res ≠ none → ∃ b,
        rx_buffer_at scenario_config scenario_one_frame scenario_one_frame.tcp_rx_rd_idx
          = some b ∧
        res = some (scenario_one_frame.tcp_rx_rd_idx, b)) :=
  ⟨by decide, by decide, by decide,
    peek_contract scenario_config scenario_one_frame (by decide) (by decide) (by decide)⟩

/-! ## Acknowledgment and stall of a delivery -/

theorem copy_len_append (a b : List Ev) : copy_len (a ++ b) = copy_len a + copy_len b := by
  induction a with
  | nil => simp [copy_len]
  | cons e rest ih => cases e <;> simp [copy_len, ih]; omega

theorem acks_append (a b : List Ev) : acks (a ++ b) = acks a ++ acks b := by
  induction a with
  | nil => simp [acks]
  | cons e rest ih => cases e <;> simp [acks, ih]

theorem closes_append (a b : List Ev) : closes (a ++ b) = closes a + closes b := by
  induction a with
  | nil => simp [closes]
  | cons e rest ih => cases e <;> simp [closes, ih]; omega

theorem no_copy_at_full_append (n : Int) (a b : List Ev) :
    ∀ cnt : Int, no_copy_at_full n cnt a →
      no_copy_at_full n (cnt + (closes a : Int)) b → no_copy_at_full n cnt (a ++ b) := by
  induction a with
  | nil => intro cnt _ hb; simpa [closes] using hb
  | cons e rest ih =>
    intro cnt ha hb
    cases e with
    | memcpy slot off len ready =>
      simp only [List.cons_append, no_copy_at_full, closes] at ha hb ⊢
      exact ⟨ha.1, ih cnt ha.2 hb⟩
    | flush slot =>
      simp only [List.cons_append, no_copy_at_full, closes] at ha hb ⊢
      apply ih (cnt + 1) ha
      have e : cnt + 1 + (closes rest : Int) = cnt + ((1 + closes rest : Nat) : Int) := by
        push_cast; omega
      rw [e]; exact hb
    | tcp_recved pcb len =>
      simp only [List.cons_append, no_copy_at_full, closes] at ha hb ⊢
      exact ih cnt ha hb
    | pbuf_free =>
      simp only [List.cons_append, no_copy_at_full, closes] at ha hb ⊢
      exact ih cnt ha hb
    | tcp_close pcb =>
      simp only [List.cons_append, no_copy_at_full, closes] at ha hb ⊢
      exact ih cnt ha hb
    | tcp_write pcb data res =>
      simp only [List.cons_append, no_copy_at_full, closes] at ha hb ⊢
      exact ih cnt ha hb
    | tcp_output pcb =>
      simp only [List.cons_append, no_copy_at_full, closes] at ha hb ⊢
      exact ih cnt ha hb
    | tcp_recv pcb =>
      simp only [List.cons_append, no_copy_at_full, closes] at ha hb ⊢
      exact ih cnt ha hb
    | tcp_sent pcb =>
      simp only [List.cons_append, no_copy_at_full, closes] at ha hb ⊢
      exact ih cnt ha hb

/-- What `rx_copy` does to the locals and to the count. -/
theorem rx_copy_inv (c : Config) (r r2 : Rx) (src : List u8) (h : rx_copy c r src = some r2) :
    ∃ f, r2.log = r.log ++ [Ev.memcpy r.g.tcp_rx_wr_idx r.g.tcp_rx_offset src.length f] ∧
      r2.copied = u32_add r.copied src.length ∧ r2.g.tcp_rx_count = r.g.tcp_rx_count := by
  unfold rx_copy at h
  split at h
  · split at h
    · simp only [Option.some.injEq] at h
      subst h
      exact ⟨_, rfl, rfl, rfl⟩
    · exact absurd h (by simp)
  · exact absurd h (by simp)

/-- What `rx_close` does to the locals and to the count. -/
theorem rx_close_inv (c : Config) (r r2 : Rx) (h : rx_close c r = some r2) :
    r2.log = r.log ++ [Ev.flush r.g.tcp_rx_wr_idx] ∧ r2.copied = r.copied ∧
      r2.g.tcp_rx_count = r.g.tcp_rx_count + 1 := by
  unfold rx_close at h
  split at h
  · simp only [Option.some.injEq] at h
    subst h
    exact ⟨rfl, rfl, rfl⟩
  · exact absurd h (by simp)

/-- C16 (exact acknowledgment). For every delivery of a non-NULL well-formed chain in a ring
state that deliveries, peeks and pops can produce, `recv_callback` returns `ERR_OK` or
`ERR_MEM`, and on either path: the lengths of its `memcpy` calls add up to the local `copied`;
if that number is 0 the call made no `tcp_recved` call, otherwise it made exactly one, on the
connection of the delivery, with that number as length; and the number is at most the length
of the chain. -/
theorem exact_acknowledgment (c : Config) (hc : c.ok) (ops : List Op) (hops : ops_ok c ops)
    (s0 s : EchoState) (hreach : (exec c (EchoState.init c) ops).map Prod.fst = some s0)
    (hring : ring_eq s s0) (tpcb : Nat) (p : List (List u8)) (hp : p ≠ [])
    (hpok : pbuf_ok c p) :
    ∃ ret, recv_callback c s tpcb p = some ret ∧
      (ret.err = ERR_OK ∨ ret.err = ERR_MEM) ∧
      copy_len ret.log = ret.copied ∧
      acks ret.log = (if 0 < copy_len ret.log then [(tpcb, copy_len ret.log)] else []) ∧
      copy_len ret.log ≤ (chain_bytes p).length := by
  obtain ⟨acc, k, m, hinv⟩ := inv_of_reachable c hc ops hops s0 s hreach hring
  obtain ⟨ret, m1, hret, hpost, hcase⟩ :=
    recv_callback_inv c hc tpcb k (fun r => copy_len r.log = r.copied ∧ acks r.log = [])
      (by
        intro r r2 src hI hcopy _ hlt
        obtain ⟨f, hlog, hcop, _⟩ := rx_copy_inv c r r2 src hcopy
        rw [hlog, hcop, copy_len_append, acks_append, hI.1, hI.2, u32_add_of_lt hlt]
        simp [copy_len, acks])
      (by
        intro r r2 hI hclose _
        obtain ⟨hlog, hcop, _⟩ := rx_close_inv c r r2 hclose
        rw [hlog, hcop, copy_len_append, acks_append, hI.1, hI.2]
        simp [copy_len, acks])
      s acc m p hinv hp (fits_of_pbuf_ok c p _ hpok) hpok.2 ⟨rfl, rfl⟩
  have hle : ret.copied ≤ (chain_bytes p).length := by
    rw [hpost.hcopied]; unfold taken; omega
  have hsmall : ret.copied < 65536 := by have := hpok.2; omega
  refine ⟨ret, hret, hpost.herr, ?_⟩
  rcases hcase with ⟨_, hr⟩ | ⟨_, rfin, hI, hexit⟩
  · subst hr
    simp [copy_len, acks]
  · have hack : copy_len (rx_ack tpcb rfin) = rfin.copied ∧
        acks (rx_ack tpcb rfin)
          = (if 0 < rfin.copied then [(tpcb, rfin.copied % 65536)] else []) := by
      unfold rx_ack
      by_cases h0 : 0 < rfin.copied
      · rw [if_pos h0, if_pos h0, copy_len_append, acks_append, hI.1, hI.2]
        simp [copy_len, acks]
      · rw [if_neg h0, if_neg h0]
        exact ⟨hI.1, hI.2⟩
    rcases hexit with hr | hr
    · subst hr
      have hmod : rfin.copied % 65536 = rfin.copied := Nat.mod_eq_of_lt hsmall
      simp only [rx_stall] at hle hsmall ⊢
      rw [hack.1, hack.2, hmod]
      exact ⟨rfl, rfl, hle⟩
    · subst hr
      have hmod : rfin.copied % 65536 = rfin.copied := Nat.mod_eq_of_lt hsmall
      simp only at hle hsmall ⊢
      rw [copy_len_append, acks_append, hack.1, hack.2, hmod]
      simp [copy_len, acks]
      exact hle

/-- Witness for C16: the scenario ring with a half-filled slot receives three bytes. -/
theorem exact_acknowledgment_witness :
    scenario_config.ok ∧ ops_ok scenario_config [Op.recv 1 [[1, 2]]] ∧
    (exec scenario_config (EchoState.init scenario_config) [Op.recv 1 [[1, 2]]]).map
      Prod.fst = some scenario_half_frame ∧
    ring_eq scenario_half_frame scenario_half_frame ∧
    ([[3, 4, 5]] : List (List u8)) ≠ [] ∧ pbuf_ok scenario_config [[3, 4, 5]] ∧
    ∃ ret, recv_callback scenario_config scenario_half_frame 1 [[3, 4, 5]] = some ret ∧
      (ret.err = ERR_OK ∨ ret.err = ERR_MEM) ∧
      copy_len ret.log = ret.copied ∧
      acks ret.log = (if 0 < copy_len ret.log then [(1, copy_len ret.log)] else []) ∧
      copy_len ret.log ≤ (chain_bytes ([[3, 4, 5]] : List (List u8))).length :=
  ⟨by decide, by decide, by decide, by decide, by decide, by decide,
    exact_acknowledgment scenario_config (by decide) [Op.recv 1 [[1, 2]]] (by decide)
      scenario_half_frame scenario_half_frame (by decide) (by decide) 1 [[3, 4, 5]]
      (by decide) (by decide)⟩

theorem rx_ack_scan (n : Int) (cnt : Int) (tpcb : Nat) (r : Rx)
    (h : no_copy_at_full n cnt r.log) :
    no_copy_at_full n cnt (rx_ack tpcb r) ∧ closes (rx_ack tpcb r) = closes r.log := by
  unfold rx_ack
  by_cases h0 : 0 < r.copied
  · rw [if_pos h0, closes_append]
    refine ⟨no_copy_at_full_append n _ _ cnt h ?_, ?_⟩
    · simp [no_copy_at_full]
    · simp [closes]
  · rw [if_neg h0]
    exact ⟨h, rfl⟩

/-- C17 (stall when the ring is full). In every ring state that deliveries, peeks and pops can
produce: if `tcp_rx_count` is `NUM_BUFFERS`, a delivery of a non-NULL chain returns `ERR_MEM`
at once, with no external call made (no `memcpy`, no `tcp_recved`) and every global as it
was; and for every well-formed non-NULL chain the delivery returns, the count it leaves is
the count it found plus the number of slots it closed, and no `memcpy` of the call ran at a
moment when the count was `NUM_BUFFERS`. -/
theorem stall_when_full (c : Config) (hc : c.ok) (ops : List Op) (hops : ops_ok c ops)
    (s0 s : EchoState) (hreach : (exec c (EchoState.init c) ops).map Prod.fst = some s0)
    (hring : ring_eq s s0) (tpcb : Nat) (p : List (List u8)) (hp : p ≠ []) :
    (s.tcp_rx_count = (c.NUM_BUFFERS : Int) →
      recv_callback c s tpcb p = some { g := s, err := ERR_MEM, log := [], copied := 0 }) ∧
    (pbuf_ok c p → ∃ ret, recv_callback c s tpcb p = some ret ∧
      ret.g.tcp_rx_count = s.tcp_rx_count + (closes ret.log : Int) ∧
      no_copy_at_full (c.NUM_BUFFERS : Int) s.tcp_rx_count ret.log) := by
  obtain ⟨acc, k, m, hinv⟩ := inv_of_reachable c hc ops hops s0 s hreach hring
  constructor
  · intro hcnt
    have hk := hinv.1.hk
    have hm : m = k + c.NUM_BUFFERS := by
      have := hinv.1.hcount
      rw [hcnt] at this
      omega
    have hfull : rx_full c s = true ∧ s.tcp_rx_offset = 0 := by
      refine ⟨?_, hinv.1.hfull hm⟩
      unfold rx_full; simpa using hcnt
    unfold recv_callback
    rw [if_neg hp, if_pos hfull]
  · intro hpok
    obtain ⟨ret, m1, hret, hpost, hcase⟩ :=
      recv_callback_inv c hc tpcb k
        (fun r => r.g.tcp_rx_count = s.tcp_rx_count + (closes r.log : Int) ∧
          no_copy_at_full (c.NUM_BUFFERS : Int) s.tcp_rx_count r.log)
        (by
          intro r r2 src hI hcopy hlt _
          obtain ⟨f, hlog, _, hcnt⟩ := rx_copy_inv c r r2 src hcopy
          rw [hlog, hcnt, closes_append]
          refine ⟨by rw [hI.1]; simp [closes], no_copy_at_full_append _ _ _ _ hI.2 ?_⟩
          rw [← hI.1]
          simp only [no_copy_at_full, and_true]
          omega)
        (by
          intro r r2 hI hclose _
          obtain ⟨hlog, _, hcnt⟩ := rx_close_inv c r r2 hclose
          rw [hlog, hcnt, closes_append]
          refine ⟨by rw [hI.1]; simp [closes]; omega, no_copy_at_full_append _ _ _ _ hI.2 ?_⟩
          simp [no_copy_at_full])
        s acc m p hinv hp (fits_of_pbuf_ok c p _ hpok) hpok.2
        ⟨by simp [closes], by simp [no_copy_at_full]⟩
    refine ⟨ret, hret, ?_⟩
    rcases hcase with ⟨_, hr⟩ | ⟨_, rfin, hI, hexit⟩
    · subst hr
      simp [closes, no_copy_at_full]
    · obtain ⟨hs1, hs2⟩ := rx_ack_scan (c.NUM_BUFFERS : Int) s.tcp_rx_count tpcb rfin hI.2
      rcases hexit with hr | hr
      · subst hr
        simp only [rx_stall]
        rw [hs2]
        exact ⟨hI.1, hs1⟩
      · subst hr
        simp only
        rw [closes_append, hs2]
        refine ⟨by rw [hI.1]; simp [closes], no_copy_at_full_append _ _ _ _ hs1 ?_⟩
        simp [no_copy_at_full]

/-- Witness for C17: the scenario ring with both slots Ready receives one byte. -/
theorem stall_when_full_witness :
    scenario_config.ok ∧ ops_ok scenario_config [Op.recv 1 [[1, 2, 3, 4]], Op.recv 1 [[5, 6, 7, 8]]] ∧
    (exec scenario_config (EchoState.init scenario_config)
      [Op.recv 1 [[1, 2, 3, 4]], Op.recv 1 [[5, 6, 7, 8]]]).map Prod.fst = some scenario_full_ring ∧
    ring_eq scenario_full_ring scenario_full_ring ∧ ([[9]] : List (List u8)) ≠ [] ∧
    (scenario_full_ring.tcp_rx_count = (scenario_config.NUM_BUFFERS : Int) →
      recv_callback scenario_config scenario_full_ring 1 [[9]]
        = some { g := scenario_full_ring, err := ERR_MEM, log := [], copied := 0 }) ∧
    (pbuf_ok scenario_config [[9]] →
      ∃ ret, recv_callback scenario_config scenario_full_ring 1 [[9]] = some ret ∧
      ret.g.tcp_rx_count = scenario_full_ring.tcp_rx_count + (closes ret.log : Int) ∧
      no_copy_at_full (scenario_config.NUM_BUFFERS : Int) scenario_full_ring.tcp_rx_count
        ret.log) :=
  ⟨by decide, by decide, by decide, by decide, by decide,
    stall_when_full scenario_config (by decide) [Op.recv 1 [[1, 2, 3, 4]], Op.recv 1 [[5, 6, 7, 8]]]
      (by decide) scenario_full_ring scenario_full_ring (by decide) (by decide) 1 [[9]]
      (by decide)⟩

/-! ## Connection loss during a send or during reassembly -/

/-- A delivery of one segment that fits the room left in the current slot returns `ERR_OK`. -/
theorem recv_one_segment (c : Config) (hc : c.ok) (tpcb k : Nat) (s : EchoState)
    (acc : List u8) (m : Nat) (src : List u8) (h : Inv c s acc k m)
    (hnf : m < k + c.NUM_BUFFERS) (hsrc : src.length ≤ c.IN_FRAME_BYTES - s.tcp_rx_offset) :
    ∃ ret, recv_callback c s tpcb [src] = some ret ∧ ret.err = ERR_OK := by
  have hF : c.IN_FRAME_BYTES < U32 := by have := hc.2.2.2; unfold U32; omega
  have hoff := h.2
  have hrem : u32_sub c.IN_FRAME_BYTES s.tcp_rx_offset
      = c.IN_FRAME_BYTES - s.tcp_rx_offset := u32_sub_of_le (by omega) hF
  have hnfull : ¬ (rx_full c s = true ∧ s.tcp_rx_offset = 0) := by
    rintro ⟨e, _⟩
    rw [rx_full_abs h.1] at e
    have : m = k + c.NUM_BUFFERS := by simpa using e
    omega
  obtain ⟨r1, heq1, habs1, hoff1, _, _⟩ :=
    rx_copy_abs c hc { g := s, copied := 0, log := [] } acc k m src h.1 hnf
      (by show s.tcp_rx_offset + src.length ≤ c.IN_FRAME_BYTES; omega)
      (by show 0 + src.length < U32; omega)
  unfold recv_callback
  rw [if_neg (List.cons_ne_nil _ _), if_neg hnfull, recv_loop]
  simp only [hrem]
  rw [if_pos hsrc, heq1]
  unfold rx_iter_end
  show ∃ ret, (if r1.g.tcp_rx_offset = c.IN_FRAME_BYTES then
      match rx_close c r1 with
      | none => none
      | some r2 =>
        if rx_full c r2.g = true ∧ ([] : List (List u8)) ≠ [] then some (rx_stall tpcb r2)
        else recv_loop c tpcb [] r2
    else recv_loop c tpcb [] r1) = some ret ∧ ret.err = ERR_OK
  by_cases hfill : r1.g.tcp_rx_offset = c.IN_FRAME_BYTES
  · obtain ⟨r2, heq2, _⟩ := rx_close_abs c hc r1 _ k m habs1 hnf hfill
    rw [if_pos hfill, heq2]
    simp only [ne_eq, not_true_eq_false, and_false, if_false, recv_loop]
    exact ⟨_, rfl, rfl⟩
  · rw [if_neg hfill]
    simp only [recv_loop]
    exact ⟨_, rfl, rfl⟩

/-- C13 as the code has it. Neither the peer-close notification nor `accept_callback` writes
`tcp_rx_offset`: in every ring state that deliveries, peeks and pops can produce, with a
fill offset above 0 and no send active, the notification closes the connection, the next
`accept_callback` installs the new one, and the ring (fill offset included) is what it was
before; the first byte delivered on the new connection is then stored at offset
`tcp_rx_offset` of the slot at the write index, behind the bytes of the partial frame, which
are kept. -/
theorem reconnect_resumes_slot (c : Config) (hc : c.ok) (ops : List Op) (hops : ops_ok c ops)
    (s0 s : EchoState) (hreach : (exec c (EchoState.init c) ops).map Prod.fst = some s0)
    (hring : ring_eq s s0) (tpcb newpcb : Nat) (b : u8) (hoff : 0 < s.tcp_rx_offset)
    (hidle : s.tcp_tx_active = 0) :
    ∃ r1 ret old row, recv_callback c s tpcb [] = some r1 ∧ r1.log = [Ev.tcp_close tpcb] ∧
      r1.g.client_pcb = 0 ∧
      (accept_callback r1.g newpcb).g.client_pcb = newpcb ∧
      ring_eq (accept_callback r1.g newpcb).g s ∧
      (accept_callback r1.g newpcb).g.tcp_rx_offset = s.tcp_rx_offset ∧
      s.tcp_rx_offset < c.IN_FRAME_BYTES ∧
      rx_buffer_at c s s.tcp_rx_wr_idx = some old ∧
      recv_callback c (accept_callback r1.g newpcb).g newpcb [[b]] = some ret ∧
      ret.err = ERR_OK ∧ ret.copied = 1 ∧
      rx_buffer_at c ret.g s.tcp_rx_wr_idx = some row ∧
      row.take (s.tcp_rx_offset + 1) = old.take s.tcp_rx_offset ++ [b] := by
  obtain ⟨acc, k, m, hinv⟩ := inv_of_reachable c hc ops hops s0 s hreach hring
  obtain ⟨r1, h1, _, g1, _, p1, _⟩ := recv_null_facts c s tpcb
  have hg2 : ring_eq (accept_callback r1.g newpcb).g s :=
    ring_eq_trans ⟨rfl, rfl, rfl, rfl, rfl, rfl⟩ g1
  have hinv2 := inv_of_ring_eq hinv hg2
  have hlt : m % c.NUM_BUFFERS < c.NUM_BUFFERS := Nat.mod_lt _ hc.1
  have hm := hinv.1.hm
  have hnf : m < k + c.NUM_BUFFERS := by
    by_contra hge
    have := hinv.1.hfull (by omega)
    omega
  have hoffF := hinv.2
  have hoff2 : (accept_callback r1.g newpcb).g.tcp_rx_offset = s.tcp_rx_offset :=
    hg2.2.2.2.2.2
  have hfit : fits c (accept_callback r1.g newpcb).g.tcp_rx_offset [[b]] = true := by
    apply fits_of_short
    intro seg hseg
    rw [List.mem_singleton.1 hseg]
    show 1 ≤ c.IN_FRAME_BYTES
    omega
  obtain ⟨ret, m1, hret, hpost⟩ := recv_callback_post c hc newpcb k _ acc m [[b]] hinv2
    (List.cons_ne_nil _ _) hfit (by rw [chain_bytes_single]; show 1 ≤ 65535; omega)
  obtain ⟨ret1, hret1, hok⟩ := recv_one_segment c hc newpcb k _ acc m [b] hinv2 hnf
    (by rw [hoff2]; show 1 ≤ c.IN_FRAME_BYTES - s.tcp_rx_offset; omega)
  have hsame : ret1 = ret := by
    rw [hret] at hret1
    exact (Option.some.inj hret1).symm
  subst hsame
  obtain ⟨old, hold, _⟩ := abs_wr_row hc hinv.1
  have hrow_old : rx_buffer_at c s s.tcp_rx_wr_idx = some old := by
    rw [hinv.1.hwr, rx_buffer_at_nat c _ _ hlt, hold]
  have hlen := hinv.1.hlen
  have hcap := cap_ge hinv.1 1 (by omega)
  have htk : taken c k acc (chain_bytes [[b]]) = 1 := by
    rw [chain_bytes_single]
    unfold taken
    show min 1 _ = 1
    have : 1 ≤ (k + c.NUM_BUFFERS) * c.IN_FRAME_BYTES - acc.length := by omega
    omega
  have habs := hpost.habs
  rw [htk, chain_bytes_single] at habs
  have htake1 : ([b] : List u8).take 1 = [b] := rfl
  rw [htake1] at habs
  have hlen2 := habs.hlen
  rw [List.length_append, hlen] at hlen2
  have hmF : m * c.IN_FRAME_BYTES ≤ acc.length := by omega
  have hdrop : (acc ++ [b]).drop (m * c.IN_FRAME_BYTES)
      = old.take s.tcp_rx_offset ++ [b] := by
    rw [List.drop_append_of_le_length hmF, hinv.1.htail old hold]
  have hcop : ret1.copied = 1 := by rw [hpost.hcopied, htk]
  refine ⟨r1, ret1, old, ?_, h1, (p1 hidle).2, (p1 hidle).1, rfl, hg2, hoff2, hoffF, hrow_old,
    hret, hok, hcop, ?_⟩
  by_cases hlast : s.tcp_rx_offset + 1 = c.IN_FRAME_BYTES
  · exact frame_of c (acc ++ [b]) m
  · exact (ret1.g.tcp_rx_buffers[m % c.NUM_BUFFERS]?).getD []
  by_cases hlast : s.tcp_rx_offset + 1 = c.IN_FRAME_BYTES
  · rw [dif_pos hlast]
    have hm1 : m1 = m + 1 ∧ ret1.g.tcp_rx_offset = 0 := by
      have e : m1 * c.IN_FRAME_BYTES + ret1.g.tcp_rx_offset
          = (m + 1) * c.IN_FRAME_BYTES + 0 := by
        rw [Nat.add_mul]
        simp only [List.length_singleton] at hlen2
        omega
      exact split_unique e hpost.hoff hc.2.2.1
    rw [hm1.1] at habs
    obtain ⟨_, hb⟩ := habs.hin m hinv.1.hk (by omega)
    refine ⟨by rw [hinv.1.hwr, rx_buffer_at_nat c _ _ hlt, hb], ?_⟩
    unfold frame_of
    rw [hdrop, hlast]
    have hl : (old.take s.tcp_rx_offset ++ [b]).length ≤ c.IN_FRAME_BYTES := by
      rw [← hdrop, List.length_drop, List.length_append, hlen]
      simp only [List.length_singleton]
      omega
    rw [List.take_of_length_le hl, List.take_of_length_le hl]
  · rw [dif_neg hlast]
    have hm1 : m1 = m ∧ ret1.g.tcp_rx_offset = s.tcp_rx_offset + 1 := by
      have e : m1 * c.IN_FRAME_BYTES + ret1.g.tcp_rx_offset
          = m * c.IN_FRAME_BYTES + (s.tcp_rx_offset + 1) := by
        simp only [List.length_singleton] at hlen2
        omega
      exact split_unique e hpost.hoff (by omega)
    rw [hm1.1] at habs
    obtain ⟨row, hrow, _⟩ := abs_wr_row hc habs
    rw [hrow]
    refine ⟨by rw [hinv.1.hwr, rx_buffer_at_nat c _ _ hlt, hrow]; rfl, ?_⟩
    have := habs.htail row hrow
    rw [hm1.2] at this
    show row.take (s.tcp_rx_offset + 1) = old.take s.tcp_rx_offset ++ [b]
    rw [this, hdrop]

/-- Counterexample to C13 as worded: the scenario ring with two of four bytes stored in slot
0 (fill offset 2) and a connection. The peer-close notification closes the connection, a new
connection is accepted, and the fill offset is still 2; the first byte of the new connection,
7, lands at offset 2 of slot 0, behind the two bytes of the old connection. -/
theorem partial_slot_survives_reconnect :
    (recv_callback scenario_config { scenario_half_frame with client_pcb := 5 } 5 []).map
        (fun r1 => (r1.log, r1.g.client_pcb, (accept_callback r1.g 6).g.tcp_rx_offset))
      = some ([Ev.tcp_close 5], 0, 2) ∧
    ((recv_callback scenario_config { scenario_half_frame with client_pcb := 5 } 5 []).bind
      fun r1 =>
        (recv_callback scenario_config (accept_callback r1.g 6).g 6 [[7]]).map fun ret =>
          (ret.err, ret.g.tcp_rx_buffers, ret.g.tcp_rx_offset))
      = some (ERR_OK, [[1, 2, 7, 0], [0, 0, 0, 0]], 3) := by
  decide

/-- Witness for C13 as the code has it: the scenario ring with a half-filled slot. -/
theorem reconnect_resumes_slot_witness :
    scenario_config.ok ∧ ops_ok scenario_config [Op.recv 1 [[1, 2]]] ∧
    (exec scenario_config (EchoState.init scenario_config) [Op.recv 1 [[1, 2]]]).map
      Prod.fst = some scenario_half_frame ∧
    ring_eq scenario_half_frame scenario_half_frame ∧
    0 < scenario_half_frame.tcp_rx_offset ∧ scenario_half_frame.tcp_tx_active = 0 ∧
    ∃ r1 ret old row, recv_callback scenario_config scenario_half_frame 5 [] = some r1 ∧
      r1.log = [Ev.tcp_close 5] ∧ r1.g.client_pcb = 0 ∧
      (accept_callback r1.g 6).g.client_pcb = 6 ∧
      ring_eq (accept_callback r1.g 6).g scenario_half_frame ∧
      (accept_callback r1.g 6).g.tcp_rx_offset = scenario_half_frame.tcp_rx_offset ∧
      scenario_half_frame.tcp_rx_offset < scenario_config.IN_FRAME_BYTES ∧
      rx_buffer_at scenario_config scenario_half_frame scenario_half_frame.tcp_rx_wr_idx
        = some old ∧
      recv_callback scenario_config (accept_callback r1.g 6).g 6 [[7]] = some ret ∧
      ret.err = ERR_OK ∧ ret.copied = 1 ∧
      rx_buffer_at scenario_config ret.g scenario_half_frame.tcp_rx_wr_idx = some row ∧
      row.take (scenario_half_frame.tcp_rx_offset + 1)
        = old.take scenario_half_frame.tcp_rx_offset ++ [7] :=
  ⟨by decide, by decide, by decide, by decide, by decide, by decide,
    reconnect_resumes_slot scenario_config (by decide) [Op.recv 1 [[1, 2]]] (by decide)
      scenario_half_frame scenario_half_frame (by decide) (by decide) 5 6 7 (by decide)
      (by decide)⟩

/-- The external calls of the send loop are `tcp_write` and `tcp_output` on the connection
passed in. -/
theorem send_loop_log (c : Config) (mem : Nat → u8) (net : Nat → NetResp) (tpcb : Nat) :
    ∀ (fuel i : Nat) (s : EchoState) (log : List Ev) (r : SendRet),
      send_loop c mem net tpcb fuel i s log = some r →
      ∀ e ∈ r.log, e ∈ log ∨ (∃ d res, e = Ev.tcp_write tpcb d res) ∨ e = Ev.tcp_output tpcb := by
  intro fuel
  induction fuel with
  | zero => intro i s log r h; simp [send_loop] at h
  | succ fuel ih =>
    intro i s log r h e he
    simp only [send_loop] at h
    split_ifs at h
    all_goals first
      | (simp only [Option.some.injEq] at h
         subst h
         first
           | exact Or.inl he
           | (rcases List.mem_append.1 he with h1 | h1
              · exact Or.inl h1
              · exact Or.inr (Or.inl ⟨_, _, List.mem_singleton.1 h1⟩)))
      | (rcases ih _ _ _ _ h e he with h1 | h1
         · rcases List.mem_append.1 h1 with h2 | h2
           · rcases List.mem_append.1 h2 with h3 | h3
             · exact Or.inl h3
             · exact Or.inr (Or.inl ⟨_, _, List.mem_singleton.1 h3⟩)
           · exact Or.inr (Or.inr (List.mem_singleton.1 h2))
         · exact Or.inr h1)

/-- No invocation of `send_callback` calls `tcp_close`. -/
theorem send_callback_no_close (c : Config) (mem : Nat → u8) (net : Nat → NetResp)
    (i : Nat) (s : EchoState) (tpcb : Nat) (r : SendRet)
    (h : send_callback c mem net i s tpcb = some r) : ∀ pcb, Ev.tcp_close pcb ∉ r.log := by
  intro pcb hmem
  unfold send_callback at h
  split_ifs at h
  · simp only [Option.some.injEq] at h
    subst h
    simp at hmem
  · rcases send_loop_log c mem net tpcb _ _ _ _ r h _ hmem with h1 | ⟨d, res, h1⟩ | h1
    · simp at h1
    · exact absurd h1 (by simp)
    · exact absurd h1 (by simp)

/-- Any number of `send_callback` invocations returns, never calls `tcp_close` and leaves
`client_pcb` and the ring as they were. -/
theorem send_resume_keeps_pcb (c : Config) (hchunk : 0 < c.TCP_TX_CHUNK) (mem : Nat → u8)
    (net : Nat → NetResp) (tpcb : Nat) :
    ∀ (n : Nat) (r0 : SendRet), r0.g.tcp_tx_sent_len ≤ r0.g.tcp_tx_buf_len →
      r0.g.tcp_tx_buf_len < U32 → (∀ pcb, Ev.tcp_close pcb ∉ r0.log) →
      ∃ r, send_resume c mem net tpcb n r0 = some r ∧ r.g.client_pcb = r0.g.client_pcb ∧
        ring_eq r.g r0.g ∧ (∀ pcb, Ev.tcp_close pcb ∉ r.log) ∧
        (r.g.tcp_tx_active = r0.g.tcp_tx_active ∨ r.g.tcp_tx_active = 0) := by
  intro n
  induction n with
  | zero =>
    intro r0 _ _ hlog
    exact ⟨r0, rfl, rfl, ring_eq_refl _, hlog, Or.inl rfl⟩
  | succ n ih =>
    intro r0 hle hlen hlog
    obtain ⟨r1, hr1, _, h2, _, h4, _, h6, h7, h8, _⟩ :=
      send_callback_post c hchunk mem net tpcb r0.next r0.g hle hlen
    have hnc := send_callback_no_close c mem net r0.next r0.g tpcb r1 hr1
    obtain ⟨r2, hr2, hp2, hg2, hl2, ha2⟩ := ih { r1 with log := r0.log ++ r1.log }
      (by show r1.g.tcp_tx_sent_len ≤ r1.g.tcp_tx_buf_len; rw [h2]; exact h4)
      (by show r1.g.tcp_tx_buf_len < U32; rw [h2]; exact hlen)
      (by
        intro pcb hmem
        rcases List.mem_append.1 hmem with h | h
        · exact hlog pcb h
        · exact hnc pcb h)
    refine ⟨r2, by simp only [send_resume, hr1]; exact hr2, hp2.trans h7,
      ring_eq_trans hg2 h6, hl2, ?_⟩
    rcases ha2 with e | e
    · rcases h8 with e1 | e1
      · exact Or.inl (e.trans e1)
      · exact Or.inr (e.trans e1)
    · exact Or.inr e

/-- C12 as the code has it. A peer-close notification that arrives while a send is active
returns `ERR_OK` with no external call and every global as it was: the connection is
retained. The `send_callback` invocations that follow, however many and whether or not they
complete the send, all return; none of them calls `tcp_close`, and `client_pcb` and the ring
stay as they were; the active flag keeps its value or is cleared. -/
theorem fin_during_send_retains (c : Config) (hchunk : 0 < c.TCP_TX_CHUNK) (mem : Nat → u8)
    (net : Nat → NetResp) (i : Nat) (s : EchoState) (tpcb : Nat)
    (hact : s.tcp_tx_active ≠ 0) (hle : s.tcp_tx_sent_len ≤ s.tcp_tx_buf_len)
    (hlen : s.tcp_tx_buf_len < U32) (n : Nat) :
    recv_callback c s tpcb [] = some { g := s, err := ERR_OK, log := [], copied := 0 } ∧
    ∃ r, send_resume c mem net tpcb n { g := s, ret := ERR_OK, log := [], next := i } = some r ∧
      r.g.client_pcb = s.client_pcb ∧ (∀ pcb, Ev.tcp_close pcb ∉ r.log) ∧ ring_eq r.g s ∧
      (r.g.tcp_tx_active = s.tcp_tx_active ∨ r.g.tcp_tx_active = 0) := by
  constructor
  · rw [recv_callback_null_eq, if_neg hact]
  · obtain ⟨r, hr, hp, hg, hl, ha⟩ :=
      send_resume_keeps_pcb c hchunk mem net tpcb n
        { g := s, ret := ERR_OK, log := [], next := i } hle hlen (by intro pcb h; simp at h)
    exact ⟨r, hr, hp, hl, hg, ha⟩

/-- Counterexample to C12 as worded: a connection (5) with a send of two bytes started while
the send window was closed. The peer-close notification leaves the connection in place; the
next `send_callback` queues both bytes and clears the active flag, and `client_pcb` is still
5 and no `tcp_close` call was made. -/
theorem send_completion_keeps_connection :
    (start_sending scenario_config (fun _ => 0) (fun _ => { sndbuf := 0, write_err := ERR_OK }) 0
        (accept_callback (EchoState.init scenario_config) 5).g 1000 2).map SendRet.g
      = some scenario_sending ∧
    (recv_callback scenario_config scenario_sending 5 []).map (fun r1 => (r1.g, r1.log))
      = some (scenario_sending, []) ∧
    (send_callback scenario_config (fun _ => 0) (fun _ => { sndbuf := 5, write_err := ERR_OK }) 0
        scenario_sending 5).map
        (fun r2 => (r2.g.tcp_tx_sent_len, r2.g.tcp_tx_active, r2.g.client_pcb, r2.log))
      = some (2, 0, 5, [Ev.tcp_write 5 [0, 0] 0, Ev.tcp_output 5]) := by
  decide

/-- Witness for C12 as the code has it: the send of the counterexample, one invocation. -/
theorem fin_during_send_retains_witness :
    0 < scenario_config.TCP_TX_CHUNK ∧ scenario_sending.tcp_tx_active ≠ 0 ∧
    scenario_sending.tcp_tx_sent_len ≤ scenario_sending.tcp_tx_buf_len ∧
    scenario_sending.tcp_tx_buf_len < U32 ∧
    recv_callback scenario_config scenario_sending 5 []
      = some { g := scenario_sending, err := ERR_OK, log := [], copied := 0 } ∧
    ∃ r, send_resume scenario_config (fun _ => 0)
        (fun _ => { sndbuf := 5, write_err := ERR_OK }) 5 1
        { g := scenario_sending, ret := ERR_OK, log := [], next := 0 } = some r ∧
      r.g.client_pcb = scenario_sending.client_pcb ∧ (∀ pcb, Ev.tcp_close pcb ∉ r.log) ∧
      ring_eq r.g scenario_sending ∧
      (r.g.tcp_tx_active = scenario_sending.tcp_tx_active ∨ r.g.tcp_tx_active = 0) :=
  ⟨by decide, by decide, by decide, by decide,
    fin_during_send_retains scenario_config (by decide) (fun _ => 0)
      (fun _ => { sndbuf := 5, write_err := ERR_OK }) 0 scenario_sending 5 (by decide)
      (by decide) (by decide) 1⟩

/-! ## A failed transform -/

/-- C18 as the code has it. A pipeline step in which the sender is idle, `tcp_rx_peek_frame`
returns a frame and `process_one_frame` returns a failure or timeout changes nothing: no send
is started, no pop is made, and the globals, `cur_out` and the transport position are as
before. The next pipeline step therefore peeks the same frame and invokes
`process_one_frame` on it again. -/
theorem failed_transform_retried (c : Config) (hc : c.ok) (hchunk : 0 < c.TCP_TX_CHUNK)
    (out_buf0 out_buf1 : Nat) (mem : Nat → u8) (net : Nat → NetResp) (i : Nat)
    (dma dma2 : Dma) (ms : MainState) (ops : List Op) (hops : ops_ok c ops) (s0 : EchoState)
    (hreach : (exec c (EchoState.init c) ops).map Prod.fst = some s0)
    (hring : ring_eq ms.g s0) (hidle : tcp_tx_is_busy ms.g = false)
    (fr : Int × List u8) (hpk : tcp_rx_peek_frame c ms.g = some (some fr))
    (pr : ProcRet) (hpr : process_one_frame dma = some pr) (hfail : pr.ret ≠ 0) :
    ∃ r1 r2 pr2, main_step c out_buf0 out_buf1 mem net i dma ms = some r1 ∧
      r1.peeked = some (some fr) ∧ r1.proc = some pr ∧ r1.tx_res = none ∧
      r1.pop_res = none ∧ r1.log = [] ∧ r1.st = ms ∧ r1.next = i ∧
      process_one_frame dma2 = some pr2 ∧
      main_step c out_buf0 out_buf1 mem net r1.next dma2 r1.st = some r2 ∧
      r2.peeked = some (some fr) ∧ r2.proc = some pr2 := by
  obtain ⟨acc, k, m, hinv⟩ := inv_of_reachable c hc ops hops s0 ms.g hreach hring
  have hbusy : ¬ tcp_tx_is_busy ms.g = true := by rw [hidle]; simp
  have hlt : k < m := by
    rcases Nat.lt_or_ge k m with h | h
    · exact h
    · have hkm : m = k := by have := hinv.1.hk; omega
      subst hkm
      have := peek_abs_empty c ms.g acc m hinv.1
      rw [hpk] at this
      simp at this
  have h1 : main_step c out_buf0 out_buf1 mem net i dma ms
      = some { st := ms, peeked := some (some fr), proc := some pr, tx_res := none,
               pop_res := none, log := [], next := i } := by
    unfold main_step
    rw [if_neg hbusy]
    simp only [hpk, hpr, if_neg hfail]
  obtain ⟨pr2, hpr2⟩ := process_one_frame_total dma2
  have h2 : ∃ r2, main_step c out_buf0 out_buf1 mem net i dma2 ms = some r2 ∧
      r2.peeked = some (some fr) ∧ r2.proc = some pr2 := by
    by_cases hret : pr2.ret = 0
    · obtain ⟨tx, htx, hring2⟩ :=
        start_sending_total c hchunk mem net i ms.g ms.cur_out OUT_FRAME_BYTES
          out_frame_bytes_u32
      by_cases htret : tx.ret = 0
      · have hinv1 := inv_of_ring_eq hinv hring2
        obtain ⟨g1, hpop1, _, _⟩ := pop_abs_nonempty c hc tx.g acc k m hinv1.1 hlt
        have hms : main_step c out_buf0 out_buf1 mem net i dma2 ms
            = some { st := { g := g1,
                             cur_out := if ms.cur_out = out_buf0 then out_buf1 else out_buf0 },
                     peeked := some (some fr), proc := some pr2, tx_res := some tx.ret,
                     pop_res := some 0, log := tx.log, next := tx.next } := by
          unfold main_step
          rw [if_neg hbusy]
          simp only [hpk, hpr2, if_pos hret, htx, if_pos htret, hpop1]
        exact ⟨_, hms, rfl, rfl⟩
      · have hms : main_step c out_buf0 out_buf1 mem net i dma2 ms
            = some { st := { g := tx.g,
                             cur_out := if ms.cur_out = out_buf0 then out_buf1 else out_buf0 },
                     peeked := some (some fr), proc := some pr2, tx_res := some tx.ret,
                     pop_res := none, log := tx.log, next := tx.next } := by
          unfold main_step
          rw [if_neg hbusy]
          simp only [hpk, hpr2, if_pos hret, htx, if_neg htret]
        exact ⟨_, hms, rfl, rfl⟩
    · have hms : main_step c out_buf0 out_buf1 mem net i dma2 ms
          = some { st := ms, peeked := some (some fr), proc := some pr2, tx_res := none,
                   pop_res := none, log := [], next := i } := by
        unfold main_step
        rw [if_neg hbusy]
        simp only [hpk, hpr2, if_neg hret]
      exact ⟨_, hms, rfl, rfl⟩
  obtain ⟨r2, hr2, hp2, hq2⟩ := h2
  exact ⟨_, r2, pr2, h1, rfl, rfl, rfl, rfl, rfl, rfl, rfl, hpr2, hr2, hp2, hq2⟩

/-- Counterexample to C18 as worded: one Ready frame, the sender idle, a DMA engine that
refuses the submission. The step reports -1 and leaves everything as it was; the next step
peeks the same frame of slot 0 and invokes `process_one_frame` on it again. -/
theorem failed_frame_transformed_again :
    (main_step scenario_config 1000 2000 (fun _ => 0)
        (fun _ => { sndbuf := 5, write_err := ERR_OK }) 0 failing_dma
        { g := scenario_one_frame, cur_out := 1000 }).map
      (fun r => (r.proc.map ProcRet.ret, r.tx_res, r.pop_res))
      = some (some (-1), none, none) ∧
    (main_step scenario_config 1000 2000 (fun _ => 0)
        (fun _ => { sndbuf := 5, write_err := ERR_OK }) 0 failing_dma
        { g := scenario_one_frame, cur_out := 1000 }).map StepRet.peeked
      = some (some (some (0, [1, 2, 3, 4]))) ∧
    (main_step scenario_config 1000 2000 (fun _ => 0)
        (fun _ => { sndbuf := 5, write_err := ERR_OK }) 0 failing_dma
        { g := scenario_one_frame, cur_out := 1000 }).map StepRet.st
      = some { g := scenario_one_frame, cur_out := 1000 } ∧
    ((main_step scenario_config 1000 2000 (fun _ => 0)
        (fun _ => { sndbuf := 5, write_err := ERR_OK }) 0 failing_dma
        { g := scenario_one_frame, cur_out := 1000 }).bind fun r1 =>
      (main_step scenario_config 1000 2000 (fun _ => 0)
        (fun _ => { sndbuf := 5, write_err := ERR_OK }) r1.next failing_dma r1.st).map
        fun r2 => (r2.peeked, r2.proc.map ProcRet.ret))
      = some (some (some (0, [1, 2, 3, 4])), some (-1)) := by
  refine ⟨by decide, by decide, by decide, by decide⟩

/-- Witness for C18 as the code has it: the steps of the counterexample. -/
theorem failed_transform_retried_witness :
    scenario_config.ok ∧ 0 < scenario_config.TCP_TX_CHUNK ∧
    ops_ok scenario_config [Op.recv 1 [[1, 2, 3, 4]]] ∧
    (exec scenario_config (EchoState.init scenario_config) [Op.recv 1 [[1, 2, 3, 4]]]).map
      Prod.fst = some scenario_one_frame ∧
    ring_eq scenario_one_frame scenario_one_frame ∧
    tcp_tx_is_busy scenario_one_frame = false ∧
    tcp_rx_peek_frame scenario_config scenario_one_frame = some (some (0, [1, 2, 3, 4])) ∧
    process_one_frame failing_dma = some { ret := -1, polls_s2mm := 0, polls_mm2s := 0 } ∧
    (-1 : Int) ≠ 0 ∧
    ∃ r1 r2 pr2, main_step scenario_config 1000 2000 (fun _ => 0)
        (fun _ => { sndbuf := 5, write_err := ERR_OK }) 0 failing_dma
        { g := scenario_one_frame, cur_out := 1000 } = some r1 ∧
      r1.peeked = some (some (0, [1, 2, 3, 4])) ∧
      r1.proc = some { ret := -1, polls_s2mm := 0, polls_mm2s := 0 } ∧ r1.tx_res = none ∧
      r1.pop_res = none ∧ r1.log = [] ∧
      r1.st = { g := scenario_one_frame, cur_out := 1000 } ∧ r1.next = 0 ∧
      process_one_frame failing_dma = some pr2 ∧
      main_step scenario_config 1000 2000 (fun _ => 0)
        (fun _ => { sndbuf := 5, write_err := ERR_OK }) r1.next failing_dma r1.st = some r2 ∧
      r2.peeked = some (some (0, [1, 2, 3, 4])) ∧ r2.proc = some pr2 :=
  ⟨by decide, by decide, by decide, by decide, by decide, by decide, by decide, by decide,
    by decide,
    failed_transform_retried scenario_config (by decide) (by decide) 1000 2000 (fun _ => 0)
      (fun _ => { sndbuf := 5, write_err := ERR_OK }) 0 failing_dma failing_dma
      { g := scenario_one_frame, cur_out := 1000 } [Op.recv 1 [[1, 2, 3, 4]]] (by decide)
      scenario_one_frame (by decide) (by decide) (by decide) (0, [1, 2, 3, 4]) (by decide)
      { ret := -1, polls_s2mm := 0, polls_mm2s := 0 } (by decide) (by decide)⟩

/-! ## The firmware as one event loop: the output buffers -/

theorem rx_copy_tx (c : Config) (r r2 : Rx) (src : List u8) (h : rx_copy c r src = some r2) :
    tx_eq r2.g r.g := by
  unfold rx_copy at h
  split at h
  · split at h
    · simp only [Option.some.injEq] at h
      subst h
      exact ⟨rfl, rfl, rfl, rfl⟩
    · exact absurd h (by simp)
  · exact absurd h (by simp)

theorem rx_close_tx (c : Config) (r r2 : Rx) (h : rx_close c r = some r2) :
    tx_eq r2.g r.g := by
  unfold rx_close at h
  split at h
  · simp only [Option.some.injEq] at h
    subst h
    exact ⟨rfl, rfl, rfl, rfl⟩
  · exact absurd h (by simp)

theorem pop_tx (c : Config) (s s1 : EchoState) (v : Int)
    (h : tcp_rx_pop_frame c s = some (s1, v)) : tx_eq s1 s := by
  unfold tcp_rx_pop_frame at h
  split at h
  · simp only [Option.some.injEq, Prod.mk.injEq] at h
    rw [← h.1]; exact tx_eq_refl _
  · split at h
    · exact absurd h (by simp)
    · split at h
      · simp only [Option.some.injEq, Prod.mk.injEq] at h
        rw [← h.1]; exact tx_eq_refl _
      · simp only [Option.some.injEq, Prod.mk.injEq] at h
        rw [← h.1]; exact ⟨rfl, rfl, rfl, rfl⟩

/-- A delivery or a peer-close notification keeps the window relation and does not write the
pending-send state. -/
theorem recv_sys (c : Config) (hc : c.ok) (tpcb : Nat) (s : EchoState) (acc : List u8)
    (k m : Nat) (p : List (List u8)) (h : Inv c s acc k m) (hp : pbuf_ok c p) :
    ∃ ret, recv_callback c s tpcb p = some ret ∧ (∃ acc1 k1 m1, Inv c ret.g acc1 k1 m1) ∧
      tx_eq ret.g s := by
  by_cases hnil : p = []
  · subst hnil
    obtain ⟨r, hr, _, hg, ht, _, _⟩ := recv_null_facts c s tpcb
    exact ⟨r, hr, ⟨acc, k, m, inv_of_ring_eq h hg⟩, ht⟩
  · obtain ⟨ret, m1, hret, hpost, hcase⟩ :=
      recv_callback_inv c hc tpcb k (fun r => tx_eq r.g s)
        (fun r r2 src hI hcopy _ _ => tx_eq_trans (rx_copy_tx c r r2 src hcopy) hI)
        (fun r r2 hI hclose _ => tx_eq_trans (rx_close_tx c r r2 hclose) hI)
        s acc m p h hnil (fits_of_pbuf_ok c p _ hp) hp.2 (tx_eq_refl s)
    refine ⟨ret, hret, ⟨_, k, m1, hpost.habs, hpost.hoff⟩, ?_⟩
    rcases hcase with ⟨_, hr⟩ | ⟨_, rfin, hI, hexit⟩
    · rw [hr]; exact tx_eq_refl s
    · rcases hexit with hr | hr
      · rw [hr]; exact hI
      · rw [hr]; exact hI

/-- The call `start_sending` leaves a pending-send state whose counter is within the
length. -/
theorem start_sending_tx (c : Config) (hchunk : 0 < c.TCP_TX_CHUNK) (mem : Nat → u8)
    (net : Nat → NetResp) (i : Nat) (s : EchoState) (buf len : Nat) (hlen : len < U32)
    (hle : s.tcp_tx_sent_len ≤ s.tcp_tx_buf_len) (hs : s.tcp_tx_buf_len < U32)
    (tx : SendRet) (h : start_sending c mem net i s buf len = some tx) :
    tx.g.tcp_tx_sent_len ≤ tx.g.tcp_tx_buf_len ∧ tx.g.tcp_tx_buf_len < U32 := by
  unfold start_sending at h
  split at h
  · simp only [Option.some.injEq] at h
    subst h
    exact ⟨hle, hs⟩
  · obtain ⟨r, hr, _, h2, _, h4, _⟩ :=
      send_callback_post c hchunk mem net s.client_pcb i
        { s with tcp_tx_buf_ptr := buf, tcp_tx_buf_len := len, tcp_tx_sent_len := 0,
                 tcp_tx_active := 1 }
        (Nat.zero_le _) hlen
    rw [hr] at h
    simp only [Option.some.injEq] at h
    subst h
    exact ⟨by rw [h2]; exact h4, by rw [h2]; exact hlen⟩

/-- Where the globals of a pipeline step come from, and when the step ran the transform. -/
theorem main_step_tx (c : Config) (out_buf0 out_buf1 : Nat) (mem : Nat → u8)
    (net : Nat → NetResp) (i : Nat) (dma : Dma) (ms : MainState) (r : StepRet)
    (h : main_step c out_buf0 out_buf1 mem net i dma ms = some r) :
    (r.proc ≠ none → ms.g.tcp_tx_active = 0) ∧
    (tx_eq r.st.g ms.g ∨
      ∃ tx, start_sending c mem net i ms.g ms.cur_out OUT_FRAME_BYTES = some tx ∧
        tx_eq r.st.g tx.g) := by
  unfold main_step at h
  by_cases hbusy : tcp_tx_is_busy ms.g = true
  · rw [if_pos hbusy] at h
    simp only [Option.some.injEq] at h
    subst h
    exact ⟨fun e => absurd rfl e, Or.inl (tx_eq_refl _)⟩
  · rw [if_neg hbusy] at h
    have hact : ms.g.tcp_tx_active = 0 := by
      unfold tcp_tx_is_busy at hbusy
      simpa using hbusy
    refine ⟨fun _ => hact, ?_⟩
    cases hpk : tcp_rx_peek_frame c ms.g with
    | none => rw [hpk] at h; exact absurd h (by simp)
    | some o =>
      cases o with
      | none =>
        rw [hpk] at h
        simp only [Option.some.injEq] at h
        subst h
        exact Or.inl (tx_eq_refl _)
      | some fr =>
        rw [hpk] at h
        simp only at h
        cases hpr : process_one_frame dma with
        | none => rw [hpr] at h; exact absurd h (by simp)
        | some pr =>
          rw [hpr] at h
          simp only at h
          by_cases hret : pr.ret = 0
          · rw [if_pos hret] at h
            cases htx : start_sending c mem net i ms.g ms.cur_out OUT_FRAME_BYTES with
            | none => rw [htx] at h; exact absurd h (by simp)
            | some tx =>
              rw [htx] at h
              simp only at h
              by_cases htret : tx.ret = 0
              · rw [if_pos htret] at h
                cases hpop : tcp_rx_pop_frame c tx.g with
                | none => rw [hpop] at h; exact absurd h (by simp)
                | some pair =>
                  obtain ⟨g1, v⟩ := pair
                  rw [hpop] at h
                  simp only [Option.some.injEq] at h
                  subst h
                  exact Or.inr ⟨tx, rfl, pop_tx c tx.g g1 v hpop⟩
              · rw [if_neg htret] at h
                simp only [Option.some.injEq] at h
                subst h
                exact Or.inr ⟨tx, rfl, tx_eq_refl _⟩
          · rw [if_neg hret] at h
            simp only [Option.some.injEq] at h
            subst h
            exact Or.inl (tx_eq_refl _)

theorem sys_inv_init (c : Config) (hc : c.ok) (out_buf0 : Nat) :
    SysInv c (sys_init c out_buf0) :=
  ⟨⟨[], 0, 0, inv_init c hc⟩, Nat.le_refl _, by show (0 : Nat) < U32; decide⟩

/-- Every event keeps what holds of the globals between two events, and a pipeline step runs
the transform only from a state with no send active. -/
theorem sys_step_inv (c : Config) (hc : c.ok) (hchunk : 0 < c.TCP_TX_CHUNK)
    (out_buf0 out_buf1 : Nat) (net : Nat → NetResp) (st : SysState) (op : SysOp)
    (h : SysInv c st) (hop : sys_op_ok c op) :
    ∃ st1 out, sys_step c out_buf0 out_buf1 net st op = some (st1, out) ∧ SysInv c st1 ∧
      (∀ r, out = SysOut.step r → r.proc ≠ none → st.ms.g.tcp_tx_active = 0) := by
  obtain ⟨⟨acc, k, m, hinv⟩, hle, hlen⟩ := h
  cases op with
  | accept newpcb =>
    refine ⟨_, _, rfl, ⟨⟨acc, k, m, ?_⟩, hle, hlen⟩, ?_⟩
    · exact inv_of_ring_eq hinv ⟨rfl, rfl, rfl, rfl, rfl, rfl⟩
    · intro r e; exact absurd e (by simp)
  | recv tpcb p =>
    obtain ⟨ret, hret, hinv1, htx⟩ := recv_sys c hc tpcb st.ms.g acc k m p hinv hop
    have hs : sys_step c out_buf0 out_buf1 net st (SysOp.recv tpcb p)
        = some ({ st with ms := { st.ms with g := ret.g } }, SysOut.recv ret) := by
      simp only [sys_step, hret]
    refine ⟨_, _, hs, ⟨hinv1, ?_, ?_⟩, ?_⟩
    · show ret.g.tcp_tx_sent_len ≤ ret.g.tcp_tx_buf_len
      rw [htx.2.2.1, htx.2.1]; exact hle
    · show ret.g.tcp_tx_buf_len < U32
      rw [htx.2.1]; exact hlen
    · intro r e; exact absurd e (by simp)
  | sent tpcb mem =>
    obtain ⟨r, hr, _, h2, _, h4, _, h6, _⟩ :=
      send_callback_post c hchunk mem net tpcb st.next st.ms.g hle hlen
    have hs : sys_step c out_buf0 out_buf1 net st (SysOp.sent tpcb mem)
        = some ({ ms := { st.ms with g := r.g }, next := r.next }, SysOut.sent r) := by
      simp only [sys_step, hr]
    refine ⟨_, _, hs, ⟨⟨acc, k, m, inv_of_ring_eq hinv h6⟩, ?_, ?_⟩, ?_⟩
    · show r.g.tcp_tx_sent_len ≤ r.g.tcp_tx_buf_len
      rw [h2]; exact h4
    · show r.g.tcp_tx_buf_len < U32
      rw [h2]; exact hlen
    · intro r e; exact absurd e (by simp)
  | step dma mem =>
    obtain ⟨r, hr, hcase⟩ :=
      main_step_post c hc hchunk out_buf0 out_buf1 mem net st.next dma st.ms acc k m hinv
    obtain ⟨hproc, htx⟩ := main_step_tx c out_buf0 out_buf1 mem net st.next dma st.ms r hr
    have hinv1 : ∃ acc1 k1 m1, Inv c r.st.g acc1 k1 m1 := by
      rcases hcase with ⟨_, e, _⟩ | ⟨_, _, e, _⟩ | ⟨_, fr, pr, _, _, hc3⟩
      · rw [e]; exact ⟨acc, k, m, hinv⟩
      · rw [e]; exact ⟨acc, k, m, hinv⟩
      · rcases hc3 with ⟨_, e, _⟩ | ⟨_, tx, _, hring, _, hc4⟩
        · rw [e]; exact ⟨acc, k, m, hinv⟩
        · rcases hc4 with ⟨_, e, _⟩ | ⟨_, _, g2, hpop, hring2⟩
          · rw [e]; exact ⟨acc, k, m, inv_of_ring_eq hinv hring⟩
          · have hlt : k < m := by
              rcases Nat.lt_or_ge k m with hl | hg
              · exact hl
              · have hkm : m = k := by have := hinv.1.hk; omega
                subst hkm
                have := pop_abs_empty c st.ms.g acc m hinv.1
                rw [hpop] at this
                simp at this
            obtain ⟨s1, hpop1, habs1, hoff1⟩ := pop_abs_nonempty c hc st.ms.g acc k m hinv.1 hlt
            rw [hpop] at hpop1
            simp only [Option.some.injEq, Prod.mk.injEq, and_true] at hpop1
            subst hpop1
            exact ⟨acc, k + 1, m, inv_of_ring_eq ⟨habs1, by rw [hoff1]; exact hinv.2⟩ hring2⟩
    have htx1 : r.st.g.tcp_tx_sent_len ≤ r.st.g.tcp_tx_buf_len ∧ r.st.g.tcp_tx_buf_len < U32 := by
      rcases htx with e | ⟨tx, htxe, e⟩
      · rw [e.2.2.1, e.2.1]; exact ⟨hle, hlen⟩
      · have := start_sending_tx c hchunk mem net st.next st.ms.g st.ms.cur_out OUT_FRAME_BYTES
          out_frame_bytes_u32 hle hlen tx htxe
        rw [e.2.2.1, e.2.1]; exact this
    have hs : sys_step c out_buf0 out_buf1 net st (SysOp.step dma mem)
        = some ({ ms := r.st, next := r.next }, SysOut.step r) := by
      simp only [sys_step, hr]
    refine ⟨_, _, hs, ⟨hinv1, htx1.1, htx1.2⟩, ?_⟩
    intro r1 e hne
    simp only [SysOut.step.injEq] at e
    subst e
    exact hproc hne

/-- Every run of events returns, and each of its pipeline steps that ran the transform
started with no send active. -/
theorem sys_exec_inv (c : Config) (hc : c.ok) (hchunk : 0 < c.TCP_TX_CHUNK)
    (out_buf0 out_buf1 : Nat) (net : Nat → NetResp) :
    ∀ (ops : List SysOp) (st : SysState), SysInv c st → sys_ops_ok c ops →
      ∃ st1 tr, sys_exec c out_buf0 out_buf1 net st ops = some (st1, tr) ∧ SysInv c st1 ∧
        ∀ e ∈ tr, ∀ r, e.out = SysOut.step r → r.proc ≠ none →
          e.pre.ms.g.tcp_tx_active = 0 := by
  intro ops
  induction ops with
  | nil =>
    intro st h _
    exact ⟨st, [], rfl, h, fun e he => absurd he (by simp)⟩
  | cons op ops ih =>
    intro st h hops
    obtain ⟨st1, out, hstep, hinv1, hp⟩ :=
      sys_step_inv c hc hchunk out_buf0 out_buf1 net st op h (hops op (List.mem_cons_self _ _))
    obtain ⟨st2, tr, hexec, hinv2, hall⟩ :=
      ih st1 hinv1 (fun o ho => hops o (List.mem_cons_of_mem _ ho))
    have hs : sys_exec c out_buf0 out_buf1 net st (op :: ops)
        = some (st2, { pre := st, op := op, out := out } :: tr) := by
      simp only [sys_exec, hstep, hexec]
    refine ⟨st2, _, hs, hinv2, ?_⟩
    intro e he r hr hne
    rcases List.mem_cons.1 he with e1 | e1
    · subst e1
      exact hp r hr hne
    · exact hall e e1 r hr hne

/-- C19 (no overlap violation). From power-up, every finite interleaving of accepts,
deliveries of well-formed chains, peer-close notifications, window-available signals
(`send_callback`) and pipeline steps, under any transport answers, runs to its end; and
whenever a pipeline step of the run invoked `process_one_frame` (with output buffer `cur_out`
of that moment), `tcp_tx_active` was 0 then, so `cur_out` was not the source of an active
send: `tcp_tx_active` is 0 or `tcp_tx_buf_ptr` differs from `cur_out`. -/
theorem no_overlap_violation (c : Config) (hc : c.ok) (hchunk : 0 < c.TCP_TX_CHUNK)
    (out_buf0 out_buf1 : Nat) (net : Nat → NetResp) (ops : List SysOp)
    (hops : sys_ops_ok c ops) :
    ∃ st tr, sys_exec c out_buf0 out_buf1 net (sys_init c out_buf0) ops = some (st, tr) ∧
      ∀ e ∈ tr, ∀ r, e.out = SysOut.step r → r.proc ≠ none →
        e.pre.ms.g.tcp_tx_active = 0 ∧
        (e.pre.ms.g.tcp_tx_active = 0 ∨ e.pre.ms.g.tcp_tx_buf_ptr ≠ e.pre.ms.cur_out) := by
  obtain ⟨st, tr, hexec, _, hall⟩ :=
    sys_exec_inv c hc hchunk out_buf0 out_buf1 net ops _ (sys_inv_init c hc out_buf0) hops
  exact ⟨st, tr, hexec, fun e he r hr hne => ⟨hall e he r hr hne, Or.inl (hall e he r hr hne)⟩⟩

/-- Witness for C19: the compiled configuration; a connection is accepted, three bytes are
delivered, the pipeline makes a step, the peer closes. -/
theorem no_overlap_violation_witness :
    echo_config.ok ∧ 0 < echo_config.TCP_TX_CHUNK ∧
    sys_ops_ok echo_config
      [SysOp.accept 5, SysOp.recv 5 [[1, 2, 3]], SysOp.step idle_dma (fun _ => 0),
        SysOp.sent 5 (fun _ => 0), SysOp.recv 5 []] ∧
    ∃ st tr, sys_exec echo_config 1000 2000 (fun _ => { sndbuf := 5, write_err := ERR_OK })
        (sys_init echo_config 1000)
        [SysOp.accept 5, SysOp.recv 5 [[1, 2, 3]], SysOp.step idle_dma (fun _ => 0),
          SysOp.sent 5 (fun _ => 0), SysOp.recv 5 []] = some (st, tr) ∧
      ∀ e ∈ tr, ∀ r, e.out = SysOut.step r → r.proc ≠ none →
        e.pre.ms.g.tcp_tx_active = 0 ∧
        (e.pre.ms.g.tcp_tx_active = 0 ∨ e.pre.ms.g.tcp_tx_buf_ptr ≠ e.pre.ms.cur_out) :=
  ⟨by decide, by decide, by decide,
    no_overlap_violation echo_config (by decide) (by decide) 1000 2000 _ _ (by decide)⟩

/-! ## The chunks handed to the transport -/

theorem mem_read_length (mem : Nat → u8) (a n : Nat) : (mem_read mem a n).length = n := by
  simp [mem_read]

/-- The calls the send loop adds to its log obey the chunk bounds. -/
theorem send_loop_chunks (c : Config) (hchunk : 0 < c.TCP_TX_CHUNK) (mem : Nat → u8)
    (net : Nat → NetResp) (tpcb : Nat) :
    ∀ (fuel i : Nat) (s : EchoState) (log : List Ev),
      s.tcp_tx_sent_len ≤ s.tcp_tx_buf_len → s.tcp_tx_buf_len < U32 →
      s.tcp_tx_buf_len - s.tcp_tx_sent_len < fuel →
      ∃ r ext, send_loop c mem net tpcb fuel i s log = some r ∧ r.log = log ++ ext ∧
        chunks_ok c net s.tcp_tx_buf_len i s.tcp_tx_sent_len ext := by
  intro fuel
  induction fuel with
  | zero => intro i s log _ _ h; omega
  | succ fuel ih =>
    intro i s log hle hlen hfuel
    rw [send_loop]
    by_cases hlt : s.tcp_tx_sent_len < s.tcp_tx_buf_len
    · simp only [if_pos hlt]
      by_cases hz : (net i).sndbuf % 65536 = 0
      · simp only [if_pos hz]
        exact ⟨_, [], rfl, by simp, trivial⟩
      · simp only [if_neg hz]
        have hrem : u32_sub s.tcp_tx_buf_len s.tcp_tx_sent_len
            = s.tcp_tx_buf_len - s.tcp_tx_sent_len := u32_sub_of_le hle hlen
        rw [hrem]
        generalize hch : (if (if s.tcp_tx_buf_len - s.tcp_tx_sent_len > c.TCP_TX_CHUNK
            then c.TCP_TX_CHUNK else s.tcp_tx_buf_len - s.tcp_tx_sent_len)
              > (net i).sndbuf % 65536
            then (net i).sndbuf % 65536
            else (if s.tcp_tx_buf_len - s.tcp_tx_sent_len > c.TCP_TX_CHUNK
              then c.TCP_TX_CHUNK else s.tcp_tx_buf_len - s.tcp_tx_sent_len)) = chunk
        have hc1 : 1 ≤ chunk ∧ chunk ≤ s.tcp_tx_buf_len - s.tcp_tx_sent_len ∧
            chunk ≤ c.TCP_TX_CHUNK ∧ chunk ≤ (net i).sndbuf % 65536 := by
          rw [← hch]
          split <;> split <;> omega
        have hwin : (net i).sndbuf % 65536 ≤ (net i).sndbuf := Nat.mod_le _ _
        have hl := mem_read_length mem (s.tcp_tx_buf_ptr + s.tcp_tx_sent_len) chunk
        by_cases he : (net i).write_err = ERR_OK
        · simp only [if_pos he]
          have hadd : u32_add s.tcp_tx_sent_len chunk = s.tcp_tx_sent_len + chunk :=
            u32_add_of_lt (by omega)
          rw [hadd]
          obtain ⟨r, ext, hr, hlog, hok⟩ :=
            ih (i + 1) { s with tcp_tx_sent_len := s.tcp_tx_sent_len + chunk }
              (log ++ [Ev.tcp_write tpcb
                (mem_read mem (s.tcp_tx_buf_ptr + s.tcp_tx_sent_len) chunk)
                (net i).write_err] ++ [Ev.tcp_output tpcb])
              (by show s.tcp_tx_sent_len + chunk ≤ s.tcp_tx_buf_len; omega) hlen
              (by show s.tcp_tx_buf_len - (s.tcp_tx_sent_len + chunk) < fuel; omega)
          refine ⟨r, Ev.tcp_write tpcb
              (mem_read mem (s.tcp_tx_buf_ptr + s.tcp_tx_sent_len) chunk) (net i).write_err
              :: Ev.tcp_output tpcb :: ext, hr, ?_, ?_⟩
          · rw [hlog]; simp
          · simp only [chunks_ok, hl, if_pos he]
            exact ⟨by omega, by omega, by omega, by omega, by omega, trivial, hok⟩
        · simp only [if_neg he]
          have hext : chunks_ok c net s.tcp_tx_buf_len i s.tcp_tx_sent_len
              [Ev.tcp_write tpcb (mem_read mem (s.tcp_tx_buf_ptr + s.tcp_tx_sent_len) chunk)
                (net i).write_err] := by
            simp only [chunks_ok, hl]
            exact ⟨by omega, by omega, by omega, by omega, by omega, trivial, trivial⟩
          by_cases hm : (net i).write_err = ERR_MEM
          · simp only [if_pos hm]
            exact ⟨_, _, rfl, rfl, hext⟩
          · simp only [if_neg hm]
            exact ⟨_, _, rfl, rfl, hext⟩
    · simp only [if_neg hlt]
      have hge : s.tcp_tx_sent_len ≥ s.tcp_tx_buf_len := by omega
      simp only [if_pos hge]
      exact ⟨_, [], rfl, by simp, trivial⟩

/-- C21 (outbound chunk bounds). One invocation of `send_callback` returns, and replaying
its log against the transport answers shows for every chunk it handed to `tcp_write`: the
chunk is non-empty, at most `TCP_TX_CHUNK` bytes, at most the window `tcp_sndbuf` reported
on the pass of that write, and at most the bytes not yet queued before the write. The
bytes-queued counter grows by exactly the bytes `tcp_write` took, and without a hard error
the active flag changes only when the counter reaches the length. When a send is pending and
the window reported on the first pass is 0, the call makes no external call and leaves every
global, counter and active flag included, as it was. -/
theorem outbound_chunk_bounds (c : Config) (hchunk : 0 < c.TCP_TX_CHUNK) (mem : Nat → u8)
    (net : Nat → NetResp) (i : Nat) (s : EchoState) (tpcb : Nat)
    (hle : s.tcp_tx_sent_len ≤ s.tcp_tx_buf_len) (hlen : s.tcp_tx_buf_len < U32) :
    ∃ r, send_callback c mem net i s tpcb = some r ∧
      chunks_ok c net s.tcp_tx_buf_len i s.tcp_tx_sent_len r.log ∧
      r.g.tcp_tx_sent_len = s.tcp_tx_sent_len + (queued r.log).length ∧
      (no_hard_error net →
        r.g.tcp_tx_active = s.tcp_tx_active ∨ r.g.tcp_tx_sent_len = s.tcp_tx_buf_len) ∧
      (s.tcp_tx_active ≠ 0 → s.tcp_tx_sent_len < s.tcp_tx_buf_len →
        (net i).sndbuf % 65536 = 0 →
        r = { g := s, ret := ERR_OK, log := [], next := i + 1 }) := by
  obtain ⟨r, hr, _, _, h3, _, h5, _, _, _, h9⟩ :=
    send_callback_post c hchunk mem net tpcb i s hle hlen
  have hq : r.g.tcp_tx_sent_len = s.tcp_tx_sent_len + (queued r.log).length := by
    rw [h5, mem_read_length]; omega
  refine ⟨r, hr, ?_, hq, fun hn => (h9 hn).2, ?_⟩
  · unfold send_callback at hr
    by_cases ha : s.tcp_tx_active = 0
    · rw [if_pos ha] at hr
      simp only [Option.some.injEq] at hr
      subst hr
      trivial
    · rw [if_neg ha] at hr
      obtain ⟨r1, ext, hr1, hlog, hok⟩ :=
        send_loop_chunks c hchunk mem net tpcb (s.tcp_tx_buf_len - s.tcp_tx_sent_len + 1) i s []
          hle hlen (by omega)
      rw [hr] at hr1
      simp only [Option.some.injEq] at hr1
      subst hr1
      rw [hlog]
      simpa using hok
  · intro ha hlt hz
    have hr2 : send_callback c mem net i s tpcb
        = some { g := s, ret := ERR_OK, log := [], next := i + 1 } := by
      unfold send_callback
      rw [if_neg ha, send_loop]
      simp only [if_pos hlt, if_pos hz]
    rw [hr] at hr2
    exact Option.some.inj hr2

/-- Witness for C21: the compiled configuration (`TCP_TX_CHUNK` = 1460), a send of two bytes
pending. -/
theorem outbound_chunk_bounds_witness :
    echo_config.TCP_TX_CHUNK = 1460 ∧ 0 < echo_config.TCP_TX_CHUNK ∧
    scenario_sending.tcp_tx_sent_len ≤ scenario_sending.tcp_tx_buf_len ∧
    scenario_sending.tcp_tx_buf_len < U32 ∧
    ∃ r, send_callback echo_config (fun _ => 0)
        (fun _ => { sndbuf := 1, write_err := ERR_OK }) 0 scenario_sending 5 = some r ∧
      chunks_ok echo_config (fun _ => { sndbuf := 1, write_err := ERR_OK })
        scenario_sending.tcp_tx_buf_len 0 scenario_sending.tcp_tx_sent_len r.log ∧
      r.g.tcp_tx_sent_len = scenario_sending.tcp_tx_sent_len + (queued r.log).length ∧
      (no_hard_error (fun _ => { sndbuf := 1, write_err := ERR_OK }) →
        r.g.tcp_tx_active = scenario_sending.tcp_tx_active ∨
        r.g.tcp_tx_sent_len = scenario_sending.tcp_tx_buf_len) ∧
      (scenario_sending.tcp_tx_active ≠ 0 →
        scenario_sending.tcp_tx_sent_len < scenario_sending.tcp_tx_buf_len →
        ({ sndbuf := 1, write_err := ERR_OK } : NetResp).sndbuf % 65536 = 0 →
        r = { g := scenario_sending, ret := ERR_OK, log := [], next := 0 + 1 }) :=
  ⟨by decide, by decide, by decide, by decide,
    outbound_chunk_bounds echo_config (by decide) (fun _ => 0)
      (fun _ => { sndbuf := 1, write_err := ERR_OK }) 0 scenario_sending 5 (by decide)
      (by decide)⟩

/-! ## The bounded wait for the DMA engine -/

/-- One wait loop always returns: after at most `100000001 - timeout` further polls, all but
the last of which saw the channel busy; it reports idle when the last poll saw the channel
idle, and gives up when the last poll was busy and the poll budget is spent. -/
theorem dma_wait_spec (busy : Nat → Bool) :
    ∀ (fuel : Nat) (timeout : Int) (polls : Nat), 0 ≤ timeout → timeout ≤ 100000000 →
      100000001 - timeout ≤ (fuel : Int) →
      ∃ b n, dma_wait busy fuel timeout polls = some (b, n) ∧ polls < n ∧
        (n : Int) ≤ (polls : Int) + (100000001 - timeout) ∧
        (∀ j, polls ≤ j → j + 1 < n → busy j = true) ∧
        (b = true → busy (n - 1) = false) ∧
        (b = false → busy (n - 1) = true ∧ (n : Int) = (polls : Int) + (100000001 - timeout)) := by
  intro fuel
  induction fuel with
  | zero => intro timeout polls h0 h1 h2; simp at h2; omega
  | succ fuel ih =>
    intro timeout polls h0 h1 h2
    rw [dma_wait]
    by_cases hb : busy polls = true
    · rw [if_pos hb]
      by_cases ht : timeout + 1 > 100000000
      · rw [if_pos ht]
        refine ⟨false, polls + 1, rfl, by omega, by push_cast; omega, ?_, ?_, ?_⟩
        · intro j h3 h4; omega
        · intro e; exact absurd e (by decide)
        · intro _
          refine ⟨by rw [Nat.add_sub_cancel]; exact hb, ?_⟩
          push_cast; omega
      · rw [if_neg ht]
        obtain ⟨b, n, heq, hn, hle, hall, ht1, hf1⟩ :=
          ih (timeout + 1) (polls + 1) (by omega) (by omega) (by push_cast at h2; omega)
        refine ⟨b, n, heq, by omega, by push_cast at hle; omega, ?_, ht1, ?_⟩
        · intro j h3 h4
          by_cases hj : j = polls
          · rw [hj]; exact hb
          · exact hall j (by omega) h4
        · intro e
          obtain ⟨h5, h6⟩ := hf1 e
          refine ⟨h5, ?_⟩
          push_cast at h6; omega
    · rw [if_neg hb]
      refine ⟨true, polls + 1, rfl, by omega, by push_cast; omega, ?_, ?_, ?_⟩
      · intro j h3 h4; omega
      · intro _
        rw [Nat.add_sub_cancel]
        simpa using hb
      · intro e; exact absurd e (by decide)

/-- A wait loop started afresh: at most 100000001 polls; it gives up exactly when all
100000001 polls saw the channel busy. -/
theorem dma_wait_fresh (busy : Nat → Bool) :
    ∃ b n, dma_wait busy 100000002 0 0 = some (b, n) ∧ 0 < n ∧ n ≤ 100000001 ∧
      (b = false → n = 100000001 ∧ ∀ j, j < 100000001 → busy j = true) ∧
      (b = true → busy (n - 1) = false ∧ ∀ j, j + 1 < n → busy j = true) := by
  obtain ⟨b, n, heq, hn, hle, hall, ht, hf⟩ :=
    dma_wait_spec busy 100000002 0 0 (by omega) (by omega) (by norm_num)
  refine ⟨b, n, heq, hn, by push_cast at hle; omega, ?_, ?_⟩
  · intro e
    obtain ⟨h1, h2⟩ := hf e
    have hn1 : n = 100000001 := by push_cast at h2; omega
    refine ⟨hn1, ?_⟩
    intro j hj
    by_cases hlast : j + 1 < n
    · exact hall j (Nat.zero_le _) hlast
    · have : j = n - 1 := by omega
      rw [this]; exact h1
  · intro e
    exact ⟨ht e, fun j hj => hall j (Nat.zero_le _) hj⟩

/-- C22 (the hardware wait is timeout-bounded). For every DMA engine, whatever its busy
status answers (busy forever included), `process_one_frame` returns, having polled each
channel at most 100000001 times. It returns -1 exactly when a submission failed (no poll is
made then); -2 exactly when both submissions succeeded and either the first channel waited
for was busy at all of its 100000001 polls, or that channel was seen idle and the second one
was busy at all of its 100000001 polls; and 0 exactly when both submissions succeeded and
each channel was seen idle at its last poll, within 100000001 polls. -/
theorem hardware_wait_bounded (dma : Dma) :
    ∃ pr, process_one_frame dma = some pr ∧
      pr.polls_s2mm ≤ 100000001 ∧ pr.polls_mm2s ≤ 100000001 ∧
      (pr.ret = -1 ∨ pr.ret = -2 ∨ pr.ret = 0) ∧
      (pr.ret = -1 ↔ (dma.s2mm ≠ XST_SUCCESS ∨ dma.mm2s ≠ XST_SUCCESS)) ∧
      (pr.ret = -1 → pr.polls_s2mm = 0 ∧ pr.polls_mm2s = 0) ∧
      (pr.ret = -2 ↔ (dma.s2mm = XST_SUCCESS ∧ dma.mm2s = XST_SUCCESS ∧
        ((∀ j, j < 100000001 → dma.busy_s2mm j = true) ∨
         ((∃ j, j < 100000001 ∧ dma.busy_s2mm j = false) ∧
           ∀ j, j < 100000001 → dma.busy_mm2s j = true)))) ∧
      (pr.ret = -2 → pr.polls_s2mm = 100000001 ∨ pr.polls_mm2s = 100000001) ∧
      (pr.ret = 0 ↔ (dma.s2mm = XST_SUCCESS ∧ dma.mm2s = XST_SUCCESS ∧
        (∃ j, j < 100000001 ∧ dma.busy_s2mm j = false) ∧
        (∃ j, j < 100000001 ∧ dma.busy_mm2s j = false))) ∧
      (pr.ret = 0 → 0 < pr.polls_s2mm ∧ dma.busy_s2mm (pr.polls_s2mm - 1) = false ∧
        0 < pr.polls_mm2s ∧ dma.busy_mm2s (pr.polls_mm2s - 1) = false) := by
  by_cases hsub : dma.s2mm ≠ XST_SUCCESS ∨ dma.mm2s ≠ XST_SUCCESS
  · have hpf : process_one_frame dma = some { ret := -1, polls_s2mm := 0, polls_mm2s := 0 } := by
      unfold process_one_frame
      rw [if_pos hsub]
    refine ⟨_, hpf, by show (0 : Nat) ≤ 100000001; omega, by show (0 : Nat) ≤ 100000001; omega,
      Or.inl rfl, ⟨fun _ => hsub, fun _ => rfl⟩, fun _ => ⟨rfl, rfl⟩, ⟨?_, ?_⟩, ?_, ⟨?_, ?_⟩, ?_⟩
    · intro e; exact absurd e (by simp)
    · rintro ⟨a, b, _⟩
      rcases hsub with h | h
      · exact absurd a h
      · exact absurd b h
    · intro e; exact absurd e (by simp)
    · intro e; exact absurd e (by simp)
    · rintro ⟨a, b, _⟩
      rcases hsub with h | h
      · exact absurd a h
      · exact absurd b h
    · intro e; exact absurd e (by simp)
  · have hs1 : dma.s2mm = XST_SUCCESS := by
      by_contra h; exact hsub (Or.inl h)
    have hs2 : dma.mm2s = XST_SUCCESS := by
      by_contra h; exact hsub (Or.inr h)
    obtain ⟨b1, n1, h1, hn1, hle1, hf1, ht1⟩ := dma_wait_fresh dma.busy_s2mm
    obtain ⟨b2, n2, h2, hn2, hle2, hf2, ht2⟩ := dma_wait_fresh dma.busy_mm2s
    cases b1 with
    | false =>
      obtain ⟨e1, hall1⟩ := hf1 rfl
      have hpf : process_one_frame dma
          = some { ret := -2, polls_s2mm := n1, polls_mm2s := 0 } := by
        unfold process_one_frame
        rw [if_neg hsub, h1]
      refine ⟨_, hpf, hle1, by show (0 : Nat) ≤ 100000001; omega, Or.inr (Or.inl rfl),
        ⟨?_, ?_⟩, ?_, ⟨fun _ => ⟨hs1, hs2, Or.inl hall1⟩, fun _ => rfl⟩, fun _ => Or.inl e1,
        ⟨?_, ?_⟩, ?_⟩
      · intro e; exact absurd e (by simp)
      · intro e; exact absurd e hsub
      · intro e; exact absurd e (by simp)
      · intro e; exact absurd e (by simp)
      · rintro ⟨_, _, ⟨j, hj, hjb⟩, _⟩
        rw [hall1 j hj] at hjb
        exact absurd hjb (by decide)
      · intro e; exact absurd e (by simp)
    | true =>
      obtain ⟨hidle1, _⟩ := ht1 rfl
      have hex1 : ∃ j, j < 100000001 ∧ dma.busy_s2mm j = false :=
        ⟨n1 - 1, by omega, hidle1⟩
      cases b2 with
      | false =>
        obtain ⟨e2, hall2⟩ := hf2 rfl
        have hpf : process_one_frame dma
            = some { ret := -2, polls_s2mm := n1, polls_mm2s := n2 } := by
          unfold process_one_frame
          rw [if_neg hsub, h1]
          simp only [h2]
        refine ⟨_, hpf, hle1, hle2, Or.inr (Or.inl rfl), ⟨?_, ?_⟩, ?_,
          ⟨fun _ => ⟨hs1, hs2, Or.inr ⟨hex1, hall2⟩⟩, fun _ => rfl⟩, fun _ => Or.inr e2,
          ⟨?_, ?_⟩, ?_⟩
        · intro e; exact absurd e (by simp)
        · intro e; exact absurd e hsub
        · intro e; exact absurd e (by simp)
        · intro e; exact absurd e (by simp)
        · rintro ⟨_, _, _, ⟨j, hj, hjb⟩⟩
          rw [hall2 j hj] at hjb
          exact absurd hjb (by decide)
        · intro e; exact absurd e (by simp)
      | true =>
        obtain ⟨hidle2, _⟩ := ht2 rfl
        have hex2 : ∃ j, j < 100000001 ∧ dma.busy_mm2s j = false :=
          ⟨n2 - 1, by omega, hidle2⟩
        have hpf : process_one_frame dma
            = some { ret := 0, polls_s2mm := n1, polls_mm2s := n2 } := by
          unfold process_one_frame
          rw [if_neg hsub, h1]
          simp only [h2]
        refine ⟨_, hpf, hle1, hle2, Or.inr (Or.inr rfl), ⟨?_, ?_⟩, ?_, ⟨?_, ?_⟩, ?_,
          ⟨fun _ => ⟨hs1, hs2, hex1, hex2⟩, fun _ => rfl⟩,
          fun _ => ⟨hn1, hidle1, hn2, hidle2⟩⟩
        · intro e; exact absurd e (by simp)
        · intro e; exact absurd e hsub
        · intro e; exact absurd e (by simp)
        · intro e; exact absurd e (by simp)
        · rintro ⟨_, _, hor⟩
          rcases hor with hall | ⟨_, hall⟩
          · obtain ⟨j, hj, hjb⟩ := hex1
            rw [hall j hj] at hjb
            exact absurd hjb (by decide)
          · obtain ⟨j, hj, hjb⟩ := hex2
            rw [hall j hj] at hjb
            exact absurd hjb (by decide)
        · intro e; exact absurd e (by simp)

/-! ## The fill offset and the copies stay inside the slot -/

/-- Along a run every call starts with the fill offset inside the slot and keeps to the slot
discipline. -/
theorem exec_offsets (c : Config) (hc : c.ok) :
    ∀ (ops : List Op) (s : EchoState) (acc : List u8) (k m : Nat),
      Inv c s acc k m → ops_ok c ops →
      ∃ s1 tr, exec c s ops = some (s1, tr) ∧ s1.tcp_rx_offset < c.IN_FRAME_BYTES ∧
        ∀ e ∈ tr, e.pre.tcp_rx_offset < c.IN_FRAME_BYTES ∧ entry_ok c e := by
  intro ops
  induction ops with
  | nil =>
    intro s acc k m h _
    exact ⟨s, [], rfl, h.2, fun e he => absurd he (by simp)⟩
  | cons op ops ih =>
    intro s acc k m h hops
    obtain ⟨s1, out, m1, hstep, hinv1, _, hent⟩ :=
      step_post c hc s acc k m op h (hops op (List.mem_cons_self _ _))
    obtain ⟨s2, tr, hexec, hoff2, hall⟩ :=
      ih s1 _ _ m1 hinv1 (fun o ho => hops o (List.mem_cons_of_mem _ ho))
    have hs : exec c s (op :: ops) = some (s2, { pre := s, op := op, out := out } :: tr) := by
      simp only [exec, hstep, hexec]
    refine ⟨s2, _, hs, hoff2, ?_⟩
    intro e he
    rcases List.mem_cons.1 he with e1 | e1
    · subst e1
      exact ⟨h.2, hent⟩
    · exact hall e e1

/-- C23 (the fill offset stays inside the slot). For a frame size of at least 65535 bytes
(the compiled one is 172800) and chains whose length fields are 16-bit values, every run of
deliveries, peeks and pops from the initial state runs to its end; `tcp_rx_offset` is below
`IN_FRAME_BYTES` in the state reached and in the state every call of the run started from;
and every `memcpy` of every delivery went to a slot inside the ring at byte positions
`off .. off + len - 1` with `off + len ≤ IN_FRAME_BYTES`. Each `memcpy` is recorded by
`rx_copy` with the write index and the fill offset of the moment of the copy. -/
theorem fill_offset_in_slot (c : Config) (hc : c.ok) (hF : 65535 ≤ c.IN_FRAME_BYTES)
    (ops : List Op) (hops : ops_u16 ops) :
    ∃ s tr, exec c (EchoState.init c) ops = some (s, tr) ∧
      s.tcp_rx_offset < c.IN_FRAME_BYTES ∧
      (∀ e ∈ tr, e.pre.tcp_rx_offset < c.IN_FRAME_BYTES) ∧
      (∀ e ∈ tr, ∀ err copied log, e.out = Out.recv err copied log →
        ∀ slot off len ready, Ev.memcpy slot off len ready ∈ log →
          0 ≤ slot ∧ slot < (c.NUM_BUFFERS : Int) ∧ off + len ≤ c.IN_FRAME_BYTES) ∧
      (∀ (r r2 : Rx) (src : List u8), rx_copy c r src = some r2 →
        r.g.tcp_rx_offset + src.length ≤ c.IN_FRAME_BYTES ∧
        ∃ f, r2.log = r.log ++
          [Ev.memcpy r.g.tcp_rx_wr_idx r.g.tcp_rx_offset src.length f]) := by
  have hok : ops_ok c ops := by
    intro op hop
    have h := hops op hop
    cases op with
    | recv tpcb p =>
      exact ⟨fun seg hs => ⟨h.1 seg hs, le_trans (h.1 seg hs) hF⟩, h.2⟩
    | peek => trivial
    | pop => trivial
  obtain ⟨s, tr, hexec, hoff, hall⟩ := exec_offsets c hc ops _ [] 0 0 (inv_init c hc) hok
  refine ⟨s, tr, hexec, hoff, fun e he => (hall e he).1, ?_, ?_⟩
  · intro e he err copied log hout slot off len ready hmem
    have hent := (hall e he).2
    unfold entry_ok at hent
    rw [hout] at hent
    have := hent _ hmem
    exact ⟨this.2.1, this.2.2.1, this.2.2.2⟩
  · intro r r2 src hcopy
    obtain ⟨f, hlog, _, _⟩ := rx_copy_inv c r r2 src hcopy
    refine ⟨?_, f, hlog⟩
    unfold rx_copy at hcopy
    split at hcopy
    · split at hcopy
      · assumption
      · exact absurd hcopy (by simp)
    · exact absurd hcopy (by simp)

/-- Witness for C23: the compiled configuration; three bytes are delivered, the consumer
pops, a chain of two segments is delivered. -/
theorem fill_offset_in_slot_witness :
    echo_config.ok ∧ 65535 ≤ echo_config.IN_FRAME_BYTES ∧
    echo_config.IN_FRAME_BYTES = 172800 ∧
    ops_u16 [Op.recv 1 [[1, 2, 3]], Op.pop, Op.recv 1 [[4, 5], [6]]] ∧
    ∃ s tr, exec echo_config (EchoState.init echo_config)
        [Op.recv 1 [[1, 2, 3]], Op.pop, Op.recv 1 [[4, 5], [6]]] = some (s, tr) ∧
      s.tcp_rx_offset < echo_config.IN_FRAME_BYTES ∧
      (∀ e ∈ tr, e.pre.tcp_rx_offset < echo_config.IN_FRAME_BYTES) ∧
      (∀ e ∈ tr, ∀ err copied log, e.out = Out.recv err copied log →
        ∀ slot off len ready, Ev.memcpy slot off len ready ∈ log →
          0 ≤ slot ∧ slot < (echo_config.NUM_BUFFERS : Int) ∧
          off + len ≤ echo_config.IN_FRAME_BYTES) ∧
      (∀ (r r2 : Rx) (src : List u8), rx_copy echo_config r src = some r2 →
        r.g.tcp_rx_offset + src.length ≤ echo_config.IN_FRAME_BYTES ∧
        ∃ f, r2.log = r.log ++
          [Ev.memcpy r.g.tcp_rx_wr_idx r.g.tcp_rx_offset src.length f]) :=
  ⟨by decide, by decide, by decide, by decide,
    fill_offset_in_slot echo_config (by decide) (by decide) _ (by decide)⟩

/-- Without the bound on the frame size the copy of the remainder can leave the slot: with
frames of four bytes, a segment of nine bytes fills slot 0 and the five bytes left do not
fit slot 1, so the delivery has no defined result. -/
theorem long_segment_leaves_slot :
    recv_callback scenario_config (EchoState.init scenario_config) 1
      [[1, 2, 3, 4, 5, 6, 7, 8, 9]] = none := by
  decide

end EthTcp
